import Mathlib

/-!
# deanimator: streaming animation detection and first-frame extraction

A shallow embedding of the Go packages `window`, `gif`, `png`, `webp` and of the
format registry of `deanimator`, followed by theorems about them.

Conventions of the embedding:

* a byte stream is a `List Byte`; the `io.Reader` handed to the library is an
  in-memory reader (`bytes.Reader`), whose `Read(p)` returns `(0, io.EOF)` when
  no byte is left and otherwise copies `min (len p) remaining` bytes;
* an `io.Writer` sink is the list of bytes written so far and never fails;
* Go's `(value, error)` results are tuples whose error component is an
  `Option GoError` (`none` is `nil`);
* `int` is 64 bits wide, so that the conversion `int(x)` of a `uint32` is exact;
  counts and sizes are natural numbers;
* a run-time panic and the exhaustion of the fuel of an unbounded `for` loop are
  explicit outcomes (`Outcome.panic`, `Outcome.fuelExhausted`); the top-level
  functions give their loops more fuel than the stream has bytes, and every
  iteration that goes on consumes at least one byte.
-/

namespace Deanimator

/-- A byte of a stream. -/
abbrev Byte := Fin 256

/-- The message of a `fmt.Errorf("...: %w", err)` wrapper in package `webp`. -/
inductive WrapMsg where
  | cannotCreateReader
  | unableToGetNextChunk
  | unableToReadReserved
  | unableToReadCanvasSize
  | unableToDiscardANMFData
  | unableToReadANMFBitstream
  | unableToGetNextSubchunk
  deriving DecidableEq, Repr

/-- The error values that the embedded code can return. -/
inductive GoError where
  /-- `io.EOF` -/
  | EOF
  /-- `io.ErrUnexpectedEOF` -/
  | ErrUnexpectedEOF
  /-- `errors.New("window is incorrect length")` of `ReadWindow` -/
  | windowIncorrectLength
  /-- `errors.New("invalid png file")` of `png.IsAnimated` -/
  | invalidPngFile
  /-- `png.errUnderflow` -/
  | errUnderflow
  /-- `deanimator.ErrFormat` -/
  | ErrFormat
  /-- `bufio.ErrBufferFull` -/
  | ErrBufferFull
  /-- `webp.errMalformedImage` -/
  | errMalformedImage
  /-- `fmt.Errorf("not an animated image")` of `webp.RenderFirstFrame` -/
  | notAnAnimatedImage
  /-- `riff: missing padding byte` -/
  | riffMissingPaddingByte
  /-- `riff: missing RIFF chunk header` -/
  | riffMissingRIFFChunkHeader
  /-- `riff: list subchunk too long` -/
  | riffListSubchunkTooLong
  /-- `riff: short chunk data` -/
  | riffShortChunkData
  /-- `riff: short chunk header` -/
  | riffShortChunkHeader
  /-- `riff: stale reader` -/
  | riffStaleReader
  /-- `fmt.Errorf(msg + ": %w", inner)` -/
  | wrapped (msg : WrapMsg) (inner : GoError)
  deriving DecidableEq, Repr

/-- The result of running a piece of Go code: a value, a run-time panic, or the
loop fuel of the embedding running out. -/
inductive Outcome (α : Type) where
  | ok (a : α)
  | panic
  | fuelExhausted
  deriving DecidableEq, Repr

/-- The outcome with a function applied to its value. -/
def Outcome.map {α β : Type} (f : α → β) : Outcome α → Outcome β
  | .ok a => .ok (f a)
  | .panic => .panic
  | .fuelExhausted => .fuelExhausted

/-- `make([]byte, n)`: `n` zero bytes. -/
def zeros (n : Nat) : List Byte := List.replicate n 0

/-- The builtin `copy(dst, src)`: the contents of `dst` afterwards. -/
def copy (dst src : List Byte) : List Byte :=
  src.take dst.length ++ dst.drop src.length

/-! ## Package `window` -/

/-- The struct `window.WindowedReader`: `r` is what is left of the underlying
in-memory stream, `previous` is `none` for the nil slice. -/
structure WindowedReader where
  r : List Byte
  windowSize : Nat
  previous : Option (List Byte)
  deriving DecidableEq, Repr

/-- `window.NewReader`. -/
def NewReader (r : List Byte) (size : Nat) : WindowedReader :=
  { r := r, windowSize := size, previous := none }

/-- The second half of `ReadWindow` (from `next := make([]byte, 1)` on), entered
with `previous` being the current value of `w.previous`. -/
def readNext (w : WindowedReader) (window previous : List Byte) (firstRead : Bool) :
    Outcome (Nat × Option GoError × List Byte × WindowedReader) :=
  match w.r with
  | [] =>
    if firstRead then .ok (previous.length, none, copy window previous, w)
    else .ok (0, some .EOF, window, w)
  | b :: rest =>
    match previous with
    | [] => .panic
    | _ :: tl =>
      .ok (w.windowSize, none, (copy window previous).set (w.windowSize - 1) b,
        { w with r := rest, previous := some (tl ++ [b]) })

/-- `(*WindowedReader).ReadWindow`: the count, the error, the contents of the
caller's buffer afterwards and the reader afterwards. `make` panics on a
negative length (window size 0) and `w.previous[1:]` panics on an empty
`previous` (window size 1). -/
def ReadWindow (w : WindowedReader) (window : List Byte) :
    Outcome (Nat × Option GoError × List Byte × WindowedReader) :=
  if window.length ≠ w.windowSize then
    .ok (0, some .windowIncorrectLength, window, w)
  else
    match w.previous with
    | some previous => readNext w window previous false
    | none =>
      if w.windowSize = 0 then .panic
      else
        match w.r with
        | [] => .ok (0, some .EOF, window, w)
        | _ :: _ =>
          let previous := w.r.take (w.windowSize - 1)
          let w1 : WindowedReader := { w with r := w.r.drop (w.windowSize - 1) }
          if previous.length < w.windowSize - 1 then
            .ok (previous.length, none, copy window previous, w1)
          else
            readNext { w1 with previous := some previous } window previous true

/-- The `for i := 0; i < size; i++` loop of `Skip`, with `todo = size - i`
iterations left. -/
def skipLoop (w : WindowedReader) (discard : List Byte) (i : Nat) :
    Nat → Outcome (Nat × Option GoError × WindowedReader)
  | 0 => .ok (i, none, w)
  | todo + 1 =>
    match ReadWindow w discard with
    | .panic => .panic
    | .fuelExhausted => .fuelExhausted
    | .ok (_, some .EOF, _, w1) =>
      if i = 0 then .ok (0, some .EOF, w1) else .ok (i + 1, none, w1)
    | .ok (_, some e, _, w1) => .ok (i, some e, w1)
    | .ok (_, none, discard1, w1) => skipLoop w1 discard1 (i + 1) todo

/-- `(*WindowedReader).Skip` for a non-negative `size`. -/
def Skip (w : WindowedReader) (size : Nat) : Outcome (Nat × Option GoError × WindowedReader) :=
  skipLoop w (zeros w.windowSize) 0 size

/-! ## Package `gif` -/

namespace gif

/-- The `for` loop of `gif.IsAnimated`: the verdict, the error, and the windowed
reader as the loop leaves it, whose field `r` is what has not been consumed of
the reader that `IsAnimated` was given. Every iteration that does not return
consumes at least one byte of the stream. -/
def isAnimatedLoop : Nat → WindowedReader → List Byte → Nat →
    Outcome (Bool × Option GoError × WindowedReader)
  | 0, _, _, _ => .fuelExhausted
  | fuel + 1, wr, data, count =>
    match ReadWindow wr data with
    | .panic => .panic
    | .fuelExhausted => .fuelExhausted
    | .ok (_, some .EOF, _, wr1) => .ok (false, none, wr1)
    | .ok (_, some e, _, wr1) => .ok (false, some e, wr1)
    | .ok (_, none, data1, wr1) =>
      let count1 :=
        if data1.getD 0 0 = 0 ∧ data1.getD 1 0 = 0x21 ∧ data1.getD 2 0 = 249 then count + 1
        else count
      if count1 > 1 then .ok (true, none, wr1)
      else isAnimatedLoop fuel wr1 data1 count1

/-- A call of `gif.IsAnimated` on the in-memory reader over `r`: what it
returns, and the windowed reader it leaves behind, whose field `r` is what the
call has not consumed of the reader it was given. -/
def IsAnimatedRun (r : List Byte) : Outcome (Bool × Option GoError × WindowedReader) :=
  isAnimatedLoop (r.length + 1) (NewReader r 3) (zeros 3) 0

/-- `gif.IsAnimated`: what the call returns. -/
def IsAnimated (r : List Byte) : Outcome (Bool × Option GoError) :=
  (IsAnimatedRun r).map (fun res => (res.1, res.2.1))

end gif

/-! ## Package `png` -/

namespace png

/-- The constant `pngHeader`, `"\x89PNG\r\n\x1a\n"`. -/
def pngHeader : List Byte := [0x89, 0x50, 0x4E, 0x47, 0x0D, 0x0A, 0x1A, 0x0A]

/-- The chunk type `"IDAT"`. -/
def idat : List Byte := [0x49, 0x44, 0x41, 0x54]

/-- The chunk type `"IEND"`. -/
def iend : List Byte := [0x49, 0x45, 0x4E, 0x44]

/-- The chunk type `"acTL"`. -/
def actl : List Byte := [0x61, 0x63, 0x54, 0x4C]

/-- The chunk type `"fcTL"`. -/
def fctl : List Byte := [0x66, 0x63, 0x54, 0x4C]

/-- The variable `iendChunk`. -/
def iendChunk : List Byte := [0, 0, 0, 0, 0x49, 0x45, 0x4E, 0x44, 0xAE, 0x42, 0x60, 0x82]

/-- `binary.BigEndian.Uint32` of (the first four bytes of) a slice. -/
def bigEndianUint32 (b : List Byte) : Nat :=
  (b.getD 0 0).val * 2 ^ 24 + (b.getD 1 0).val * 2 ^ 16 + (b.getD 2 0).val * 2 ^ 8 + (b.getD 3 0).val

/-- The three `Skip` calls that end an iteration of the loop of `png.IsAnimated`:
the rest of the header, the chunk data, the CRC. The result is the reader to go
on with, or the error to return. -/
def skipChunk (wr : WindowedReader) (chunkLength : Nat) : Outcome (Option GoError × WindowedReader) :=
  match Skip wr 7 with
  | .panic => .panic
  | .fuelExhausted => .fuelExhausted
  | .ok (_, some e, wr1) => .ok (some e, wr1)
  | .ok (_, none, wr1) =>
    match Skip wr1 chunkLength with
    | .panic => .panic
    | .fuelExhausted => .fuelExhausted
    | .ok (_, some e, wr2) => .ok (some e, wr2)
    | .ok (_, none, wr2) =>
      match Skip wr2 4 with
      | .panic => .panic
      | .fuelExhausted => .fuelExhausted
      | .ok (_, e, wr3) => .ok (e, wr3)

/-- The `for` loop of `png.IsAnimated`. -/
def isAnimatedLoop : Nat → WindowedReader → List Byte → Outcome (Bool × Option GoError)
  | 0, _, _ => .fuelExhausted
  | fuel + 1, wr, chunkHeader =>
    match ReadWindow wr chunkHeader with
    | .panic => .panic
    | .fuelExhausted => .fuelExhausted
    | .ok (_, some .EOF, _, _) => .ok (false, none)
    | .ok (_, some e, _, _) => .ok (false, some e)
    | .ok (_, none, chunkHeader1, wr1) =>
      let chunkType := chunkHeader1.drop 4
      if chunkType = actl then .ok (true, none)
      else if chunkType = idat ∨ chunkType = iend then .ok (false, none)
      else
        match skipChunk wr1 (bigEndianUint32 (chunkHeader1.take 4)) with
        | .panic => .panic
        | .fuelExhausted => .fuelExhausted
        | .ok (some e, _) => .ok (false, some e)
        | .ok (none, wr2) => isAnimatedLoop fuel wr2 chunkHeader1

/-- `png.IsAnimated`. -/
def IsAnimated (r : List Byte) : Outcome (Bool × Option GoError) :=
  match ReadWindow (NewReader r 8) (zeros 8) with
  | .panic => .panic
  | .fuelExhausted => .fuelExhausted
  | .ok (_, some e, _, _) => .ok (false, some e)
  | .ok (_, none, chunkHeader, wr) =>
    if chunkHeader ≠ pngHeader then .ok (false, some .invalidPngFile)
    else
      match Skip wr 7 with
      | .panic => .panic
      | .fuelExhausted => .fuelExhausted
      | .ok (_, some e, _) => .ok (false, some e)
      | .ok (_, none, wr1) => isAnimatedLoop (r.length + 1) wr1 chunkHeader

end png

/-- The reader that has delivered at least one full window and whose next
window starts with `v`: the first `W - 1` bytes of `v` are buffered. -/
def steady (W : Nat) (v : List Byte) : WindowedReader :=
  { r := v.drop (W - 1), windowSize := W, previous := some (v.take (W - 1)) }

namespace png

/-- A PNG chunk as it lies in a stream: the 4-byte big-endian length field, the
4-byte type, the payload and the 4 CRC bytes. -/
structure Chunk where
  len : List Byte
  typ : List Byte
  data : List Byte
  crc : List Byte
  deriving DecidableEq, Repr

/-- The chunk is complete: its fields have their sizes and the payload is as
long as the length field says. -/
def Chunk.complete (c : Chunk) : Prop :=
  c.len.length = 4 ∧ c.typ.length = 4 ∧ c.data.length = bigEndianUint32 c.len ∧ c.crc.length = 4

instance (c : Chunk) : Decidable c.complete := by unfold Chunk.complete; infer_instance

/-- The bytes of a chunk. -/
def Chunk.bytes (c : Chunk) : List Byte := c.len ++ c.typ ++ c.data ++ c.crc

/-- The bytes of a sequence of chunks. -/
def chunksBytes (cs : List Chunk) : List Byte := (cs.map Chunk.bytes).flatten

/-- A chunk type on which `png.IsAnimated` decides. -/
def decisive (t : List Byte) : Prop := t = actl ∨ t = idat ∨ t = iend

instance (t : List Byte) : Decidable (decisive t) := by unfold decisive; infer_instance

end png

/-- `io.CopyN(dst, src, n)` from an in-memory reader into a sink: the sink and
the reader afterwards, and the error (`io.EOF` when fewer than `n` bytes were
left, after copying those). -/
def copyN (dst src : List Byte) (n : Nat) : List Byte × List Byte × Option GoError :=
  (dst ++ src.take n, src.drop n, if src.length < n then some .EOF else none)

/-- `unicode.IsUpper(rune(b))` for a byte `b`: the upper-case letters of Latin-1,
`A`-`Z`, `À`-`Ö` and `Ø`-`Þ`. -/
def isUpper (b : Byte) : Bool :=
  (0x41 ≤ b.val ∧ b.val ≤ 0x5A) ∨ (0xC0 ≤ b.val ∧ b.val ≤ 0xD6) ∨ (0xD8 ≤ b.val ∧ b.val ≤ 0xDE)

namespace png

/-- The code of `RenderFirstFrame` after its loop. -/
def renderFinish (completeIDAT : Bool) (dst : List Byte) : Option GoError × List Byte :=
  if !completeIDAT then (some .errUnderflow, dst)
  else (none, dst ++ iendChunk)

/-- The `for` loop of `png.RenderFirstFrame` and the code after it: the error
returned and the bytes the sink holds. `src.Read(chunkHeader)` overwrites as many
leading bytes of `chunkHeader` as the stream still has (at most 8) and fails only
when none is left. -/
def renderLoop : Nat → List Byte → List Byte → List Byte → Bool →
    Outcome (Option GoError × List Byte)
  | 0, _, _, _, _ => .fuelExhausted
  | fuel + 1, src, dst, chunkHeader, sawIDAT =>
    if src = [] then .ok (some .EOF, dst)
    else
      let chunkHeader1 := copy chunkHeader (src.take 8)
      let src1 := src.drop 8
      let chunkLength := bigEndianUint32 (chunkHeader1.take 4)
      let chunkType := chunkHeader1.drop 4
      if chunkType = fctl ∧ sawIDAT = true then .ok (renderFinish true dst)
      else
        let sawIDAT1 := sawIDAT || decide (chunkType = idat)
        if isUpper (chunkType.getD 1 0) then
          match copyN (dst ++ chunkHeader1) src1 (chunkLength + 4) with
          | (dst2, _, some e) => .ok (some e, dst2)
          | (dst2, src2, none) => renderLoop fuel src2 dst2 chunkHeader1 sawIDAT1
        else
          match copyN [] src1 (chunkLength + 4) with
          | (_, _, some e) => .ok (some e, dst)
          | (_, src2, none) => renderLoop fuel src2 dst chunkHeader1 sawIDAT1

/-- `png.RenderFirstFrame` on an in-memory source and an initially empty sink. -/
def RenderFirstFrame (src : List Byte) : Outcome (Option GoError × List Byte) :=
  match copyN [] src 8 with
  | (dst, _, some e) => .ok (some e, dst)
  | (dst, src1, none) => renderLoop (src.length + 1) src1 dst (zeros 8) false

/-- What `RenderFirstFrame` forwards of a chunk: all of it when the second byte
of its type is an upper-case letter, nothing otherwise. -/
def forwarded (c : Chunk) : List Byte :=
  if isUpper (c.typ.getD 1 0) then c.bytes else []

end png

namespace gif

/-- The three bytes `gif.IsAnimated` looks for: `0x00`, `'!'`, `0xF9`. -/
def gce : List Byte := [0x00, 0x21, 0xF9]

/-- The pattern occurs in `s` at offset `k`. -/
def occursAt (s : List Byte) (k : Nat) : Prop := (s.drop k).take 3 = gce

instance (s : List Byte) (k : Nat) : Decidable (occursAt s k) := by unfold occursAt; infer_instance

/-- The number of offsets of `s` at which the pattern occurs. -/
def countPat : List Byte → Nat
  | [] => 0
  | b :: t => (if (b :: t).take 3 = gce then 1 else 0) + countPat t

end gif

/-! ## Package `deanimator`: the registry and the facade -/

/-- The size of the buffer of the `bufio.Reader` that `asReader` makes:
`bufio.NewReader` uses the default size of 4096 bytes. -/
def bufferSize : Nat := 4096

/-- The interface `reader` as `asReader` provides it over an in-memory stream, a
`bufio.Reader`: `buf` holds the bytes that are in its buffer and that no `Read`
has consumed yet, at most `bufferSize` of them, `rd` is what is left of the
underlying stream. -/
structure reader where
  buf : List Byte
  rd : List Byte
  deriving DecidableEq, Repr

/-- The bytes that the `Read` calls on a `reader` will deliver, one call after
the other. -/
def reader.stream (r : reader) : List Byte := r.buf ++ r.rd

/-- `asReader` on a stream that has no `Peek` method: a fresh buffered reader. -/
def asReader (r : List Byte) : reader := { buf := [], rd := r }

/-- The buffered reader over the stream `s` once its buffer has been filled and
nothing has been consumed: the buffer holds the first `bufferSize` bytes. -/
def buffered (s : List Byte) : reader :=
  { buf := s.take bufferSize, rd := s.drop bufferSize }

/-- `Peek(n)` of the buffered reader: the next `n` bytes without advancing the
reader. While the buffer holds fewer than `n` bytes and is not full it is filled
from the underlying stream, which delivers all it has up to the free space of
the buffer. A count beyond the size of the buffer gives the buffered bytes with
`ErrBufferFull`; a stream with fewer than `n` bytes gives them with `io.EOF`. -/
def reader.Peek (r : reader) (n : Nat) : (List Byte × Option GoError) × reader :=
  let r1 : reader :=
    if r.buf.length < n ∧ r.buf.length < bufferSize then
      { buf := r.buf ++ r.rd.take (bufferSize - r.buf.length),
        rd := r.rd.drop (bufferSize - r.buf.length) }
    else r
  if bufferSize < n then ((r1.buf, some .ErrBufferFull), r1)
  else if r1.buf.length < n then ((r1.buf, some .EOF), r1)
  else ((r1.buf.take n, none), r1)

/-- `Read(p)` of the buffered reader with `len(p) = n ≥ 1`: the bytes read, the
error and the reader afterwards. A non-empty buffer serves the call alone, so
that fewer than `n` bytes are returned when the buffer holds fewer; with an
empty buffer a call for at least `bufferSize` bytes reads from the underlying
stream directly, and a smaller one fills the buffer first. -/
def reader.Read (r : reader) (n : Nat) : (List Byte × Option GoError) × reader :=
  match r.buf with
  | _ :: _ => ((r.buf.take n, none), { buf := r.buf.drop n, rd := r.rd })
  | [] =>
    if r.rd = [] then (([], some .EOF), r)
    else if bufferSize ≤ n then ((r.rd.take n, none), { buf := [], rd := r.rd.drop n })
    else
      (((r.rd.take bufferSize).take n, none),
        { buf := (r.rd.take bufferSize).drop n, rd := r.rd.drop bufferSize })

/-- The struct `format`. A nil function value is `none`. A detector is given
the buffered reader that `sniff` has peeked into; an extractor is given that
reader and the contents of the sink, and returns the error and the contents of
the sink afterwards. -/
structure format where
  name : String
  magic : List Byte
  isAnimated : Option (reader → Bool × Option GoError)
  renderFirstFrame : Option (reader → List Byte → Option GoError × List Byte)

/-- The zero value `format{}`. -/
def format.zero : format :=
  { name := "", magic := [], isAnimated := none, renderFirstFrame := none }

/-- `RegisterFormat`: the value stored in `atomicFormats` afterwards, given the
value loaded from it. -/
def RegisterFormat (formats : List format) (name : String) (magic : List Byte)
    (isAnimated : Option (reader → Bool × Option GoError))
    (renderFirstFrame : Option (reader → List Byte → Option GoError × List Byte)) :
    List format :=
  formats ++ [{ name := name, magic := magic, isAnimated := isAnimated,
                renderFirstFrame := renderFirstFrame }]

/-- The loop of `match`, over the bytes of `b` and the bytes of `magic` at the
same positions. -/
def matchLoop : List Byte → List Byte → Bool
  | m :: magic, c :: b => if m ≠ c ∧ m ≠ 0x3F then false else matchLoop magic b
  | _, _ => true

/-- The function `match`: whether `magic`, which may contain `?` wildcards
(`0x3F`), matches `b`. -/
def matchMagic (magic b : List Byte) : Bool :=
  if magic.length ≠ b.length then false else matchLoop magic b

/-- The function `sniff` over the registered `formats`: the format found and
the reader afterwards. -/
def sniff : List format → reader → format × reader
  | [], r => (format.zero, r)
  | f :: formats, r =>
    match r.Peek f.magic.length with
    | ((b, none), r1) => if matchMagic f.magic b then (f, r1) else sniff formats r1
    | ((_, some _), r1) => sniff formats r1

/-- The facade `deanimator.IsAnimated` with `formats` registered, on an
in-memory stream `r`: the detector of the format found is called with the
buffered reader. -/
def IsAnimated (formats : List format) (r : List Byte) : Bool × String × Option GoError :=
  let (f, rr) := sniff formats (asReader r)
  match f.isAnimated with
  | none => (false, "", some .ErrFormat)
  | some isAnimated =>
    let (b, err) := isAnimated rr
    (b, f.name, err)

/-- The facade `deanimator.RenderFirstFrame` with `formats` registered, on an
in-memory stream `r` and writing to a sink that holds `w`: the name, the error
and the sink afterwards. The extractor of the format found is called with the
buffered reader. -/
def RenderFirstFrame (formats : List format) (r w : List Byte) :
    String × Option GoError × List Byte :=
  let (f, rr) := sniff formats (asReader r)
  match f.renderFirstFrame with
  | none => ("", some .ErrFormat, w)
  | some renderFirstFrame =>
    let (err, w1) := renderFirstFrame rr w
    (f.name, err, w1)

/-- The magic matches the leading bytes of the stream: the stream has at least
as many bytes as the magic, and every byte of the magic is `?` or equals the byte
of the stream at its position. -/
def magicMatches (magic s : List Byte) : Prop :=
  magic.length ≤ s.length ∧ ∀ i, i < magic.length → (magic[i]? = some 0x3F ∨ magic[i]? = s[i]?)

instance (magic s : List Byte) : Decidable (magicMatches magic s) := by
  unfold magicMatches; infer_instance

/-- The registry after a sequence of `RegisterFormat` calls, one per entry of
`calls`, starting from the empty registry. -/
def registered (calls : List format) : List format :=
  calls.foldl (fun formats f => RegisterFormat formats f.name f.magic f.isAnimated
    f.renderFirstFrame) []

/-- `io.ReadFull(r, buf)` with `len(buf) = n ≥ 1` on an in-memory reader: the
bytes read, the error and the reader afterwards. -/
def readFull (r : List Byte) (n : Nat) : List Byte × Option GoError × List Byte :=
  if n ≤ r.length then (r.take n, none, r.drop n)
  else if r = [] then ([], some .EOF, [])
  else (r, some .ErrUnexpectedEOF, [])

/-- Subtraction of `uint32` values. -/
def u32sub (a b : Nat) : Nat := (a + 4294967296 - b % 4294967296) % 4294967296

/-- Addition of `uint32` values. -/
def u32add (a b : Nat) : Nat := (a + b) % 4294967296

/-- The little-endian `uint32` held in (the first four bytes of) a slice. -/
def littleEndianUint32 (b : List Byte) : Nat :=
  (b.getD 0 0).val + (b.getD 1 0).val * 2 ^ 8 + (b.getD 2 0).val * 2 ^ 16 + (b.getD 3 0).val * 2 ^ 24

/-- `binary.Write(w, binary.LittleEndian, uint32(n))`: the four bytes written. -/
def putUint32LE (n : Nat) : List Byte :=
  [Fin.ofNat (n % 256), Fin.ofNat (n / 256 % 256), Fin.ofNat (n / 65536 % 256),
   Fin.ofNat (n / 16777216 % 256)]

/-! ## The RIFF chunk reader -/

namespace riff

/-- Modelled from the spec: the RIFF container iterator is an external
collaborator (package `golang.org/x/image/riff`) that is not among the sources;
this is the state of its `Reader` over an in-memory stream: what is left of the
underlying stream, the sticky error, the bytes left in the enclosing list, the
bytes left in the current chunk, and whether the current chunk is followed by a
padding byte. -/
structure Reader where
  r : List Byte
  err : Option GoError
  totalLen : Nat
  chunkLen : Nat
  padded : Bool
  deriving DecidableEq, Repr

/-- Modelled from the spec: `riff.NewListReader(chunkLen, chunkData)` of the
external RIFF package: the list type and the chunk iterator, or an error when
the list is shorter than its 4-byte type. -/
def NewListReader (chunkLen : Nat) (chunkData : List Byte) :
    List Byte × Option Reader × Option GoError :=
  if chunkLen < 4 then ([], none, some .riffShortChunkData)
  else
    match readFull chunkData 4 with
    | (_, some _, _) => ([], none, some .riffShortChunkData)
    | (listType, none, rest) =>
      (listType,
        some { r := rest, err := none, totalLen := chunkLen - 4, chunkLen := 0, padded := false },
        none)

/-- Modelled from the spec: `riff.NewReader(r)` of the external RIFF package:
the form type and the chunk iterator of a stream that starts with `RIFF` and a
little-endian size, or an error. -/
def NewReader (r : List Byte) : List Byte × Option Reader × Option GoError :=
  match readFull r 8 with
  | (_, some _, _) => ([], none, some .riffMissingRIFFChunkHeader)
  | (buf, none, rest) =>
    if buf.take 4 ≠ [0x52, 0x49, 0x46, 0x46] then ([], none, some .riffMissingRIFFChunkHeader)
    else NewListReader (littleEndianUint32 (buf.drop 4)) rest

/-- Modelled from the spec: `Read(p)` with `len(p) = n ≥ 1` on the chunk data
reader that the last `Next` of the external RIFF package returned: at most the
bytes left in the chunk, end-of-stream when the chunk or the stream is
exhausted. -/
def Reader.chunkRead (z : Reader) (n : Nat) : (List Byte × Option GoError) × Reader :=
  match z.err with
  | some e => (([], some (if e = .EOF then .riffStaleReader else e)), z)
  | none =>
    if z.chunkLen = 0 then (([], some .EOF), z)
    else
      match z.r with
      | [] => (([], some .EOF), z)
      | _ :: _ =>
        let data := z.r.take (min z.chunkLen n)
        ((data, none),
          { z with r := z.r.drop (min z.chunkLen n),
                   totalLen := u32sub z.totalLen data.length,
                   chunkLen := u32sub z.chunkLen data.length })

/-- Modelled from the spec: `io.Copy(w, chunkData)` on the chunk data reader of
the external RIFF package: the bytes copied (all that is left of the chunk and
present in the stream) and the iterator afterwards. -/
def Reader.copyAll (z : Reader) : List Byte × Reader :=
  match z.err with
  | some _ => ([], z)
  | none =>
    let data := z.r.take z.chunkLen
    (data, { z with r := z.r.drop z.chunkLen,
                    totalLen := u32sub z.totalLen data.length,
                    chunkLen := u32sub z.chunkLen data.length })

/-- Modelled from the spec: the last part of `(*Reader).Next()` of the external
RIFF package, from the test for the end of the list on: the header of the next
chunk is read and checked against the bytes left in the list. -/
def Reader.nextHeader (z : Reader) : (List Byte × Nat × Option GoError) × Reader :=
  if z.totalLen = 0 then (([], 0, some .EOF), { z with err := some .EOF })
  else if z.totalLen < 8 then
    (([], 0, some .riffShortChunkHeader), { z with err := some .riffShortChunkHeader })
  else
    match readFull z.r 8 with
    | (_, some _, rest) =>
      (([], 0, some .riffShortChunkHeader),
        { z with r := rest, totalLen := z.totalLen - 8, err := some .riffShortChunkHeader })
    | (buf, none, rest) =>
      let chunkLen := littleEndianUint32 (buf.drop 4)
      if chunkLen > z.totalLen - 8 then
        (([], 0, some .riffListSubchunkTooLong),
          { z with r := rest, totalLen := z.totalLen - 8, chunkLen := chunkLen,
                   err := some .riffListSubchunkTooLong })
      else
        ((buf.take 4, chunkLen, none),
          { z with r := rest, totalLen := z.totalLen - 8, chunkLen := chunkLen,
                   padded := decide (chunkLen % 2 = 1) })

/-- Modelled from the spec: the middle part of `(*Reader).Next()` of the
external RIFF package: the padding byte of the previous chunk is consumed. -/
def Reader.skipPadding (z : Reader) : Option GoError × Reader :=
  if z.padded then
    if z.totalLen = 0 then
      (some .riffListSubchunkTooLong, { z with err := some .riffListSubchunkTooLong })
    else
      match readFull z.r 1 with
      | (_, some _, rest) =>
        (some .riffMissingPaddingByte,
          { z with r := rest, totalLen := z.totalLen - 1, err := some .riffMissingPaddingByte })
      | (_, none, rest) => (none, { z with r := rest, totalLen := z.totalLen - 1 })
  else (none, z)

/-- Modelled from the spec: `(*Reader).Next()` of the external RIFF package: the
next chunk's id and length, or an error (`io.EOF` when the list is exhausted);
the rest of the previous chunk and its padding byte are consumed first. The
chunk data reader it returns is the iterator itself, read with `chunkRead`. -/
def Reader.Next (z : Reader) : (List Byte × Nat × Option GoError) × Reader :=
  match z.err with
  | some e => (([], 0, some e), z)
  | none =>
    let (got, z1) := if z.chunkLen ≠ 0 then z.copyAll else ([], z)
    if z.chunkLen ≠ 0 ∧ got.length ≠ z.chunkLen then
      (([], 0, some .riffShortChunkData), { z1 with err := some .riffShortChunkData })
    else
      match z1.skipPadding with
      | (some e, z2) => (([], 0, some e), z2)
      | (none, z2) => z2.nextHeader

end riff

/-! ## Package `webp` -/

namespace webp

/-- The FourCC `ALPH`. -/
def fccALPH : List Byte := [0x41, 0x4C, 0x50, 0x48]

/-- The FourCC `VP8 `. -/
def fccVP8 : List Byte := [0x56, 0x50, 0x38, 0x20]

/-- The FourCC `VP8L`. -/
def fccVP8L : List Byte := [0x56, 0x50, 0x38, 0x4C]

/-- The FourCC `VP8X`. -/
def fccVP8X : List Byte := [0x56, 0x50, 0x38, 0x58]

/-- The FourCC `WEBP`. -/
def fccWEBP : List Byte := [0x57, 0x45, 0x42, 0x50]

/-- The FourCC `ANIM`. -/
def fccANIM : List Byte := [0x41, 0x4E, 0x49, 0x4D]

/-- The FourCC `ANMF`. -/
def fccANMF : List Byte := [0x41, 0x4E, 0x4D, 0x46]

/-- The test `extended[0]&byte(2) == byte(2)`. -/
def animationBit (b : Byte) : Bool := decide (b.val &&& 2 = 2)

/-- `webp.IsAnimated`. -/
def IsAnimated (src : List Byte) : Bool × Option GoError :=
  match riff.NewReader src with
  | (_, _, some _) => (false, some (.wrapped .cannotCreateReader .errMalformedImage))
  | (_, none, none) => (false, some (.wrapped .cannotCreateReader .errMalformedImage))
  | (formType, some r, none) =>
    if formType ≠ fccWEBP then (false, some .errMalformedImage)
    else
      match r.Next with
      | ((_, _, some err), _) => (false, some err)
      | ((chunkID, _, none), r1) =>
        if chunkID ≠ fccVP8X then (false, none)
        else
          match r1.chunkRead 1 with
          | ((_, some err), _) => (false, some err)
          | ((data, none), _) => (animationBit ((copy [0] data).getD 0 0), none)

/-- The loop of `readANMFBitstream` over the subchunks of the frame. -/
def bitstreamLoop : Nat → riff.Reader → List Byte → Bool →
    Outcome (List Byte × Bool × Option GoError)
  | 0, _, _, _ => .fuelExhausted
  | fuel + 1, r, bitstream, hasAlpha =>
    match r.Next with
    | ((_, _, some .EOF), _) => .ok (bitstream, hasAlpha, none)
    | ((_, _, some err), _) => .ok ([], false, some (.wrapped .unableToGetNextSubchunk err))
    | ((chunkID, chunkLen, none), r1) =>
      if chunkID = fccALPH ∨ chunkID = fccVP8 ∨ chunkID = fccVP8L then
        let (data, r2) := r1.copyAll
        bitstreamLoop fuel r2
          (bitstream ++ chunkID ++ putUint32LE chunkLen ++ data
            ++ (if chunkLen % 2 = 1 then [0] else []))
          (hasAlpha || decide (chunkID = fccALPH))
      else .ok ([], false, some .errMalformedImage)

/-- `readANMFBitstream`; `anmfChunkData` is the bytes that the frame's chunk
data reader will still deliver. -/
def readANMFBitstream (anmfChunkLen : Nat) (anmfChunkData : List Byte) :
    Outcome (List Byte × Bool × Option GoError) :=
  match riff.NewListReader (u32add anmfChunkLen 4) (fccANMF ++ anmfChunkData) with
  | (_, _, some _) => .ok ([], false, some .errMalformedImage)
  | (_, none, none) => .ok ([], false, some .errMalformedImage)
  | (_, some r, none) => bitstreamLoop (anmfChunkData.length + 1) r [] false

/-- What `RenderFirstFrame` writes once the bitstream of the first frame has
been read. -/
def container (canvasSize bitstream : List Byte) (hasAlpha : Bool) : List Byte :=
  [0x52, 0x49, 0x46, 0x46] ++ putUint32LE (4 + 8 + 10 + bitstream.length) ++ fccWEBP
    ++ fccVP8X ++ putUint32LE 10 ++ [if hasAlpha then 16 else 0] ++ [0, 0, 0]
    ++ canvasSize ++ bitstream

/-- The end of the `ANMF` case of `webp.RenderFirstFrame`, given what
`readANMFBitstream` returned: the error is wrapped, or the container is written
to the sink. -/
def renderFrame (canvasSize : List Byte) :
    Outcome (List Byte × Bool × Option GoError) → Outcome (Option GoError × List Byte)
  | .panic => .panic
  | .fuelExhausted => .fuelExhausted
  | .ok (_, _, some err) => .ok (some (.wrapped .unableToReadANMFBitstream err), [])
  | .ok (bitstream, hasAlpha, none) => .ok (none, container canvasSize bitstream hasAlpha)

/-- The `for` loop of `webp.RenderFirstFrame`: the error and the bytes written
to the sink. -/
def renderLoop : Nat → riff.Reader → List Byte → Outcome (Option GoError × List Byte)
  | 0, _, _ => .fuelExhausted
  | fuel + 1, r, canvasSize =>
    match r.Next with
    | ((_, _, some err), _) => .ok (some (.wrapped .unableToGetNextChunk err), [])
    | ((chunkID, chunkLen, none), r1) =>
      if chunkID = fccVP8X then
        match r1.chunkRead 1 with
        | ((_, some err), _) => .ok (some err, [])
        | ((extended, none), r2) =>
          if !animationBit ((copy [0] extended).getD 0 0) then .ok (some .notAnAnimatedImage, [])
          else
            match r2.chunkRead 3 with
            | ((_, some err), _) => .ok (some (.wrapped .unableToReadReserved err), [])
            | ((_, none), r3) =>
              match r3.chunkRead 6 with
              | ((_, some err), _) => .ok (some (.wrapped .unableToReadCanvasSize err), [])
              | ((data, none), r4) => renderLoop fuel r4 (copy (zeros 6) data)
      else if chunkID = fccANIM then renderLoop fuel r1 canvasSize
      else if chunkID = fccANMF then
        match r1.chunkRead 16 with
        | ((_, some err), _) => .ok (some (.wrapped .unableToDiscardANMFData err), [])
        | ((_, none), r2) =>
          renderFrame canvasSize (readANMFBitstream (u32sub chunkLen 16) (r2.r.take r2.chunkLen))
      else .ok (some .errMalformedImage, [])

/-- `webp.RenderFirstFrame` on an in-memory source and an initially empty
sink. -/
def RenderFirstFrame (src : List Byte) : Outcome (Option GoError × List Byte) :=
  match riff.NewReader src with
  | (_, _, some _) => .ok (some .errMalformedImage, [])
  | (_, none, none) => .ok (some .errMalformedImage, [])
  | (formType, some r, none) =>
    if formType ≠ fccWEBP then .ok (some .errMalformedImage, [])
    else renderLoop (src.length + 1) r []

/-- The four bytes `RIFF`. -/
def fccRIFF : List Byte := [0x52, 0x49, 0x46, 0x46]

end webp

namespace riff

/-- The iterator over a list whose chunks start at the head of `r`. -/
def Reader.fresh (r : List Byte) (totalLen : Nat) : Reader :=
  { r := r, err := none, totalLen := totalLen, chunkLen := 0, padded := false }

/-- A state of the iterator between two `Next` calls: no error, and the chunk
bookkeeping within the list bookkeeping. -/
def Reader.sound (z : Reader) : Prop :=
  z.err = none ∧ z.chunkLen ≤ z.totalLen ∧ z.totalLen < 4294967296

/-- The number of bytes `Next` consumes before the next header: what is left
of the current chunk and its padding byte. -/
def Reader.pending (z : Reader) : Nat := z.chunkLen + (if z.padded then 1 else 0)

end riff

namespace webp

/-- The stream opens as a RIFF container: at least 12 bytes, the tag `RIFF`, and
a declared size that covers the form type. -/
def opensRIFF (s : List Byte) : Prop :=
  12 ≤ s.length ∧ s.take 4 = [0x52, 0x49, 0x46, 0x46] ∧ 4 ≤ littleEndianUint32 ((s.drop 4).take 4)

instance (s : List Byte) : Decidable (opensRIFF s) := by unfold opensRIFF; infer_instance

/-- The header of the first chunk is complete and consistent with the declared
size of the container. -/
def firstHeaderOk (s : List Byte) : Prop :=
  20 ≤ s.length ∧ 12 ≤ littleEndianUint32 ((s.drop 4).take 4) ∧
    littleEndianUint32 ((s.drop 16).take 4) ≤ littleEndianUint32 ((s.drop 4).take 4) - 12

instance (s : List Byte) : Decidable (firstHeaderOk s) := by unfold firstHeaderOk; infer_instance

/-- A top-level chunk of a RIFF container as it lies in the stream: the 4-byte
id, the 4-byte little-endian length, the payload, and the padding byte that
follows a payload of odd length. -/
structure RiffChunk where
  id : List Byte
  len : List Byte
  data : List Byte
  pad : List Byte
  deriving DecidableEq, Repr

/-- The chunk is complete: payload as long as its length field says, and
padded to an even length. -/
def RiffChunk.complete (c : RiffChunk) : Prop :=
  c.id.length = 4 ∧ c.len.length = 4 ∧ c.data.length = littleEndianUint32 c.len ∧
    c.pad.length = littleEndianUint32 c.len % 2

instance (c : RiffChunk) : Decidable c.complete := by unfold RiffChunk.complete; infer_instance

/-- The bytes of a chunk. -/
def RiffChunk.bytes (c : RiffChunk) : List Byte := c.id ++ c.len ++ c.data ++ c.pad

/-- The bytes of a sequence of chunks. -/
def riffBytes (cs : List RiffChunk) : List Byte := (cs.map RiffChunk.bytes).flatten

/-- The canvas size that `RenderFirstFrame` holds after it has walked the
chunks `cs`, having started with `canvasSize`: bytes 4 to 9 of the payload of the
last `VP8X` chunk. -/
def lastCanvas (cs : List RiffChunk) (canvasSize : List Byte) : List Byte :=
  cs.foldl (fun cv c => if c.id = fccVP8X then copy (zeros 6) ((c.data.drop 4).take 6) else cv)
    canvasSize

end webp

namespace riff

/-- The iterator after `k` bytes of the current chunk have been read. -/
def Reader.advance (z : Reader) (k : Nat) : Reader :=
  { z with r := z.r.drop k, totalLen := z.totalLen - k, chunkLen := z.chunkLen - k }

end riff

/-- The reader after `ReadWindow` has been called once with each of the buffers
`bufs`, in order. -/
def readWindows : WindowedReader → List (List Byte) → Outcome WindowedReader
  | w, [] => .ok w
  | w, buf :: bufs =>
    match ReadWindow w buf with
    | .ok (_, _, _, w1) => readWindows w1 bufs
    | .panic => .panic
    | .fuelExhausted => .fuelExhausted

namespace png

/-- An `IHDR` chunk with a one-byte payload, used in the examples. -/
def exampleIHDR : Chunk :=
  { len := [0, 0, 0, 1], typ := [0x49, 0x48, 0x44, 0x52], data := [7], crc := [1, 2, 3, 4] }

/-- A private chunk (type `prIv`) with an empty payload, used in the examples. -/
def examplePrivate : Chunk :=
  { len := [0, 0, 0, 0], typ := [0x70, 0x72, 0x49, 0x76], data := [], crc := [5, 6, 7, 8] }

/-- An `IDAT` chunk with a two-byte payload, used in the examples. -/
def exampleIDAT : Chunk :=
  { len := [0, 0, 0, 2], typ := idat, data := [0xAA, 0xBB], crc := [9, 10, 11, 12] }

end png

namespace webp

/-- A `VP8X` chunk with the animation bit set and the canvas size
`1, 2, 3, 4, 5, 6`, used in the examples. -/
def exampleVP8X : RiffChunk :=
  { id := fccVP8X, len := [10, 0, 0, 0], data := [2, 0, 0, 0, 1, 2, 3, 4, 5, 6], pad := [] }

/-- An `ANIM` chunk, used in the examples. -/
def exampleANIM : RiffChunk :=
  { id := fccANIM, len := [6, 0, 0, 0], data := [0, 0, 0, 0, 0, 0], pad := [] }

/-- The payload of an `ANMF` chunk, used in the examples: the 16-byte prologue,
an `ALPH` subchunk of 3 bytes with its padding byte, and a `VP8 ` subchunk of
4 bytes. -/
def exampleFrame : List Byte :=
  [9, 9, 9, 9, 9, 9, 9, 9, 9, 9, 9, 9, 9, 9, 9, 9]
    ++ (fccALPH ++ [3, 0, 0, 0] ++ [7, 7, 7] ++ [0])
    ++ (fccVP8 ++ [4, 0, 0, 0] ++ [1, 2, 3, 4])

/-- The output for the example: the container around the re-serialised
subchunks of `exampleFrame`. -/
def exampleOutput : List Byte :=
  fccRIFF ++ [46, 0, 0, 0] ++ fccWEBP ++ fccVP8X ++ [10, 0, 0, 0] ++ [16, 0, 0, 0]
    ++ [1, 2, 3, 4, 5, 6]
    ++ (fccALPH ++ [3, 0, 0, 0] ++ [7, 7, 7] ++ [0])
    ++ (fccVP8 ++ [4, 0, 0, 0] ++ [1, 2, 3, 4])

end webp

/-- A format whose magic is 4097 wildcards, one more than the buffer of the
reader holds, used in the examples. -/
def exampleBig : format :=
  { name := "big", magic := List.replicate 4097 0x3F,
    isAnimated := some (fun _ => (true, none)),
    renderFirstFrame := some (fun _ w => (none, w)) }

/-- A format with the magic `GIF8?a` whose detector answers `true`, used in the
examples. -/
def exampleGif : format :=
  { name := "gif", magic := [0x47, 0x49, 0x46, 0x38, 0x3F, 0x61],
    isAnimated := some (fun _ => (true, none)),
    renderFirstFrame := some (fun _ w => (none, w ++ [1])) }

/-- A format with the magic `RIFF????WEBPVP8` whose detector reads 21 bytes and
looks at the last of them, and whose extractor copies the first four bytes it
reads to the sink, used in the examples. -/
def exampleWebp : format :=
  { name := "webp",
    magic := [0x52, 0x49, 0x46, 0x46, 0x3F, 0x3F, 0x3F, 0x3F, 0x57, 0x45, 0x42, 0x50, 0x56,
      0x50, 0x38],
    isAnimated := some (fun r => (decide ((r.Read 21).1.1.getD 20 0 = 2), none)),
    renderFirstFrame := some (fun r w => (none, w ++ (r.Read 4).1.1)) }

/-- A stream that starts like an extended WEBP file, used in the examples. -/
def exampleStream : List Byte :=
  [0x52, 0x49, 0x46, 0x46, 30, 0, 0, 0, 0x57, 0x45, 0x42, 0x50, 0x56, 0x50, 0x38, 0x58,
    10, 0, 0, 0, 2, 0, 0, 0]

namespace png

/-- A chunk of type `acTL` with an empty payload, used in the examples. -/
def exampleACTL : Chunk :=
  { len := [0, 0, 0, 0], typ := actl, data := [], crc := [13, 14, 15, 16] }

end png

/-- What a `ReadWindow` call with a buffer of the right size returns apart from
the contents of the buffer: the count, the error and the reader afterwards. -/
def windowStep (w : WindowedReader) : Outcome (Nat × Option GoError × WindowedReader) :=
  (ReadWindow w (zeros w.windowSize)).map (fun res => (res.1, res.2.1, res.2.2.2))

/-- The reader states that calls on a reader made by `NewReader` with a window
size of at least 2 can reach: `previous`, once set, holds `windowSize - 1`
bytes. -/
def WindowedReader.wellFormed (w : WindowedReader) : Prop :=
  2 ≤ w.windowSize ∧ ∀ p, w.previous = some p → p.length = w.windowSize - 1

namespace gif

/-- The magic `"GIF8?a"` that `init` of package `gif` registers. -/
def magic : List Byte := [0x47, 0x49, 0x46, 0x38, 0x3F, 0x61]

end gif

namespace webp

/-- The magic `"RIFF????WEBPVP8"` that `init` of package `webp` registers. -/
def magic : List Byte :=
  [0x52, 0x49, 0x46, 0x46, 0x3F, 0x3F, 0x3F, 0x3F, 0x57, 0x45, 0x42, 0x50, 0x56, 0x50, 0x38]

end webp

/-- The three formats that the `init` functions of the packages `gif`, `png` and
`webp` register: their names and magics (`png` registers `pngHeader`); the
functions they register play no part in `sniff`. -/
def builtin (g p w : format) : Prop :=
  (g.name = "gif" ∧ g.magic = gif.magic) ∧ (p.name = "png" ∧ p.magic = png.pngHeader) ∧
    (w.name = "webp" ∧ w.magic = webp.magic)

/-- A format registered as `png`, without functions, used in the examples. -/
def examplePng : format :=
  { name := "png", magic := png.pngHeader, isAnimated := none, renderFirstFrame := none }

namespace webp

/-- What `readANMFBitstream` appends to the bitstream for a subchunk: the tag,
the length as a little-endian `uint32`, the payload and, when the length is odd,
one zero byte. -/
def reserialised (c : RiffChunk) : List Byte :=
  c.id ++ putUint32LE (littleEndianUint32 c.len) ++ c.data
    ++ (if littleEndianUint32 c.len % 2 = 1 then [0] else [])

/-- An `ALPH` subchunk of three bytes whose padding byte is not zero, used in
the examples. -/
def exampleALPH : RiffChunk :=
  { id := fccALPH, len := [3, 0, 0, 0], data := [7, 8, 9], pad := [0xFF] }

/-- A `VP8L` subchunk of four bytes, used in the examples. -/
def exampleVP8L : RiffChunk :=
  { id := fccVP8L, len := [4, 0, 0, 0], data := [1, 2, 3, 4], pad := [] }

end webp

namespace png

/-- One bit step of the reflected CRC-32 with the polynomial `0xEDB88320`. -/
def crcStep (c : Nat) : Nat :=
  if c % 2 = 1 then (c / 2) ^^^ 0xEDB88320 else c / 2

/-- The CRC register after one more byte: the byte is xor-ed into the low bits
and eight bit steps follow. -/
def crcByte (c : Nat) (b : Byte) : Nat :=
  crcStep (crcStep (crcStep (crcStep (crcStep (crcStep (crcStep (crcStep (c ^^^ b.val))))))))

/-- The CRC-32 that the PNG specification prescribes for chunks, in the words of
the claim: polynomial `0xEDB88320` (reflected), initial value `0xFFFFFFFF`, final
xor `0xFFFFFFFF`. It is the reference the constant `iendChunk` is compared with;
the package itself computes no CRC. -/
def specCRC32 (bs : List Byte) : Nat :=
  (bs.foldl crcByte 0xFFFFFFFF) ^^^ 0xFFFFFFFF

end png

namespace webp

/-- What a call of `RenderFirstFrame` that started its loop with the canvas size
`canvas` may return: an error with nothing written, or no error with the
container written around a bitstream that `readANMFBitstream` returned without
error, the canvas size in it being `canvas` or the six bytes taken from a VP8X
chunk. -/
def allOrNothing (canvas : List Byte) (res : Option GoError × List Byte) : Prop :=
  (∃ err, res = (some err, [])) ∨
  ∃ (cv B : List Byte) (a : Bool) (n : Nat) (data : List Byte),
    readANMFBitstream n data = .ok (B, a, none) ∧ res = (none, container cv B a) ∧
    (cv = canvas ∨ cv.length = 6)

/-- An `ANMF` chunk that is the first chunk of its file, used in the examples:
the header for the 40 bytes of `exampleFrame`. -/
def exampleANMFHeader : List Byte := fccANMF ++ [40, 0, 0, 0]

/-- What `RenderFirstFrame` writes for a file that consists of the chunk
`exampleANMFHeader` with the payload `exampleFrame` and has no `VP8X` chunk, used
in the examples. -/
def exampleOutputNoCanvas : List Byte :=
  fccRIFF ++ [46, 0, 0, 0] ++ fccWEBP ++ fccVP8X ++ [10, 0, 0, 0] ++ [16, 0, 0, 0]
    ++ (fccALPH ++ [3, 0, 0, 0] ++ [7, 7, 7] ++ [0])
    ++ (fccVP8 ++ [4, 0, 0, 0] ++ [1, 2, 3, 4])

end webp

end Deanimator

/-! # Theorems -/

namespace Deanimator

theorem copy_set (window p : List Byte) (b : Byte) (h : window.length = p.length + 1) :
    (copy window p).set p.length b = p ++ [b] := by
  unfold copy
  have h1 : (window.drop p.length).length = 1 := by simp [h]
  obtain ⟨x, hx⟩ := List.length_eq_one.mp h1
  rw [List.take_of_length_le (by omega), hx]
  simp

theorem readWindow_step (W : Nat) (a b : Byte) (p rest window : List Byte)
    (hp : W = p.length + 2) (hw : window.length = W) :
    ReadWindow ⟨b :: rest, W, some (a :: p)⟩ window
      = .ok (W, none, a :: p ++ [b], ⟨rest, W, some (p ++ [b])⟩) := by
  have hc := copy_set window (a :: p) b (by simp; omega)
  simp only [List.length_cons] at hc
  simp [ReadWindow, readNext, hw, hp, hc]

theorem readWindow_eof (W : Nat) (p window : List Byte) (hw : window.length = W) :
    ReadWindow ⟨[], W, some p⟩ window = .ok (0, some .EOF, window, ⟨[], W, some p⟩) := by
  simp [ReadWindow, readNext, hw]

theorem ReadWindow_steady (W : Nat) (v window : List Byte) (hW : 2 ≤ W)
    (hv : W ≤ v.length) (hw : window.length = W) :
    ReadWindow (steady W v) window = .ok (W, none, v.take W, steady W v.tail) := by
  obtain ⟨W, rfl⟩ : ∃ k, W = k + 2 := ⟨W - 2, by omega⟩
  cases v with
  | nil => simp at hv
  | cons a t =>
    simp only [List.length_cons] at hv
    have hd : t.drop W = t[W] :: t.drop (W + 1) := List.drop_eq_getElem_cons (by omega)
    have ht : t.take (W + 1) = t.take W ++ [t[W]] := by
      rw [List.take_succ, List.getElem?_eq_getElem (by omega)]; rfl
    simp only [steady, show W + 2 - 1 = W + 1 by omega, List.take_succ_cons, List.drop_succ_cons,
      List.tail_cons, hd]
    rw [readWindow_step (W + 2) a t[W] (t.take W) (t.drop (W + 1)) window
      (by simp; omega) hw, ht]
    simp

theorem ReadWindow_steady_eof (W : Nat) (v window : List Byte)
    (hv : v.length < W) (hw : window.length = W) :
    ReadWindow (steady W v) window = .ok (0, some .EOF, window, steady W v) := by
  have : v.drop (W - 1) = [] := List.drop_of_length_le (by omega)
  simp only [steady, this]
  exact readWindow_eof W _ window hw

theorem ReadWindow_fresh (W : Nat) (s window : List Byte) (hW : 2 ≤ W)
    (hs : W ≤ s.length) (hw : window.length = W) :
    ReadWindow (NewReader s W) window = .ok (W, none, s.take W, steady W s.tail) := by
  obtain ⟨W, rfl⟩ : ∃ k, W = k + 2 := ⟨W - 2, by omega⟩
  cases s with
  | nil => simp at hs
  | cons a t =>
    simp only [List.length_cons] at hs
    have hd : t.drop W = t[W] :: t.drop (W + 1) := List.drop_eq_getElem_cons (by omega)
    have ht : t.take (W + 1) = t.take W ++ [t[W]] := by
      rw [List.take_succ, List.getElem?_eq_getElem (by omega)]; rfl
    have hc := copy_set window (a :: t.take W) t[W] (by simp; omega)
    have hl : (t.take W).length = W := by simp; omega
    simp only [List.length_cons, hl] at hc
    simp only [ReadWindow, NewReader, hw, ne_eq, not_true_eq_false, if_false,
      show W + 2 - 1 = W + 1 by omega, List.take_succ_cons, List.drop_succ_cons, List.length_cons,
      hl, Nat.lt_irrefl, show ¬ (W + 2 = 0) by omega, hd]
    simp only [readNext, hc, steady, show W + 2 - 1 = W + 1 by omega, List.tail_cons, ht, hd]
    simp

theorem skipLoop_full (W : Nat) (hW : 2 ≤ W) :
    ∀ (n i : Nat) (v discard : List Byte), discard.length = W → W - 1 + n ≤ v.length →
      skipLoop (steady W v) discard i n = .ok (i + n, none, steady W (v.drop n))
  | 0, i, v, discard, _, _ => by simp [skipLoop]
  | n + 1, i, v, discard, hd, hv => by
    have hlen : (v.take W).length = W := by simp; omega
    have htl : W - 1 + n ≤ v.tail.length := by simp; omega
    rw [skipLoop, ReadWindow_steady W v discard hW (by omega) hd]
    simp only
    rw [skipLoop_full W hW n (i + 1) v.tail (v.take W) hlen htl]
    simp [List.drop_tail, Nat.add_assoc, Nat.add_comm 1 n]

theorem skipLoop_eof (W : Nat) (n i : Nat) (v discard : List Byte) (hd : discard.length = W)
    (hv : v.length < W) :
    skipLoop (steady W v) discard i (n + 1)
      = if i = 0 then .ok (0, some .EOF, steady W v) else .ok (i + 1, none, steady W v) := by
  rw [skipLoop, ReadWindow_steady_eof W v discard hv hd]

/-- A skip that the stream can satisfy in full. -/
theorem Skip_full (W n : Nat) (v : List Byte) (hW : 2 ≤ W) (hv : W - 1 + n ≤ v.length) :
    Skip (steady W v) n = .ok (n, none, steady W (v.drop n)) := by
  have := skipLoop_full W hW n 0 v (zeros W) (by simp [zeros]) hv
  simpa [Skip, steady] using this

/-- A skip issued when nothing is left of the stream. -/
theorem Skip_eof (W n : Nat) (v : List Byte) (hv : v.length < W) :
    Skip (steady W v) (n + 1) = .ok (0, some .EOF, steady W v) := by
  have := skipLoop_eof W n 0 v (zeros W) (by simp [zeros]) hv
  simpa [Skip, steady] using this

/-- A skip that runs into the end of the stream after at least one byte. -/
theorem Skip_short (W n : Nat) (v : List Byte) (hW : 2 ≤ W) (h1 : W ≤ v.length)
    (h2 : v.length < W - 1 + n) :
    Skip (steady W v) n
      = .ok (v.length - (W - 1) + 1, none, steady W (v.drop (v.length - (W - 1)))) := by
  obtain ⟨k, hk⟩ : ∃ k, v.length = W - 1 + k := ⟨v.length - (W - 1), by omega⟩
  obtain ⟨m, rfl⟩ : ∃ m, n = k + (m + 1) := ⟨n - k - 1, by omega⟩
  have key : ∀ (j i : Nat) (u discard : List Byte), discard.length = W → u.length = W - 1 + j →
      skipLoop (steady W u) discard i (j + (m + 1))
        = if i + j = 0 then .ok (0, some .EOF, steady W (u.drop j))
          else .ok (i + j + 1, none, steady W (u.drop j)) := by
    intro j
    induction j with
    | zero =>
      intro i u discard hd hu
      simpa using skipLoop_eof W m i u discard hd (by omega)
    | succ j ih =>
      intro i u discard hd hu
      have hlen : (u.take W).length = W := by simp; omega
      rw [show j + 1 + (m + 1) = (j + (m + 1)) + 1 by omega, skipLoop,
        ReadWindow_steady W u discard hW (by omega) hd]
      simp only
      rw [ih (i + 1) u.tail (u.take W) hlen (by simp; omega)]
      simp [List.drop_tail, Nat.add_assoc, Nat.add_comm 1 j]
  have := key k 0 v (zeros W) (by simp [zeros]) hk
  have hk0 : k ≠ 0 := by omega
  simp only [Nat.zero_add, hk0, if_false] at this
  have e : v.length - (W - 1) = k := by omega
  rw [e]
  simpa [Skip, steady] using this

namespace png

theorem isAnimatedLoop_decisive (fuel : Nat) (len T rest hdr : List Byte) (hl : len.length = 4)
    (hT : decisive T) (hh : hdr.length = 8) :
    isAnimatedLoop (fuel + 1) (steady 8 (len ++ T ++ rest)) hdr = .ok (decide (T = actl), none) := by
  have hT4 : T.length = 4 := by rcases hT with h | h | h <;> subst h <;> rfl
  have htake : (len ++ T ++ rest).take 8 = len ++ T := by
    rw [List.take_left']; simp [hl, hT4]
  rw [isAnimatedLoop, ReadWindow_steady 8 _ hdr (by omega) (by simp [hl, hT4]; omega) hh, htake]
  simp only [List.drop_left' hl]
  rcases hT with h | h | h <;> subst h <;> simp <;> decide

theorem skipChunk_complete (c : Chunk) (hc : c.complete) (v : List Byte) (hv : 7 ≤ v.length) :
    skipChunk (steady 8 (c.bytes ++ v).tail) (bigEndianUint32 c.len) = .ok (none, steady 8 v) := by
  obtain ⟨h1, h2, h3, h4⟩ := hc
  have e1 : (c.bytes ++ v).tail.drop 7 = c.data ++ (c.crc ++ v) := by
    rw [List.drop_tail]
    simp only [Chunk.bytes, List.append_assoc]
    rw [← List.append_assoc, List.drop_left']
    simp [h1, h2]
  have e2 : (c.data ++ (c.crc ++ v)).drop (bigEndianUint32 c.len) = c.crc ++ v :=
    List.drop_left' h3
  have e3 : (c.crc ++ v).drop 4 = v := List.drop_left' h4
  have l1 : (c.bytes ++ v).tail.length = 11 + c.data.length + v.length := by
    simp [Chunk.bytes, h1, h2, h4]; omega
  unfold skipChunk
  rw [Skip_full 8 7 _ (by omega) (by omega), e1]
  simp only
  rw [Skip_full 8 _ _ (by omega) (by simp [h3, h4]; omega), e2]
  simp only
  rw [Skip_full 8 4 _ (by omega) (by simp [h4]; omega), e3]

theorem isAnimatedLoop_chunk (fuel : Nat) (c : Chunk) (hc : c.complete) (hn : ¬ decisive c.typ)
    (v hdr : List Byte) (hv : 7 ≤ v.length) (hh : hdr.length = 8) :
    isAnimatedLoop (fuel + 1) (steady 8 (c.bytes ++ v)) hdr
      = isAnimatedLoop fuel (steady 8 v) (c.len ++ c.typ) := by
  have hc' := hc
  obtain ⟨h1, h2, h3, h4⟩ := hc
  have htake : (c.bytes ++ v).take 8 = c.len ++ c.typ := by
    simp only [Chunk.bytes, List.append_assoc]
    rw [← List.append_assoc, List.take_left']; simp [h1, h2]
  rw [isAnimatedLoop, ReadWindow_steady 8 _ hdr (by omega) (by simp [Chunk.bytes]; omega) hh, htake]
  simp only [List.drop_left' h1, List.take_left' h1]
  have n1 : c.typ ≠ actl := fun h => hn (Or.inl h)
  have n2 : ¬ (c.typ = idat ∨ c.typ = iend) := fun h => hn (Or.inr h)
  rw [if_neg n1, if_neg n2, skipChunk_complete c hc' v hv]

theorem chunksBytes_cons (c : Chunk) (cs : List Chunk) :
    chunksBytes (c :: cs) = c.bytes ++ chunksBytes cs := by
  simp [chunksBytes]

theorem length_le_chunksBytes (cs : List Chunk) (h : ∀ c ∈ cs, c.complete) :
    12 * cs.length ≤ (chunksBytes cs).length := by
  induction cs with
  | nil => simp [chunksBytes]
  | cons c cs ih =>
    have hc := h c (List.mem_cons_self _ _)
    obtain ⟨h1, h2, h3, h4⟩ := hc
    have := ih (fun d hd => h d (List.mem_cons_of_mem _ hd))
    rw [chunksBytes_cons]
    simp [Chunk.bytes, h1, h2, h4]
    omega

theorem isAnimatedLoop_chunks (cs : List Chunk) (len T rest : List Byte)
    (hcs : ∀ c ∈ cs, c.complete ∧ ¬ decisive c.typ) (hl : len.length = 4) (hT : decisive T) :
    ∀ (fuel : Nat) (hdr : List Byte), cs.length < fuel → hdr.length = 8 →
      isAnimatedLoop fuel (steady 8 (chunksBytes cs ++ (len ++ T ++ rest))) hdr
        = .ok (decide (T = actl), none) := by
  have hT4 : T.length = 4 := by rcases hT with h | h | h <;> subst h <;> rfl
  induction cs with
  | nil =>
    intro fuel hdr hf hh
    obtain ⟨fuel, rfl⟩ : ∃ k, fuel = k + 1 := ⟨fuel - 1, by simp at hf; omega⟩
    simpa [chunksBytes] using isAnimatedLoop_decisive fuel len T rest hdr hl hT hh
  | cons c cs ih =>
    intro fuel hdr hf hh
    obtain ⟨fuel, rfl⟩ : ∃ k, fuel = k + 1 := ⟨fuel - 1, by simp at hf; omega⟩
    obtain ⟨hc, hn⟩ := hcs c (List.mem_cons_self _ _)
    rw [chunksBytes_cons, List.append_assoc,
      isAnimatedLoop_chunk fuel c hc hn _ hdr (by simp [hl, hT4]; omega) hh]
    exact ih (fun d hd => hcs d (List.mem_cons_of_mem _ hd)) fuel _
      (by simp at hf; omega) (by simp [hc.1, hc.2.1])

/-- After the signature has been checked and the rest of it skipped, the reader
stands on the bytes that follow the signature. -/
theorem IsAnimated_signature (v : List Byte) (hv : 7 ≤ v.length) :
    IsAnimated (pngHeader ++ v)
      = isAnimatedLoop ((pngHeader ++ v).length + 1) (steady 8 v) pngHeader := by
  have hf := ReadWindow_fresh 8 (pngHeader ++ v) (zeros 8) (by omega)
    (by simp [pngHeader]) (by simp [zeros])
  have ht : (pngHeader ++ v).take 8 = pngHeader := List.take_left' rfl
  have hs := Skip_full 8 7 (pngHeader ++ v).tail (by omega) (by simp [pngHeader]; omega)
  have hd : (pngHeader ++ v).tail.drop 7 = v := by
    rw [List.drop_tail]; exact List.drop_left' rfl
  rw [hd] at hs
  unfold IsAnimated
  rw [hf, ht]
  simp only [ne_eq, not_true_eq_false, if_false, hs]

theorem IsAnimated_on_decisive (cs : List Chunk) (len T rest : List Byte)
    (hcs : ∀ c ∈ cs, c.complete ∧ ¬ decisive c.typ) (hl : len.length = 4) (hT : decisive T) :
    IsAnimated (pngHeader ++ chunksBytes cs ++ len ++ T ++ rest) = .ok (decide (T = actl), none) := by
  have hT4 : T.length = 4 := by rcases hT with h | h | h <;> subst h <;> rfl
  have e : pngHeader ++ chunksBytes cs ++ len ++ T ++ rest
      = pngHeader ++ (chunksBytes cs ++ (len ++ T ++ rest)) := by simp
  have hlen := length_le_chunksBytes cs (fun c hc => (hcs c hc).1)
  rw [e, IsAnimated_signature _ (by simp [hl, hT4]; omega)]
  exact isAnimatedLoop_chunks cs len T rest hcs hl hT _ _ (by simp; omega) rfl

theorem renderLoop_chunk (fuel : Nat) (c : Chunk) (hc : c.complete) (v dst hdr : List Byte)
    (saw : Bool) (hh : hdr.length = 8) (hn : ¬ (c.typ = fctl ∧ saw = true)) :
    renderLoop (fuel + 1) (c.bytes ++ v) dst hdr saw
      = renderLoop fuel v (dst ++ forwarded c) (c.len ++ c.typ) (saw || decide (c.typ = idat)) := by
  obtain ⟨h1, h2, h3, h4⟩ := hc
  have hne : c.bytes ++ v ≠ [] := by
    intro h
    have := congrArg List.length h
    simp [Chunk.bytes, h1] at this
  have htake : (c.bytes ++ v).take 8 = c.len ++ c.typ := by
    simp only [Chunk.bytes, List.append_assoc]
    rw [← List.append_assoc, List.take_left']; simp [h1, h2]
  have hdrop : (c.bytes ++ v).drop 8 = (c.data ++ c.crc) ++ v := by
    simp only [Chunk.bytes, List.append_assoc]
    rw [← List.append_assoc, List.drop_left']; simp [h1, h2]
  have hcopy : copy hdr (c.len ++ c.typ) = c.len ++ c.typ := by
    unfold copy
    rw [List.take_of_length_le (by simp [h1, h2, hh]), List.drop_of_length_le (by simp [h1, h2, hh])]
    simp
  have hl : (c.data ++ c.crc).length = bigEndianUint32 c.len + 4 := by simp [h3, h4]
  rw [renderLoop, if_neg hne]
  simp only [htake, hdrop, hcopy, List.drop_left' h1, List.take_left' h1, if_neg hn, copyN,
    List.take_left' hl, List.drop_left' hl]
  have hlt : ¬ ((c.data ++ c.crc ++ v).length < bigEndianUint32 c.len + 4) := by
    simp [h3, h4]
  simp only [if_neg hlt, forwarded]
  cases hu : isUpper (c.typ.getD 1 0)
  · simp
  · simp [Chunk.bytes]

theorem renderLoop_fctl (fuel : Nat) (len rest dst hdr : List Byte) (hl : len.length = 4)
    (hh : hdr.length = 8) :
    renderLoop (fuel + 1) (len ++ fctl ++ rest) dst hdr true = .ok (none, dst ++ iendChunk) := by
  have hne : len ++ fctl ++ rest ≠ [] := by
    intro h
    have := congrArg List.length h
    simp [hl] at this
  have htake : (len ++ fctl ++ rest).take 8 = len ++ fctl := by
    rw [List.take_left']; simp [hl, fctl]
  have hcopy : copy hdr (len ++ fctl) = len ++ fctl := by
    unfold copy
    rw [List.take_of_length_le (by simp [hl, fctl, hh]),
      List.drop_of_length_le (by simp [hl, fctl, hh])]
    simp
  rw [renderLoop, if_neg hne]
  simp only [htake, hcopy, List.drop_left' hl, renderFinish, and_self, if_true, Bool.not_true,
    Bool.false_eq_true, if_false]

theorem renderLoop_chunks (len rest : List Byte) (hl : len.length = 4) :
    ∀ (cs : List Chunk) (fuel : Nat) (dst hdr : List Byte) (saw : Bool),
      (∀ c ∈ cs, c.complete) →
      cs.Pairwise (fun a b => a.typ = idat → b.typ ≠ fctl) →
      (saw = true → ∀ c ∈ cs, c.typ ≠ fctl) →
      (saw = true ∨ ∃ c ∈ cs, c.typ = idat) →
      cs.length < fuel → hdr.length = 8 →
      renderLoop fuel (chunksBytes cs ++ (len ++ fctl ++ rest)) dst hdr saw
        = .ok (none, dst ++ (cs.map forwarded).flatten ++ iendChunk)
  | [], fuel, dst, hdr, saw, _, _, _, hsaw, hf, hh => by
    obtain ⟨fuel, rfl⟩ : ∃ k, fuel = k + 1 := ⟨fuel - 1, by simp at hf; omega⟩
    have : saw = true := by simpa using hsaw
    subst this
    simpa [chunksBytes] using renderLoop_fctl fuel len rest dst hdr hl hh
  | c :: cs, fuel, dst, hdr, saw, hcs, hp, hs, hsaw, hf, hh => by
    obtain ⟨fuel, rfl⟩ : ∃ k, fuel = k + 1 := ⟨fuel - 1, by simp at hf; omega⟩
    have hc := hcs c (List.mem_cons_self _ _)
    rw [List.pairwise_cons] at hp
    have hn : ¬ (c.typ = fctl ∧ saw = true) := fun h => hs h.2 c (List.mem_cons_self _ _) h.1
    rw [chunksBytes_cons, List.append_assoc, renderLoop_chunk fuel c hc _ dst hdr saw hh hn]
    rw [renderLoop_chunks len rest hl cs fuel _ _ _
      (fun d hd => hcs d (List.mem_cons_of_mem _ hd)) hp.2]
    · simp
    · intro h d hd
      simp only [Bool.or_eq_true, decide_eq_true_eq] at h
      rcases h with h | h
      · exact hs h d (List.mem_cons_of_mem _ hd)
      · exact hp.1 d hd h
    · rcases hsaw with h | ⟨d, hd, hd'⟩
      · left; simp [h]
      · rcases List.mem_cons.mp hd with rfl | hd
        · left; simp [hd']
        · right; exact ⟨d, hd, hd'⟩
    · simp at hf; omega
    · simp [hc.1, hc.2.1]

theorem flatten_forwarded (cs : List Chunk) :
    (cs.map forwarded).flatten = chunksBytes (cs.filter (fun c => isUpper (c.typ.getD 1 0))) := by
  induction cs with
  | nil => rfl
  | cons c cs ih =>
    cases hu : isUpper (c.typ.getD 1 0)
    · simp only [List.map_cons, List.flatten_cons, List.filter_cons, forwarded, hu, ih]
      simp
    · simp only [List.map_cons, List.flatten_cons, List.filter_cons, forwarded, hu, ih,
        chunksBytes_cons, if_true]

/-- C2: the output of `png.RenderFirstFrame` is a reference serialisation. For
every input made of 8 leading bytes `H`, then complete chunks of which at least
one is an IDAT chunk and none is an fcTL chunk that comes after an IDAT chunk,
then the complete header of an fcTL chunk, then any bytes, the call returns no
error and the sink holds `H`, then every chunk whose type has an upper-case
letter as second byte (`unicode.IsUpper`, modelled by `isUpper`), whole and in
input order, then the 12 bytes `00 00 00 00 49 45 4E 44 AE 42 60 82`; the chunks
whose type has any other second byte are left out entirely. -/
theorem RenderFirstFrame_reference_output (H : List Byte) (cs : List Chunk) (len rest : List Byte)
    (hH : H.length = 8) (hcs : ∀ c ∈ cs, c.complete)
    (hidat : ∃ c ∈ cs, c.typ = idat)
    (hfc : cs.Pairwise (fun a b => a.typ = idat → b.typ ≠ fctl))
    (hl : len.length = 4) :
    RenderFirstFrame (H ++ chunksBytes cs ++ len ++ fctl ++ rest)
      = .ok (none, H ++ chunksBytes (cs.filter (fun c => isUpper (c.typ.getD 1 0)))
          ++ [0x00, 0x00, 0x00, 0x00, 0x49, 0x45, 0x4E, 0x44, 0xAE, 0x42, 0x60, 0x82]) := by
  have e : H ++ chunksBytes cs ++ len ++ fctl ++ rest
      = H ++ (chunksBytes cs ++ (len ++ fctl ++ rest)) := by simp
  have hlen := length_le_chunksBytes cs hcs
  have hlt : ¬ ((H ++ (chunksBytes cs ++ (len ++ fctl ++ rest))).length < 8) := by simp [hH]
  rw [e, RenderFirstFrame]
  simp only [copyN, List.take_left' hH, List.drop_left' hH, if_neg hlt, List.nil_append]
  rw [renderLoop_chunks len rest hl cs _ H (zeros 8) false hcs hfc (by simp) (Or.inr hidat)
    (by simp; omega) (by simp [zeros]), flatten_forwarded]
  rfl

end png

namespace gif

theorem countPat_cons (b : Byte) (t : List Byte) :
    countPat (b :: t) = (if (b :: t).take 3 = gce then 1 else 0) + countPat t := rfl

theorem countPat_short (v : List Byte) (h : v.length < 3) : countPat v = 0 := by
  induction v with
  | nil => rfl
  | cons b t ih =>
    have hne : (b :: t).take 3 ≠ gce := by
      intro e
      have := congrArg List.length e
      simp [gce] at this
      simp at h
      omega
    simp only [countPat, if_neg hne]
    simpa using ih (by simp at h; omega)

theorem window_test (d : List Byte) (hd : d.length = 3) :
    (d.getD 0 0 = 0 ∧ d.getD 1 0 = 0x21 ∧ d.getD 2 0 = 249) ↔ d = gce := by
  match d, hd with
  | [a, b, c], _ => simp [gce]

theorem isAnimatedLoop_step (fuel : Nat) (wr : WindowedReader) (data v : List Byte) (count : Nat)
    (hv : 3 ≤ v.length)
    (h : ReadWindow wr data = .ok (3, none, v.take 3, steady 3 v.tail)) :
    isAnimatedLoop (fuel + 1) wr data count
      = if count + (if v.take 3 = gce then 1 else 0) > 1 then .ok (true, none, steady 3 v.tail)
        else isAnimatedLoop fuel (steady 3 v.tail) (v.take 3)
          (count + (if v.take 3 = gce then 1 else 0)) := by
  have hl : (v.take 3).length = 3 := by simp; omega
  rw [isAnimatedLoop, h]
  simp only [window_test _ hl]
  by_cases hp : v.take 3 = gce <;> simp [hp]

theorem isAnimatedLoop_step_result (fuel : Nat) (wr : WindowedReader) (data v : List Byte)
    (count : Nat) (hv : 3 ≤ v.length)
    (h : ReadWindow wr data = .ok (3, none, v.take 3, steady 3 v.tail)) :
    (isAnimatedLoop (fuel + 1) wr data count).map (fun res => (res.1, res.2.1))
      = if count + (if v.take 3 = gce then 1 else 0) > 1 then .ok (true, none)
        else (isAnimatedLoop fuel (steady 3 v.tail) (v.take 3)
          (count + (if v.take 3 = gce then 1 else 0))).map (fun res => (res.1, res.2.1)) := by
  rw [isAnimatedLoop_step fuel wr data v count hv h]
  split_ifs <;> rfl

theorem isAnimatedLoop_steady :
    ∀ (v : List Byte) (fuel : Nat) (data : List Byte) (count : Nat),
      data.length = 3 → count ≤ 1 → v.length < fuel →
      (isAnimatedLoop fuel (steady 3 v) data count).map (fun res => (res.1, res.2.1))
        = .ok (decide (count + countPat v > 1), none)
  | [], fuel, data, count, hd, hc, hf => by
    obtain ⟨fuel, rfl⟩ : ∃ k, fuel = k + 1 := ⟨fuel - 1, by simp at hf; omega⟩
    rw [isAnimatedLoop, ReadWindow_steady_eof 3 [] data (by simp) hd]
    simp [Outcome.map, countPat]; omega
  | b :: t, fuel, data, count, hd, hc, hf => by
    obtain ⟨fuel, rfl⟩ : ∃ k, fuel = k + 1 := ⟨fuel - 1, by simp at hf; omega⟩
    by_cases hlen : 3 ≤ (b :: t).length
    · rw [isAnimatedLoop_step_result fuel _ data (b :: t) count hlen
        (ReadWindow_steady 3 (b :: t) data (by omega) hlen hd)]
      by_cases hp : (b :: t).take 3 = gce
      · simp only [hp, if_true]
        by_cases hc1 : count + 1 > 1
        · simp only [hc1, if_true, countPat, hp]
          simp; omega
        · simp only [hc1, if_false, List.tail_cons]
          rw [isAnimatedLoop_steady t fuel _ (count + 1) (by simp [gce]) (by omega)
            (by simp at hf; omega)]
          simp [countPat, hp, Nat.add_assoc]
      · simp only [hp, if_false, List.tail_cons, Nat.add_zero, show ¬ count > 1 by omega]
        rw [isAnimatedLoop_steady t fuel _ count (by simp at hlen ⊢; omega) hc
          (by simp at hf; omega)]
        rw [countPat_cons, if_neg hp, Nat.zero_add]
    · rw [isAnimatedLoop, ReadWindow_steady_eof 3 (b :: t) data (by omega) hd]
      simp [Outcome.map, countPat_short (b :: t) (by omega)]; omega

theorem IsAnimated_eq_countPat (s : List Byte) :
    IsAnimated s = .ok (decide (countPat s > 1), none) := by
  unfold IsAnimated IsAnimatedRun
  match s with
  | [] => decide
  | [a] =>
    simp [isAnimatedLoop, ReadWindow, NewReader, zeros, copy, readNext, countPat, gce,
      Outcome.map]
  | [a, b] =>
    simp [isAnimatedLoop, ReadWindow, NewReader, zeros, copy, readNext, countPat, gce,
      Outcome.map]
  | a :: b :: c :: t =>
    have hlen : 3 ≤ (a :: b :: c :: t).length := by simp
    rw [isAnimatedLoop_step_result _ _ (zeros 3) (a :: b :: c :: t) 0 hlen
      (ReadWindow_fresh 3 _ _ (by omega) hlen (by simp [zeros]))]
    by_cases hp : (a :: b :: c :: t).take 3 = gce
    · simp only [hp, if_true, Nat.zero_add, show ¬ (1 > 1) by omega, if_false, List.tail_cons]
      rw [isAnimatedLoop_steady _ _ _ 1 (by simp [gce]) (by omega) (by simp)]
      rw [countPat_cons a, if_pos hp]
    · simp only [hp, if_false, Nat.add_zero, show ¬ (0 > 1) by omega, List.tail_cons]
      rw [isAnimatedLoop_steady _ _ _ 0 (by simp) (by omega) (by simp)]
      rw [countPat_cons a, if_neg hp]

theorem occursAt_zero (s : List Byte) : occursAt s 0 ↔ s.take 3 = gce := by
  simp [occursAt]

theorem occursAt_succ (b : Byte) (t : List Byte) (k : Nat) :
    occursAt (b :: t) (k + 1) ↔ occursAt t k := by
  simp [occursAt]

theorem countPat_pos_iff (s : List Byte) : 1 ≤ countPat s ↔ ∃ i, occursAt s i := by
  induction s with
  | nil => simp [countPat, occursAt, gce]
  | cons b t ih =>
    by_cases hp : (b :: t).take 3 = gce
    · simp only [countPat, if_pos hp]
      exact ⟨fun _ => ⟨0, (occursAt_zero _).mpr hp⟩, fun _ => by omega⟩
    · simp only [countPat, if_neg hp, Nat.zero_add, ih]
      constructor
      · rintro ⟨i, hi⟩
        exact ⟨i + 1, (occursAt_succ b t i).mpr hi⟩
      · rintro ⟨i, hi⟩
        cases i with
        | zero => exact absurd ((occursAt_zero _).mp hi) hp
        | succ i => exact ⟨i, (occursAt_succ b t i).mp hi⟩

theorem countPat_two_iff (s : List Byte) :
    2 ≤ countPat s ↔ ∃ i j, i < j ∧ occursAt s i ∧ occursAt s j := by
  induction s with
  | nil => simp [countPat, occursAt, gce]
  | cons b t ih =>
    constructor
    · intro h
      by_cases hp : (b :: t).take 3 = gce
      · simp only [countPat, if_pos hp] at h
        obtain ⟨j, hj⟩ := (countPat_pos_iff t).mp (by omega)
        exact ⟨0, j + 1, by omega, (occursAt_zero _).mpr hp, (occursAt_succ b t j).mpr hj⟩
      · simp only [countPat, if_neg hp, Nat.zero_add] at h
        obtain ⟨i, j, hij, hi, hj⟩ := ih.mp h
        exact ⟨i + 1, j + 1, by omega, (occursAt_succ b t i).mpr hi, (occursAt_succ b t j).mpr hj⟩
    · rintro ⟨i, j, hij, hi, hj⟩
      obtain ⟨j, rfl⟩ : ∃ k, j = k + 1 := ⟨j - 1, by omega⟩
      have hj' := (occursAt_succ b t j).mp hj
      cases i with
      | zero =>
        have hp := (occursAt_zero _).mp hi
        have := (countPat_pos_iff t).mpr ⟨j, hj'⟩
        simp only [countPat, if_pos hp]
        omega
      | succ i =>
        have := ih.mpr ⟨i, j, by omega, (occursAt_succ b t i).mp hi, hj'⟩
        simp only [countPat]
        omega

/-- C3: `gif.IsAnimated` counts a 3-byte pattern. For every byte stream, also
the empty one and those shorter than 3 bytes, the result is `(true, nil)` if the
bytes `0x00, 0x21, 0xF9` occur at two distinct offsets, and `(false, nil)` if
they occur at no offset or at exactly one. -/
theorem IsAnimated_counts_pattern (s : List Byte) :
    ((∃ i j, i < j ∧ occursAt s i ∧ occursAt s j) → IsAnimated s = .ok (true, none)) ∧
    ((∀ i j, occursAt s i → occursAt s j → i = j) → IsAnimated s = .ok (false, none)) := by
  rw [IsAnimated_eq_countPat]
  constructor
  · intro h
    have := (countPat_two_iff s).mpr h
    simp; omega
  · intro h
    have : ¬ 2 ≤ countPat s := by
      rw [countPat_two_iff]
      rintro ⟨i, j, hij, hi, hj⟩
      have := h i j hi hj
      omega
    simp; omega

end gif

theorem matchLoop_iff : ∀ (magic b : List Byte), magic.length = b.length →
    (matchLoop magic b = true ↔ ∀ i, i < magic.length → (magic[i]? = some 0x3F ∨ magic[i]? = b[i]?))
  | [], [], _ => by simp [matchLoop]
  | [], _ :: _, h => by simp at h
  | _ :: _, [], h => by simp at h
  | m :: magic, c :: b, h => by
    have ih := matchLoop_iff magic b (by simpa using h)
    rw [matchLoop]
    constructor
    · intro hm i hi
      by_cases hc : m ≠ c ∧ m ≠ 0x3F
      · simp [hc] at hm
      · rw [if_neg hc] at hm
        cases i with
        | zero =>
          simp only [List.getElem?_cons_zero, Option.some.injEq]
          by_cases h1 : m = c
          · exact Or.inr h1
          · left; by_contra h2; exact hc ⟨h1, h2⟩
        | succ i =>
          simpa using ih.mp hm i (by simpa using hi)
    · intro hall
      have h0 := hall 0 (by simp)
      simp only [List.getElem?_cons_zero, Option.some.injEq] at h0
      have hc : ¬ (m ≠ c ∧ m ≠ 0x3F) := by
        rintro ⟨h1, h2⟩
        rcases h0 with h0 | h0
        · exact h2 h0
        · exact h1 h0
      rw [if_neg hc]
      apply ih.mpr
      intro i hi
      simpa using hall (i + 1) (by simpa using hi)

theorem Peek_stream (r : reader) (n : Nat) : (r.Peek n).2.stream = r.stream := by
  unfold reader.Peek reader.stream
  simp only
  split_ifs <;> simp

theorem Peek_buf (r : reader) (n : Nat) (hb : r.buf.length ≤ bufferSize) :
    (r.Peek n).2.buf.length ≤ bufferSize := by
  unfold reader.Peek
  simp only
  split_ifs <;> simp only [List.length_append, List.length_take] <;> omega

/-- A `Peek` of at most `bufferSize` bytes that the stream has returns them. -/
theorem Peek_ok (r : reader) (n : Nat) (hb : r.buf.length ≤ bufferSize) (hn : n ≤ bufferSize)
    (h : n ≤ r.stream.length) : (r.Peek n).1 = (r.stream.take n, none) := by
  unfold reader.Peek reader.stream at *
  simp only [List.length_append] at h
  simp only
  by_cases hc : r.buf.length < n ∧ r.buf.length < bufferSize
  · have hl : n ≤ (r.buf ++ r.rd.take (bufferSize - r.buf.length)).length := by
      simp only [List.length_append, List.length_take]; omega
    rw [if_pos hc, if_neg (by omega)]
    simp only
    rw [if_neg (by omega)]
    simp only [Prod.mk.injEq, and_true]
    conv_rhs => rw [← List.take_append_drop (bufferSize - r.buf.length) r.rd, ← List.append_assoc]
    rw [List.take_append_of_le_length hl]
  · have hl : n ≤ r.buf.length := by omega
    rw [if_neg hc, if_neg (by omega), if_neg (by omega)]
    simp only [Prod.mk.injEq, and_true]
    rw [List.take_append_of_le_length hl]

/-- A `Peek` of more bytes than the stream has, or than the buffer can hold,
returns an error. -/
theorem Peek_fail (r : reader) (n : Nat) (h : r.stream.length < n ∨ bufferSize < n) :
    ∃ b e, (r.Peek n).1 = (b, some e) := by
  unfold reader.Peek reader.stream at *
  simp only [List.length_append] at h
  simp only
  by_cases hbig : bufferSize < n
  · rw [if_pos hbig]; exact ⟨_, _, rfl⟩
  · rw [if_neg hbig]
    have hlt : r.buf.length + r.rd.length < n := by omega
    by_cases hc : r.buf.length < n ∧ r.buf.length < bufferSize
    · simp only [hc, and_self, if_true]
      rw [if_pos (by simp only [List.length_append, List.length_take]; omega)]
      exact ⟨_, _, rfl⟩
    · simp only [hc, if_false]
      rw [if_pos (by omega)]
      exact ⟨_, _, rfl⟩

/-- One step of `sniff`: a format is taken exactly when its magic fits in the
buffer and matches the leading bytes of the stream. -/
theorem sniff_cons (f : format) (formats : List format) (r : reader)
    (hb : r.buf.length ≤ bufferSize) :
    sniff (f :: formats) r
      = if f.magic.length ≤ bufferSize ∧ magicMatches f.magic r.stream then
          (f, (r.Peek f.magic.length).2)
        else sniff formats (r.Peek f.magic.length).2 := by
  rw [sniff]
  by_cases hlen : f.magic.length ≤ bufferSize ∧ f.magic.length ≤ r.stream.length
  · have hp := Peek_ok r f.magic.length hb hlen.1 hlen.2
    have hm : matchMagic f.magic (r.stream.take f.magic.length) = true
        ↔ magicMatches f.magic r.stream := by
      have hl : f.magic.length = (r.stream.take f.magic.length).length := by simp [hlen.2]
      unfold matchMagic magicMatches
      rw [if_neg (by simpa using hl), matchLoop_iff _ _ hl]
      simp only [hlen.2, true_and]
      constructor
      · intro h i hi
        have := h i hi
        rwa [List.getElem?_take_of_lt hi] at this
      · intro h i hi
        rw [List.getElem?_take_of_lt hi]
        exact h i hi
    rcases hpe : r.Peek f.magic.length with ⟨⟨b, e⟩, r1⟩
    rw [hpe] at hp
    simp only [Prod.mk.injEq] at hp
    obtain ⟨rfl, rfl⟩ := hp
    simp only
    by_cases hmm : magicMatches f.magic r.stream
    · rw [if_pos (hm.mpr hmm), if_pos ⟨hlen.1, hmm⟩]
    · rw [if_neg (fun h => hmm (hm.mp h)), if_neg (fun h => hmm h.2)]
  · obtain ⟨b, e, hp⟩ := Peek_fail r f.magic.length (by omega)
    have hmm : ¬ (f.magic.length ≤ bufferSize ∧ magicMatches f.magic r.stream) :=
      fun h => hlen ⟨h.1, h.2.1⟩
    rcases hpe : r.Peek f.magic.length with ⟨⟨b', e'⟩, r1⟩
    rw [hpe] at hp
    simp only [Prod.mk.injEq] at hp
    obtain ⟨rfl, rfl⟩ := hp
    simp only [if_neg hmm]

theorem sniff_stream : ∀ (formats : List format) (r : reader), r.buf.length ≤ bufferSize →
    (sniff formats r).2.stream = r.stream
  | [], r, _ => rfl
  | f :: formats, r, hb => by
    rw [sniff_cons f formats r hb]
    split
    · exact Peek_stream r _
    · rw [sniff_stream formats _ (Peek_buf r _ hb), Peek_stream]

theorem sniff_none : ∀ (formats : List format) (r : reader), r.buf.length ≤ bufferSize →
    (∀ f ∈ formats, ¬ (f.magic.length ≤ bufferSize ∧ magicMatches f.magic r.stream)) →
    (sniff formats r).1 = format.zero
  | [], r, _, _ => rfl
  | f :: formats, r, hb, h => by
    rw [sniff_cons f formats r hb, if_neg (h f (List.mem_cons_self _ _))]
    apply sniff_none formats _ (Peek_buf r _ hb)
    intro g hg
    rw [Peek_stream]
    exact h g (List.mem_cons_of_mem _ hg)

theorem sniff_first : ∀ (pre : List format) (f : format) (post : List format) (r : reader),
    r.buf.length ≤ bufferSize →
    (∀ g ∈ pre, ¬ (g.magic.length ≤ bufferSize ∧ magicMatches g.magic r.stream)) →
    f.magic.length ≤ bufferSize → magicMatches f.magic r.stream →
    (sniff (pre ++ f :: post) r).1 = f
  | [], f, post, r, hb, _, hl, hf => by
    rw [List.nil_append, sniff_cons f post r hb, if_pos ⟨hl, hf⟩]
  | g :: pre, f, post, r, hb, h, hl, hf => by
    rw [List.cons_append, sniff_cons g _ r hb, if_neg (h g (List.mem_cons_self _ _))]
    apply sniff_first pre f post _ (Peek_buf r _ hb)
    · intro k hk
      rw [Peek_stream]
      exact h k (List.mem_cons_of_mem _ hk)
    · exact hl
    · rw [Peek_stream]; exact hf

/-- A `Peek` leaves the reader over `s` fresh or with its buffer filled. -/
theorem Peek_state (s : List Byte) (r : reader) (n : Nat)
    (hr : r = asReader s ∨ r = buffered s) :
    (r.Peek n).2 = asReader s ∨ (r.Peek n).2 = buffered s := by
  have e : ∀ q : reader,
      (if bufferSize < n then ((q.buf, some GoError.ErrBufferFull), q)
        else if q.buf.length < n then ((q.buf, some GoError.EOF), q)
        else ((q.buf.take n, none), q)).2 = q := by
    intro q
    split_ifs <;> rfl
  unfold reader.Peek
  simp only [e]
  rcases hr with rfl | rfl
  · by_cases hn : n = 0
    · left
      simp [asReader, hn]
    · right
      have : 0 < n := by omega
      simp [asReader, buffered, bufferSize, this]
  · right
    by_cases hc : (buffered s).buf.length < n ∧ (buffered s).buf.length < bufferSize
    · rw [if_pos hc]
      have hs : s.length < bufferSize := by
        have := hc.2
        simp only [buffered, List.length_take] at this
        omega
      simp [buffered, List.take_of_length_le (Nat.le_of_lt hs),
        List.drop_of_length_le (Nat.le_of_lt hs)]
    · rw [if_neg hc]

/-- The bytes that a `Read` returns and the bytes that the reader will deliver
afterwards make up the bytes that the reader would have delivered. -/
theorem Read_stream (r : reader) (n : Nat) :
    (r.Read n).1.1 ++ (r.Read n).2.stream = r.stream := by
  obtain ⟨buf, rd⟩ := r
  cases buf with
  | cons a t =>
    simp only [reader.Read, reader.stream]
    rw [← List.append_assoc, List.take_append_drop]
  | nil =>
    simp only [reader.Read, reader.stream, List.nil_append]
    split_ifs
    · rfl
    · simp
    · simp only [List.nil_append]
      rw [← List.append_assoc, List.take_append_drop, List.take_append_drop]

/-- A `Read` on a reader whose buffer is not empty returns buffered bytes
only: fewer than asked for when the buffer holds fewer. -/
theorem Read_buffered (r : reader) (n : Nat) (h : r.buf ≠ []) :
    r.Read n = ((r.buf.take n, none), { buf := r.buf.drop n, rd := r.rd }) := by
  unfold reader.Read
  split
  · rfl
  · rename_i h0
    exact absurd h0 h

theorem registered_eq (calls : List format) : registered calls = calls := by
  have key : ∀ (cs acc : List format),
      cs.foldl (fun formats f => RegisterFormat formats f.name f.magic f.isAnimated
        f.renderFirstFrame) acc = acc ++ cs := by
    intro cs
    induction cs with
    | nil => intro acc; simp
    | cons c cs ih =>
      intro acc
      rw [List.foldl_cons, ih]
      simp [RegisterFormat]
  simpa [registered] using key calls []

namespace png

theorem skipChunk_full (n : Nat) (v : List Byte) (hv : 18 + n ≤ v.length) :
    skipChunk (steady 8 v) n = .ok (none, steady 8 (v.drop (11 + n))) := by
  unfold skipChunk
  rw [Skip_full 8 7 v (by omega) (by omega)]
  simp only
  rw [Skip_full 8 n _ (by omega) (by simp; omega)]
  simp only
  rw [Skip_full 8 4 _ (by omega) (by simp; omega)]
  simp only [List.drop_drop]
  rw [show 7 + n + 4 = 11 + n by omega]

/-- The stream ends after the chunk data but inside the three bytes before the
CRC skip can start, or earlier: one of the three skips starts on an exhausted
stream and reports end-of-stream. -/
theorem skipChunk_eof (n : Nat) (v : List Byte) (h7 : 7 ≤ v.length) (hv : v.length < 15 + n) :
    ∃ w, skipChunk (steady 8 v) n = .ok (some .EOF, w) := by
  unfold skipChunk
  by_cases ha : v.length = 7
  · exact ⟨_, by rw [Skip_eof 8 6 v (by omega)]⟩
  by_cases hb : v.length < 14
  · rw [Skip_short 8 7 v (by omega) (by omega) (by omega)]
    simp only
    cases n with
    | zero =>
      rw [Skip_full 8 0 _ (by omega) (by simp; omega)]
      simp only
      exact ⟨_, by rw [Skip_eof 8 3 _ (by simp; omega)]⟩
    | succ n => exact ⟨_, by rw [Skip_eof 8 n _ (by simp; omega)]⟩
  · rw [Skip_full 8 7 v (by omega) (by omega)]
    simp only
    by_cases hd : 7 + n ≤ (v.drop 7).length
    · rw [Skip_full 8 n _ (by omega) hd]
      simp only
      exact ⟨_, by rw [Skip_eof 8 3 _ (by simp at hd ⊢; omega)]⟩
    · obtain ⟨m, rfl⟩ : ∃ m, n = m + 1 := ⟨n - 1, by simp at hd; omega⟩
      by_cases hc : v.length = 14
      · exact ⟨_, by rw [Skip_eof 8 m _ (by simp; omega)]⟩
      · rw [Skip_short 8 (m + 1) _ (by omega) (by simp; omega) (by omega)]
        simp only
        exact ⟨_, by rw [Skip_eof 8 3 _ (by simp; omega)]⟩

/-- The stream ends one to three bytes into the CRC skip: no skip fails and the
reader is left with nothing to read. -/
theorem skipChunk_tail (n : Nat) (v : List Byte) (h1 : 15 + n ≤ v.length)
    (h2 : v.length < 18 + n) :
    ∃ v', skipChunk (steady 8 v) n = .ok (none, steady 8 v') ∧ v'.length = 7 := by
  unfold skipChunk
  rw [Skip_full 8 7 v (by omega) (by omega)]
  simp only
  rw [Skip_full 8 n _ (by omega) (by simp; omega)]
  simp only
  rw [Skip_short 8 4 _ (by omega) (by simp; omega) (by simp; omega)]
  exact ⟨_, rfl, by simp; omega⟩

theorem isAnimatedLoop_eof (fuel : Nat) (v hdr : List Byte) (hv : v.length < 8)
    (hh : hdr.length = 8) :
    isAnimatedLoop (fuel + 1) (steady 8 v) hdr = .ok (false, none) := by
  rw [isAnimatedLoop, ReadWindow_steady_eof 8 v hdr hv hh]

/-- One iteration of the loop on a non-decisive chunk header, whatever follows. -/
theorem isAnimatedLoop_header (fuel : Nat) (len typ rest hdr : List Byte) (hl : len.length = 4)
    (ht : typ.length = 4) (hn : ¬ decisive typ) (hh : hdr.length = 8) :
    isAnimatedLoop (fuel + 1) (steady 8 (len ++ typ ++ rest)) hdr
      = match skipChunk (steady 8 (len ++ typ ++ rest).tail) (bigEndianUint32 len) with
        | .panic => .panic
        | .fuelExhausted => .fuelExhausted
        | .ok (some e, _) => .ok (false, some e)
        | .ok (none, wr2) => isAnimatedLoop fuel wr2 (len ++ typ) := by
  have htake : (len ++ typ ++ rest).take 8 = len ++ typ := by
    rw [List.take_left']; simp [hl, ht]
  rw [isAnimatedLoop, ReadWindow_steady 8 _ hdr (by omega) (by simp [hl, ht]; omega) hh, htake]
  simp only [List.drop_left' hl, List.take_left' hl]
  have n1 : typ ≠ actl := fun h => hn (Or.inl h)
  have n2 : ¬ (typ = idat ∨ typ = iend) := fun h => hn (Or.inr h)
  rw [if_neg n1, if_neg n2]

/-- The stream ends inside a chunk whose header is complete and not decisive. -/
theorem isAnimatedLoop_cut_body (fuel : Nat) (len typ body hdr : List Byte) (hl : len.length = 4)
    (ht : typ.length = 4) (hn : ¬ decisive typ) (hb : body.length < bigEndianUint32 len + 4)
    (hh : hdr.length = 8) :
    isAnimatedLoop (fuel + 1) (steady 8 (len ++ typ ++ body)) hdr = .ok (false, some .EOF) := by
  rw [isAnimatedLoop_header fuel len typ body hdr hl ht hn hh]
  obtain ⟨w, hw⟩ := skipChunk_eof (bigEndianUint32 len) (len ++ typ ++ body).tail
    (by simp [hl, ht]; omega) (by simp [hl, ht]; omega)
  rw [hw]

/-- The loop on complete non-decisive chunks followed by fewer than 8 bytes. -/
theorem isAnimatedLoop_cut_header (tail : List Byte) (ht : tail.length < 8) :
    ∀ (cs : List Chunk) (fuel : Nat) (hdr : List Byte),
      (∀ c ∈ cs, c.complete ∧ ¬ decisive c.typ) → 7 ≤ (chunksBytes cs ++ tail).length →
      cs.length + 1 < fuel → hdr.length = 8 →
      isAnimatedLoop fuel (steady 8 (chunksBytes cs ++ tail)) hdr
        = .ok (false, if 4 ≤ tail.length then none else some .EOF)
  | [], fuel, hdr, _, h7, hf, hh => by
    obtain ⟨fuel, rfl⟩ : ∃ k, fuel = k + 1 := ⟨fuel - 1, by simp at hf; omega⟩
    simp only [chunksBytes, List.map_nil, List.flatten_nil, List.nil_append] at h7 ⊢
    rw [isAnimatedLoop_eof fuel tail hdr ht hh, if_pos (by omega)]
  | c :: cs, fuel, hdr, hcs, h7, hf, hh => by
    obtain ⟨fuel, rfl⟩ : ∃ k, fuel = k + 1 := ⟨fuel - 1, by simp at hf; omega⟩
    obtain ⟨hc, hn⟩ := hcs c (List.mem_cons_self _ _)
    have hcs' : ∀ d ∈ cs, d.complete ∧ ¬ decisive d.typ :=
      fun d hd => hcs d (List.mem_cons_of_mem _ hd)
    obtain ⟨h1, h2, h3, h4⟩ := hc
    have e : chunksBytes (c :: cs) ++ tail
        = c.len ++ c.typ ++ (c.data ++ c.crc ++ (chunksBytes cs ++ tail)) := by
      simp [chunksBytes_cons, Chunk.bytes]
    have hlen : (c.len ++ c.typ ++ (c.data ++ c.crc ++ (chunksBytes cs ++ tail))).tail.length
        = 11 + bigEndianUint32 c.len + (chunksBytes cs ++ tail).length := by
      simp [h1, h2, h3, h4]; omega
    have hdrop : (c.len ++ c.typ ++ (c.data ++ c.crc ++ (chunksBytes cs ++ tail))).tail.drop
        (11 + bigEndianUint32 c.len) = chunksBytes cs ++ tail := by
      rw [List.drop_tail, ← List.append_assoc (c.len ++ c.typ)]
      exact List.drop_left' (by simp [h1, h2, h3, h4]; omega)
    rw [e, isAnimatedLoop_header fuel c.len c.typ _ hdr h1 h2 hn hh]
    by_cases hr : 7 ≤ (chunksBytes cs ++ tail).length
    · rw [skipChunk_full _ _ (by omega), hdrop]
      simp only
      exact isAnimatedLoop_cut_header tail ht cs fuel _ hcs' hr (by simp at hf; omega)
        (by simp [h1, h2])
    · have hnil : cs = [] := by
        cases cs with
        | nil => rfl
        | cons d ds =>
          have := length_le_chunksBytes (d :: ds) (fun x hx => (hcs' x hx).1)
          simp at this hr
          omega
      subst hnil
      simp only [chunksBytes, List.map_nil, List.flatten_nil, List.nil_append] at hr hlen ⊢
      by_cases h4t : 4 ≤ tail.length
      · obtain ⟨v', hv', hl'⟩ := skipChunk_tail (bigEndianUint32 c.len) _
          (by rw [hlen]; omega) (by rw [hlen]; omega)
        obtain ⟨fuel, rfl⟩ : ∃ k, fuel = k + 1 := ⟨fuel - 1, by simp at hf; omega⟩
        rw [hv']
        simp only
        rw [isAnimatedLoop_eof fuel v' _ (by omega) (by simp [h1, h2]), if_pos h4t]
      · obtain ⟨w, hw⟩ := skipChunk_eof (bigEndianUint32 c.len) _
          (by rw [hlen]; omega) (by rw [hlen]; omega)
        rw [hw, if_neg h4t]

/-- The stream ends less than 7 bytes after the signature. -/
theorem IsAnimated_signature_cut (v : List Byte) (hv : v.length < 7) :
    IsAnimated (pngHeader ++ v) = .ok (false, if v = [] then some .EOF else none) := by
  have hf := ReadWindow_fresh 8 (pngHeader ++ v) (zeros 8) (by omega)
    (by simp [pngHeader]) (by simp [zeros])
  have ht : (pngHeader ++ v).take 8 = pngHeader := List.take_left' rfl
  have hlen : (pngHeader ++ v).tail.length = 7 + v.length := by simp [pngHeader]; omega
  unfold IsAnimated
  rw [hf, ht]
  simp only [ne_eq, not_true_eq_false, if_false]
  by_cases hnil : v = []
  · subst hnil
    rw [Skip_eof 8 6 _ (by simp [pngHeader])]
    simp
  · have hpos : 0 < v.length := List.length_pos.mpr hnil
    rw [Skip_short 8 7 _ (by omega) (by omega) (by omega)]
    simp only
    rw [isAnimatedLoop_eof _ _ pngHeader (by simp [pngHeader]; omega) rfl, if_neg hnil]

/-- The loop on complete non-decisive chunks followed by at least 7 bytes. -/
theorem isAnimatedLoop_skip_chunks (rest : List Byte) (hr : 7 ≤ rest.length) :
    ∀ (cs : List Chunk) (fuel : Nat) (hdr : List Byte),
      (∀ c ∈ cs, c.complete ∧ ¬ decisive c.typ) → hdr.length = 8 →
      ∃ hdr', hdr'.length = 8 ∧
        isAnimatedLoop (fuel + cs.length) (steady 8 (chunksBytes cs ++ rest)) hdr
          = isAnimatedLoop fuel (steady 8 rest) hdr'
  | [], fuel, hdr, _, hh => ⟨hdr, hh, by simp [chunksBytes]⟩
  | c :: cs, fuel, hdr, hcs, hh => by
    obtain ⟨hc, hn⟩ := hcs c (List.mem_cons_self _ _)
    obtain ⟨hdr', hh', ih⟩ := isAnimatedLoop_skip_chunks rest hr cs fuel (c.len ++ c.typ)
      (fun d hd => hcs d (List.mem_cons_of_mem _ hd)) (by simp [hc.1, hc.2.1])
    refine ⟨hdr', hh', ?_⟩
    rw [chunksBytes_cons, List.append_assoc, List.length_cons, ← Nat.add_assoc,
      isAnimatedLoop_chunk _ c hc hn _ hdr (by simp; omega) hh, ih]

end png

namespace webp

set_option maxRecDepth 100000 in
theorem animationBit_iff (b : Byte) : animationBit b = decide (b.val &&& 2 ≠ 0) := by
  revert b; decide

end webp

theorem u32sub_of_le (a b : Nat) (h : b ≤ a) (ha : a < 4294967296) : u32sub a b = a - b := by
  unfold u32sub
  rw [Nat.mod_eq_of_lt (show b < 4294967296 by omega)]
  omega

theorem littleEndianUint32_lt (b : List Byte) : littleEndianUint32 b < 4294967296 := by
  unfold littleEndianUint32
  have h0 := (b.getD 0 0).isLt
  have h1 := (b.getD 1 0).isLt
  have h2 := (b.getD 2 0).isLt
  have h3 := (b.getD 3 0).isLt
  omega

namespace riff

theorem NewListReader_spec (n : Nat) (d : List Byte) :
    if 4 ≤ n ∧ 4 ≤ d.length then
      NewListReader n d = (d.take 4, some (Reader.fresh (d.drop 4) (n - 4)), none)
    else ∃ e, NewListReader n d = ([], none, some e) := by
  unfold NewListReader readFull
  by_cases h1 : n < 4
  · rw [if_neg (by omega), if_pos h1]; exact ⟨_, rfl⟩
  · by_cases h2 : 4 ≤ d.length
    · rw [if_pos ⟨by omega, h2⟩]; simp [h1, h2, Reader.fresh]
    · rw [if_neg (by omega), if_neg h1, if_neg h2]
      by_cases h3 : d = []
      · rw [if_pos h3]; exact ⟨_, rfl⟩
      · rw [if_neg h3]; exact ⟨_, rfl⟩

theorem NewReader_spec (s : List Byte) :
    if 12 ≤ s.length ∧ s.take 4 = [0x52, 0x49, 0x46, 0x46] ∧
        4 ≤ littleEndianUint32 ((s.drop 4).take 4) then
      NewReader s = ((s.drop 8).take 4,
        some (Reader.fresh (s.drop 12) (littleEndianUint32 ((s.drop 4).take 4) - 4)), none)
    else ∃ e, NewReader s = ([], none, some e) := by
  unfold NewReader readFull
  by_cases h1 : 8 ≤ s.length
  · rw [if_pos h1]
    simp only [List.take_take, Nat.min_def, show (4 : Nat) ≤ 8 by omega, if_true, List.drop_take,
      show 8 - 4 = 4 by omega]
    by_cases h2 : s.take 4 = [0x52, 0x49, 0x46, 0x46]
    · simp only [h2, ne_eq, not_true_eq_false, if_false, true_and]
      have h := NewListReader_spec (littleEndianUint32 ((s.drop 4).take 4)) (s.drop 8)
      by_cases h3 : 4 ≤ littleEndianUint32 ((s.drop 4).take 4) ∧ 4 ≤ (s.drop 8).length
      · rw [if_pos h3] at h
        rw [if_pos ⟨by have := h3.2; simp at this; omega, h3.1⟩, h]
        simp
      · rw [if_neg h3] at h
        rw [if_neg (by intro h'; exact h3 ⟨h'.2, by simp; omega⟩)]
        exact h
    · rw [if_neg (fun h => h2 h.2.1)]
      simp only [ne_eq, h2, not_false_eq_true, if_true]
      exact ⟨_, rfl⟩
  · rw [if_neg (by omega), if_neg h1]
    by_cases h3 : s = []
    · rw [if_pos h3]; exact ⟨_, rfl⟩
    · rw [if_neg h3]; exact ⟨_, rfl⟩

theorem nextHeader_spec (z : Reader) (he : z.err = none) :
    if 8 ≤ z.r.length ∧ 8 ≤ z.totalLen ∧
        littleEndianUint32 ((z.r.drop 4).take 4) ≤ z.totalLen - 8 then
      z.nextHeader = ((z.r.take 4, littleEndianUint32 ((z.r.drop 4).take 4), none),
        { r := z.r.drop 8, err := none, totalLen := z.totalLen - 8,
          chunkLen := littleEndianUint32 ((z.r.drop 4).take 4),
          padded := decide (littleEndianUint32 ((z.r.drop 4).take 4) % 2 = 1) })
    else ∃ e z', z.nextHeader = (([], 0, some e), z') := by
  obtain ⟨r, err, T, c, p⟩ := z
  simp only at he
  subst he
  unfold Reader.nextHeader readFull
  simp only
  by_cases h0 : T = 0
  · rw [if_neg (by omega), if_pos h0]; exact ⟨_, _, rfl⟩
  by_cases h8 : T < 8
  · rw [if_neg (by omega), if_neg h0, if_pos h8]; exact ⟨_, _, rfl⟩
  rw [if_neg h0, if_neg h8]
  by_cases hr : 8 ≤ r.length
  · rw [if_pos hr]
    simp only [List.drop_take, List.take_take, Nat.min_def, show (4 : Nat) ≤ 8 by omega, if_true,
      show 8 - 4 = 4 by omega]
    by_cases hl : littleEndianUint32 ((r.drop 4).take 4) > T - 8
    · rw [if_neg (by omega), if_pos hl]; exact ⟨_, _, rfl⟩
    · rw [if_pos ⟨hr, by omega, by omega⟩, if_neg hl]
  · rw [if_neg (by omega), if_neg hr]
    by_cases h3 : r = []
    · rw [if_pos h3]; exact ⟨_, _, rfl⟩
    · rw [if_neg h3]; exact ⟨_, _, rfl⟩

theorem skipPadding_spec (z : Reader) (he : z.err = none) :
    if (if z.padded then 1 else 0) ≤ z.r.length ∧ (if z.padded then 1 else 0) ≤ z.totalLen then
      z.skipPadding = (none, { z with r := z.r.drop (if z.padded then 1 else 0),
                                      totalLen := z.totalLen - (if z.padded then 1 else 0) })
    else ∃ e z', z.skipPadding = (some e, z') := by
  obtain ⟨r, err, T, c, p⟩ := z
  simp only at he
  subst he
  unfold Reader.skipPadding readFull
  cases p
  · simp
  · simp only [if_true]
    by_cases h0 : T = 0
    · rw [if_neg (by omega), if_pos h0]; exact ⟨_, _, rfl⟩
    rw [if_neg h0]
    by_cases hr : 1 ≤ r.length
    · rw [if_pos ⟨hr, by omega⟩, if_pos hr]
    · have : r = [] := by
        cases r with
        | nil => rfl
        | cons a t => simp at hr
      subst this
      rw [if_neg (by simp)]
      exact ⟨_, _, rfl⟩

theorem Next_spec (z : Reader) (hz : z.sound) :
    if z.pending + 8 ≤ z.r.length ∧ z.pending + 8 ≤ z.totalLen ∧
        littleEndianUint32 ((z.r.drop (z.pending + 4)).take 4) ≤ z.totalLen - (z.pending + 8) then
      z.Next = (((z.r.drop z.pending).take 4,
          littleEndianUint32 ((z.r.drop (z.pending + 4)).take 4), none),
        { r := z.r.drop (z.pending + 8), err := none,
          totalLen := z.totalLen - (z.pending + 8),
          chunkLen := littleEndianUint32 ((z.r.drop (z.pending + 4)).take 4),
          padded := decide (littleEndianUint32 ((z.r.drop (z.pending + 4)).take 4) % 2 = 1) })
    else ∃ e z', z.Next = (([], 0, some e), z') := by
  obtain ⟨r, err, T, c, p⟩ := z
  obtain ⟨he, hc, ht⟩ := hz
  simp only at he hc ht
  subst he
  -- the reader once the rest of the current chunk is drained
  have drain : c ≤ r.length →
      Reader.Next ⟨r, none, T, c, p⟩
        = match Reader.skipPadding ⟨r.drop c, none, T - c, 0, p⟩ with
          | (some e, z2) => (([], 0, some e), z2)
          | (none, z2) => z2.nextHeader := by
    intro hrc
    by_cases hc0 : c = 0
    · subst hc0
      simp [Reader.Next]
    · have hl : (r.take c).length = c := by simp [hrc]
      simp only [Reader.Next, Reader.copyAll, ne_eq, hc0, not_false_eq_true, if_true, hl,
        not_true_eq_false, and_false, if_false, u32sub_of_le T c hc ht,
        u32sub_of_le c c (Nat.le_refl c) (by omega), Nat.sub_self]
  simp only [Reader.pending]
  by_cases hrc : c ≤ r.length
  · rw [drain hrc]
    have hp := skipPadding_spec ⟨r.drop c, none, T - c, 0, p⟩ rfl
    simp only [List.length_drop] at hp
    by_cases h1 : (if p = true then 1 else 0) ≤ r.length - c ∧ (if p = true then 1 else 0) ≤ T - c
    · rw [if_pos h1] at hp
      rw [hp]
      simp only
      have hh := nextHeader_spec ⟨(r.drop c).drop (if p = true then 1 else 0), none,
          T - c - (if p = true then 1 else 0), 0, p⟩ rfl
      simp only [List.length_drop, List.drop_drop] at hh
      have e : T - (c + (if p = true then 1 else 0) + 8)
          = T - c - (if p = true then 1 else 0) - 8 := by omega
      by_cases h2 : 8 ≤ r.length - (c + if p = true then 1 else 0) ∧
          8 ≤ (T - c - if p = true then 1 else 0) ∧
          littleEndianUint32 ((r.drop (c + (if p = true then 1 else 0) + 4)).take 4)
            ≤ (T - c - if p = true then 1 else 0) - 8
      · rw [if_pos h2] at hh
        rw [if_pos ⟨by omega, by omega, by omega⟩, e]
        simpa [List.drop_drop] using hh
      · rw [if_neg h2] at hh
        rw [if_neg (by intro h'; exact h2 ⟨by omega, by omega, by omega⟩)]
        simpa [List.drop_drop] using hh
    · rw [if_neg h1] at hp
      obtain ⟨e, z', hp⟩ := hp
      rw [if_neg (by intro h'; exact h1 ⟨by omega, by omega⟩), hp]
      exact ⟨_, _, rfl⟩
  · rw [if_neg (by omega)]
    have hc0 : c ≠ 0 := by omega
    have hl : (r.take c).length ≠ c := by simp; omega
    simp only [Reader.Next, Reader.copyAll, ne_eq, hc0, not_false_eq_true, if_true, hl,
      and_self]
    exact ⟨_, _, rfl⟩

end riff

namespace webp

theorem fresh_sound (r : List Byte) (T : Nat) (hT : T < 4294967296) :
    (riff.Reader.fresh r T).sound := ⟨rfl, Nat.zero_le _, hT⟩

theorem IsAnimated_not_riff (s : List Byte) (h : ¬ opensRIFF s) :
    IsAnimated s = (false, some (.wrapped .cannotCreateReader .errMalformedImage)) := by
  have hn := riff.NewReader_spec s
  unfold opensRIFF at h
  rw [if_neg h] at hn
  obtain ⟨e, he⟩ := hn
  rw [IsAnimated, he]

theorem IsAnimated_not_webp (s : List Byte) (h : opensRIFF s) (hf : (s.drop 8).take 4 ≠ fccWEBP) :
    IsAnimated s = (false, some .errMalformedImage) := by
  have hn := riff.NewReader_spec s
  unfold opensRIFF at h
  rw [if_pos h] at hn
  rw [IsAnimated, hn]
  simp only [ne_eq, hf, not_false_eq_true, if_true]

/-- The first `Next` of a container whose first chunk header is complete. -/
theorem first_Next (s : List Byte) (h : firstHeaderOk s) :
    (riff.Reader.fresh (s.drop 12) (littleEndianUint32 ((s.drop 4).take 4) - 4)).Next
      = (((s.drop 12).take 4, littleEndianUint32 ((s.drop 16).take 4), none),
        { r := s.drop 20, err := none,
          totalLen := littleEndianUint32 ((s.drop 4).take 4) - 12,
          chunkLen := littleEndianUint32 ((s.drop 16).take 4),
          padded := decide (littleEndianUint32 ((s.drop 16).take 4) % 2 = 1) }) := by
  obtain ⟨h1, h2, h3⟩ := h
  have hlt := littleEndianUint32_lt ((s.drop 4).take 4)
  have hx := riff.Next_spec (riff.Reader.fresh (s.drop 12)
    (littleEndianUint32 ((s.drop 4).take 4) - 4)) (fresh_sound _ _ (by omega))
  simp only [riff.Reader.fresh, riff.Reader.pending, Bool.false_eq_true, if_false, Nat.add_zero,
    Nat.zero_add, List.length_drop, List.drop_drop, List.drop_zero, Nat.reduceAdd] at hx ⊢
  rw [if_pos ⟨by omega, by omega, by omega⟩] at hx
  rw [hx, show littleEndianUint32 ((s.drop 4).take 4) - 4 - 8
    = littleEndianUint32 ((s.drop 4).take 4) - 12 by omega]

theorem first_Next_fails (s : List Byte) (h : ¬ firstHeaderOk s) :
    ∃ e z', (riff.Reader.fresh (s.drop 12) (littleEndianUint32 ((s.drop 4).take 4) - 4)).Next
      = (([], 0, some e), z') := by
  have hlt := littleEndianUint32_lt ((s.drop 4).take 4)
  have hx := riff.Next_spec (riff.Reader.fresh (s.drop 12)
    (littleEndianUint32 ((s.drop 4).take 4) - 4)) (fresh_sound _ _ (by omega))
  simp only [riff.Reader.fresh, riff.Reader.pending, Bool.false_eq_true, if_false, Nat.add_zero,
    Nat.zero_add, List.length_drop, List.drop_drop, List.drop_zero, Nat.reduceAdd] at hx ⊢
  unfold firstHeaderOk at h
  rw [if_neg (by intro h'; exact h ⟨by omega, by omega, by omega⟩)] at hx
  exact hx

theorem IsAnimated_no_header (s : List Byte) (h : opensRIFF s) (hf : (s.drop 8).take 4 = fccWEBP)
    (hh : ¬ firstHeaderOk s) : ∃ e, IsAnimated s = (false, some e) := by
  have hn := riff.NewReader_spec s
  unfold opensRIFF at h
  rw [if_pos h] at hn
  obtain ⟨e, z', hz⟩ := first_Next_fails s hh
  refine ⟨e, ?_⟩
  rw [IsAnimated, hn]
  simp only [ne_eq, hf, not_true_eq_false, if_false, hz]

theorem IsAnimated_first_chunk (s : List Byte) (h : opensRIFF s)
    (hf : (s.drop 8).take 4 = fccWEBP) (hh : firstHeaderOk s) :
    IsAnimated s
      = if (s.drop 12).take 4 ≠ fccVP8X then (false, none)
        else if littleEndianUint32 ((s.drop 16).take 4) = 0 then (false, some .EOF)
        else match s.drop 20 with
          | [] => (false, some .EOF)
          | b :: _ => (animationBit b, none) := by
  have hn := riff.NewReader_spec s
  unfold opensRIFF at h
  rw [if_pos h] at hn
  rw [IsAnimated, hn]
  simp only [ne_eq, hf, not_true_eq_false, if_false, first_Next s hh]
  by_cases hv : (s.drop 12).take 4 = fccVP8X
  · simp only [hv, not_true_eq_false, if_false, riff.Reader.chunkRead]
    by_cases h0 : littleEndianUint32 ((s.drop 16).take 4) = 0
    · simp only [h0, if_true]
    · simp only [h0, if_false]
      cases hd : s.drop 20 with
      | nil => rfl
      | cons b t =>
        have hm : min (littleEndianUint32 ((s.drop 16).take 4)) 1 = 1 := by omega
        simp [hm, copy]
  · simp only [hv, not_false_eq_true, if_true]

/-- The layout `RIFF`, size, form type, chunk id, chunk length, rest. -/
theorem layout (size form id clen rest : List Byte) (hs : size.length = 4)
    (hfo : form.length = 4) (hi : id.length = 4) (hc : clen.length = 4) :
    let s := fccRIFF ++ size ++ form ++ id ++ clen ++ rest
    s.length = 20 + rest.length ∧ s.take 4 = fccRIFF ∧ (s.drop 4).take 4 = size ∧
      (s.drop 8).take 4 = form ∧ (s.drop 12).take 4 = id ∧ (s.drop 16).take 4 = clen ∧
      s.drop 20 = rest := by
  match size, hs, form, hfo, id, hi, clen, hc with
  | [s0, s1, s2, s3], _, [f0, f1, f2, f3], _, [i0, i1, i2, i3], _, [c0, c1, c2, c3], _ =>
    simp [fccRIFF]
    omega

theorem IsAnimated_error_of_short (s : List Byte) (h : s.length < 20) :
    ∃ e, IsAnimated s = (false, some e) := by
  by_cases h1 : opensRIFF s
  · by_cases h2 : (s.drop 8).take 4 = fccWEBP
    · exact IsAnimated_no_header s h1 h2 (fun hh => by have := hh.1; omega)
    · exact ⟨_, IsAnimated_not_webp s h1 h2⟩
  · exact ⟨_, IsAnimated_not_riff s h1⟩

theorem IsAnimated_error_of_form (size form rest : List Byte) (hs : size.length = 4)
    (hfo : form.length = 4) (hne : form ≠ fccWEBP) :
    ∃ e, IsAnimated (fccRIFF ++ size ++ form ++ rest) = (false, some e) := by
  have hform : ((fccRIFF ++ size ++ form ++ rest).drop 8).take 4 = form := by
    have e : fccRIFF ++ size ++ form ++ rest = (fccRIFF ++ size) ++ (form ++ rest) := by simp
    rw [e, List.drop_left' (by simp [fccRIFF, hs]), List.take_left' hfo]
  by_cases h1 : opensRIFF (fccRIFF ++ size ++ form ++ rest)
  · exact ⟨_, IsAnimated_not_webp _ h1 (by rw [hform]; exact hne)⟩
  · exact ⟨_, IsAnimated_not_riff _ h1⟩

/-- C4: `webp.IsAnimated` reads exactly the first chunk. For a RIFF stream with
form type WEBP whose first chunk header is complete and consistent with the
declared RIFF size, the result is `(false, nil)` when the first chunk id is not
VP8X, and when it is VP8X with at least one payload byte `b` it is `(true, nil)`
if `b AND 0x02` is non-zero and `(false, nil)` otherwise. When the form type is
not WEBP, when the stream has fewer than the 20 bytes that end the first chunk
header, or when it ends right after a VP8X header, the result is `false` with
an error. -/
theorem IsAnimated_reads_first_chunk :
    (∀ size id clen rest : List Byte, size.length = 4 → id.length = 4 → clen.length = 4 →
      12 ≤ littleEndianUint32 size → littleEndianUint32 clen ≤ littleEndianUint32 size - 12 →
      (id ≠ fccVP8X →
        IsAnimated (fccRIFF ++ size ++ fccWEBP ++ id ++ clen ++ rest) = (false, none)) ∧
      (id = fccVP8X → 1 ≤ littleEndianUint32 clen → ∀ b rest', rest = b :: rest' →
        IsAnimated (fccRIFF ++ size ++ fccWEBP ++ id ++ clen ++ rest)
          = (decide (b.val &&& 2 ≠ 0), none))) ∧
    (∀ size form rest : List Byte, size.length = 4 → form.length = 4 → form ≠ fccWEBP →
      ∃ e, IsAnimated (fccRIFF ++ size ++ form ++ rest) = (false, some e)) ∧
    (∀ s : List Byte, s.length < 20 → ∃ e, IsAnimated s = (false, some e)) ∧
    (∀ size clen : List Byte, size.length = 4 → clen.length = 4 →
      ∃ e, IsAnimated (fccRIFF ++ size ++ fccWEBP ++ fccVP8X ++ clen) = (false, some e)) := by
  refine ⟨?_, IsAnimated_error_of_form, IsAnimated_error_of_short, ?_⟩
  · intro size id clen rest hs hi hc h12 hle
    obtain ⟨l0, l1, l2, l3, l4, l5, l6⟩ := layout size fccWEBP id clen rest hs rfl hi hc
    have ho : opensRIFF (fccRIFF ++ size ++ fccWEBP ++ id ++ clen ++ rest) :=
      ⟨by omega, l1, by rw [l2]; omega⟩
    have hh : firstHeaderOk (fccRIFF ++ size ++ fccWEBP ++ id ++ clen ++ rest) :=
      ⟨by omega, by rw [l2]; exact h12, by rw [l2, l5]; exact hle⟩
    have key := IsAnimated_first_chunk _ ho l3 hh
    rw [l4, l5, l6] at key
    constructor
    · intro hne
      rw [key, if_pos hne]
    · intro hid hpos b rest' hr
      rw [key, if_neg (by simpa using hid), if_neg (by omega), hr]
      simp only
      rw [animationBit_iff]
  · intro size clen hs hc
    obtain ⟨l0, l1, l2, l3, l4, l5, l6⟩ := layout size fccWEBP fccVP8X clen [] hs rfl rfl hc
    simp only [List.append_nil] at l0 l1 l2 l3 l4 l5 l6
    by_cases ho : opensRIFF (fccRIFF ++ size ++ fccWEBP ++ fccVP8X ++ clen)
    · by_cases hh : firstHeaderOk (fccRIFF ++ size ++ fccWEBP ++ fccVP8X ++ clen)
      · have key := IsAnimated_first_chunk _ ho l3 hh
        rw [l4, l5, l6] at key
        simp only [ne_eq, not_true_eq_false, if_false] at key
        by_cases h0 : littleEndianUint32 clen = 0
        · exact ⟨_, by rw [key, if_pos h0]⟩
        · exact ⟨_, by rw [key, if_neg h0]⟩
      · exact IsAnimated_no_header _ ho l3 hh
    · exact ⟨_, IsAnimated_not_riff _ ho⟩

end webp

namespace riff

theorem chunkRead_spec (z : Reader) (hz : z.sound) (n : Nat) :
    if z.chunkLen = 0 ∨ z.r = [] then z.chunkRead n = (([], some .EOF), z)
    else z.chunkRead n = ((z.r.take (min z.chunkLen n), none),
      { z with r := z.r.drop (min z.chunkLen n),
               totalLen := z.totalLen - (z.r.take (min z.chunkLen n)).length,
               chunkLen := z.chunkLen - (z.r.take (min z.chunkLen n)).length }) := by
  obtain ⟨r, err, T, c, p⟩ := z
  obtain ⟨he, hc, ht⟩ := hz
  simp only at he hc ht
  subst he
  unfold Reader.chunkRead
  simp only
  by_cases h0 : c = 0
  · simp [h0]
  · cases r with
    | nil => simp [h0]
    | cons a t =>
      have hl : ((a :: t).take (min c n)).length ≤ c := by
        rw [List.length_take]; omega
      simp only [h0, if_false, false_or, reduceCtorEq, u32sub_of_le T ((a :: t).take (min c n)).length (by omega) ht,
        u32sub_of_le c _ hl (by omega)]

end riff

namespace webp

/-- A read of at most `n` bytes of a chunk whose payload is in the stream. -/
theorem chunkRead_advance (z : riff.Reader) (hz : z.sound) (hl : z.chunkLen ≤ z.r.length)
    (n : Nat) :
    if z.chunkLen = 0 then z.chunkRead n = (([], some .EOF), z)
    else z.chunkRead n = ((z.r.take (min z.chunkLen n), none), z.advance (min z.chunkLen n)) := by
  have h := riff.chunkRead_spec z hz n
  by_cases h0 : z.chunkLen = 0
  · rw [if_pos (Or.inl h0)] at h
    rw [if_pos h0, h]
  · have hr : z.r ≠ [] := by
      intro h'; rw [h'] at hl; simp at hl; omega
    have hlen : (z.r.take (min z.chunkLen n)).length = min z.chunkLen n := by
      rw [List.length_take]; omega
    rw [if_neg (by rintro (h' | h'); exact h0 h'; exact hr h'), hlen] at h
    rw [if_neg h0, h]
    rfl

theorem advance_sound (z : riff.Reader) (hz : z.sound) (k : Nat) (hk : k ≤ z.chunkLen) :
    (z.advance k).sound := by
  obtain ⟨h1, h2, h3⟩ := hz
  exact ⟨h1, by simp only [riff.Reader.advance]; omega, by simp only [riff.Reader.advance]; omega⟩

theorem advance_advance (z : riff.Reader) (j k : Nat) :
    (z.advance j).advance k = z.advance (j + k) := by
  simp only [riff.Reader.advance, List.drop_drop, riff.Reader.mk.injEq, true_and, and_true]
  omega

theorem riffBytes_cons (c : RiffChunk) (cs : List RiffChunk) :
    riffBytes (c :: cs) = c.bytes ++ riffBytes cs := by
  simp [riffBytes]

/-- The `Next` call that finds the header `id ++ len` after what is left of the
current chunk. -/
theorem Next_at_header (z : riff.Reader) (hz : z.sound) (hp : z.pending ≤ z.r.length)
    (id len w : List Byte) (hi : id.length = 4) (hl : len.length = 4)
    (hr : z.r.drop z.pending = id ++ len ++ w) :
    (∃ e z', z.Next = (([], 0, some e), z')) ∨
    (littleEndianUint32 len ≤ z.totalLen - (z.pending + 8) ∧ z.pending + 8 ≤ z.totalLen ∧
      z.Next = ((id, littleEndianUint32 len, none),
        { r := w, err := none, totalLen := z.totalLen - (z.pending + 8),
          chunkLen := littleEndianUint32 len,
          padded := decide (littleEndianUint32 len % 2 = 1) })) := by
  have h := riff.Next_spec z hz
  have e1 : (z.r.drop z.pending).take 4 = id := by
    rw [hr, List.append_assoc, List.take_left' hi]
  have e2 : (z.r.drop (z.pending + 4)).take 4 = len := by
    rw [← List.drop_drop, hr, List.append_assoc, List.drop_left' hi, List.take_left' hl]
  have e3 : z.r.drop (z.pending + 8) = w := by
    rw [← List.drop_drop, hr, List.drop_left' (by simp [hi, hl])]
  have e4 : z.pending + 8 ≤ z.r.length := by
    have := congrArg List.length hr
    simp [hi, hl] at this
    omega
  rw [e1, e2, e3] at h
  by_cases hc : z.pending + 8 ≤ z.r.length ∧ z.pending + 8 ≤ z.totalLen ∧
      littleEndianUint32 len ≤ z.totalLen - (z.pending + 8)
  · rw [if_pos hc] at h
    exact Or.inr ⟨hc.2.2, hc.2.1, h⟩
  · rw [if_neg hc] at h
    exact Or.inl h

/-- One iteration of the loop of `RenderFirstFrame` on a complete chunk that is
not an `ANMF` chunk: if the call succeeds in the end, the iteration has gone on
to the next chunk, with the canvas size of this chunk if it is a `VP8X` chunk. -/
theorem renderLoop_riff_chunk (fuel : Nat) (z : riff.Reader) (canvas out : List Byte)
    (c : RiffChunk) (w : List Byte) (hz : z.sound) (hp : z.pending ≤ z.r.length)
    (hr : z.r.drop z.pending = c.bytes ++ w) (hc : c.complete) (hid : c.id ≠ fccANMF)
    (h : renderLoop (fuel + 1) z canvas = .ok (none, out)) :
    ∃ z' : riff.Reader, z'.sound ∧ z'.pending ≤ z'.r.length ∧ z'.r.drop z'.pending = w ∧
      renderLoop fuel z'
        (if c.id = fccVP8X then copy (zeros 6) ((c.data.drop 4).take 6) else canvas)
        = .ok (none, out) := by
  obtain ⟨h1, h2, h3, h4⟩ := hc
  have hr' : z.r.drop z.pending = c.id ++ c.len ++ (c.data ++ c.pad ++ w) := by
    rw [hr]; simp [RiffChunk.bytes]
  rw [renderLoop] at h
  rcases Next_at_header z hz hp c.id c.len _ h1 h2 hr' with ⟨e, z', hn⟩ | ⟨hle, htot, hn⟩
  · rw [hn] at h; simp at h
  rw [hn] at h
  simp only at h
  -- the reader on the payload of the chunk
  obtain ⟨z1, hz1⟩ : ∃ z1 : riff.Reader, riff.Reader.mk (c.data ++ c.pad ++ w) none
      (z.totalLen - (z.pending + 8)) (littleEndianUint32 c.len)
      (decide (littleEndianUint32 c.len % 2 = 1)) = z1 := ⟨_, rfl⟩
  rw [hz1] at h
  have s1 : z1.sound := by
    subst hz1
    exact ⟨rfl, hle, by have := hz.2.2; simp only; omega⟩
  have l1 : z1.chunkLen ≤ z1.r.length := by
    subst hz1; simp [h3]
  have hpad : c.pad.length = if decide (littleEndianUint32 c.len % 2 = 1) = true then 1 else 0 := by
    rw [h4]
    by_cases ho : littleEndianUint32 c.len % 2 = 1
    · simp [ho]
    · simp [ho]; omega
  -- the reader after `k` bytes of the payload stands before `w`
  have after : ∀ k, k ≤ littleEndianUint32 c.len →
      (z1.advance k).sound ∧ (z1.advance k).pending ≤ (z1.advance k).r.length ∧
      (z1.advance k).r.drop (z1.advance k).pending = w := by
    intro k hk
    subst hz1
    refine ⟨advance_sound _ s1 k hk, ?_, ?_⟩
    · simp only [riff.Reader.advance, riff.Reader.pending, List.length_drop, List.length_append,
        h3, ← hpad]
      omega
    · simp only [riff.Reader.advance, riff.Reader.pending, List.drop_drop, ← hpad]
      rw [show k + (littleEndianUint32 c.len - k + c.pad.length) = (c.data ++ c.pad).length by
        simp [h3]; omega]
      exact List.drop_left _ _
  by_cases hv : c.id = fccVP8X
  · rw [if_pos hv] at h ⊢
    have hL : z1.chunkLen = littleEndianUint32 c.len := by subst hz1; rfl
    have hr1 : z1.r = c.data ++ (c.pad ++ w) := by subst hz1; simp
    -- first read: the flag byte
    have a1 := chunkRead_advance z1 s1 l1 1
    by_cases c0 : z1.chunkLen = 0
    · rw [if_pos c0] at a1; rw [a1] at h; simp at h
    rw [if_neg c0, show min z1.chunkLen 1 = 1 by omega] at a1
    rw [a1] at h
    simp only at h
    by_cases hanim : (!animationBit ((copy [0] (z1.r.take 1)).getD 0 0)) = true
    · rw [if_pos hanim] at h; simp at h
    rw [if_neg hanim] at h
    -- second read: the reserved bytes
    have s2 := (after 1 (by omega)).1
    have l2 : (z1.advance 1).chunkLen ≤ (z1.advance 1).r.length := by
      simp only [riff.Reader.advance, List.length_drop]; omega
    have a2 := chunkRead_advance (z1.advance 1) s2 l2 3
    have hL2 : (z1.advance 1).chunkLen = z1.chunkLen - 1 := rfl
    by_cases c1 : z1.chunkLen - 1 = 0
    · rw [hL2, if_pos c1] at a2; rw [a2] at h; simp at h
    rw [hL2, if_neg c1, advance_advance] at a2
    rw [a2] at h
    simp only at h
    -- third read: the canvas size
    have s3 := (after (1 + min (z1.chunkLen - 1) 3) (by omega)).1
    have l3 : (z1.advance (1 + min (z1.chunkLen - 1) 3)).chunkLen
        ≤ (z1.advance (1 + min (z1.chunkLen - 1) 3)).r.length := by
      simp only [riff.Reader.advance, List.length_drop]; omega
    have a3 := chunkRead_advance (z1.advance (1 + min (z1.chunkLen - 1) 3)) s3 l3 6
    have hL3 : (z1.advance (1 + min (z1.chunkLen - 1) 3)).chunkLen
        = z1.chunkLen - (1 + min (z1.chunkLen - 1) 3) := rfl
    by_cases c4 : z1.chunkLen - (1 + min (z1.chunkLen - 1) 3) = 0
    · rw [hL3, if_pos c4] at a3; rw [a3] at h; simp at h
    rw [hL3, if_neg c4, advance_advance] at a3
    rw [a3] at h
    simp only at h
    have e3 : min (z1.chunkLen - 1) 3 = 3 := by omega
    have hdata : (z1.advance (1 + min (z1.chunkLen - 1) 3)).r.take
        (min (z1.chunkLen - (1 + min (z1.chunkLen - 1) 3)) 6) = (c.data.drop 4).take 6 := by
      simp only [riff.Reader.advance, e3, hr1, show 1 + 3 = 4 by omega]
      rw [List.drop_append_of_le_length (by omega),
        List.take_append_of_le_length (by simp [h3]; omega)]
      rw [List.take_eq_take]
      simp only [List.length_drop, h3]
      omega
    rw [hdata] at h
    obtain ⟨sa, sb, sc⟩ := after (1 + min (z1.chunkLen - 1) 3
      + min (z1.chunkLen - (1 + min (z1.chunkLen - 1) 3)) 6) (by omega)
    exact ⟨_, sa, sb, sc, h⟩
  · rw [if_neg hv] at h ⊢
    by_cases ha : c.id = fccANIM
    · rw [if_pos ha] at h
      have := after 0 (Nat.zero_le _)
      have e0 : z1.advance 0 = z1 := by
        subst hz1; simp [riff.Reader.advance]
      rw [e0] at this
      exact ⟨z1, this.1, this.2.1, this.2.2, h⟩
    · rw [if_neg ha, if_neg hid] at h
      simp at h

/-- What the frame's chunk data reader still delivers after the read of the
16-byte prologue, in terms of the bytes `rest` that follow the `ANMF` header. -/
theorem after_prologue (rest : List Byte) (L : Nat) :
    (rest.drop (min L 16)).take (L - (rest.take (min L 16)).length)
      = (rest.take L).drop 16 := by
  by_cases h : min L 16 ≤ rest.length
  · rw [List.length_take, Nat.min_eq_left h]
    by_cases h16 : 16 ≤ L
    · rw [Nat.min_eq_right h16, List.drop_take]
    · rw [Nat.min_eq_left (by omega), Nat.sub_self, List.take_zero]
      symm
      apply List.drop_eq_nil_of_le
      rw [List.length_take]; omega
  · rw [List.drop_eq_nil_of_le (by omega), List.take_nil]
    symm
    apply List.drop_eq_nil_of_le
    rw [List.length_take]; omega

theorem renderFrame_ok (res : Outcome (List Byte × Bool × Option GoError))
    (canvas out : List Byte) (h : renderFrame canvas res = .ok (none, out)) :
    ∃ B a, res = .ok (B, a, none) ∧ out = container canvas B a := by
  match res, h with
  | .ok (B, a, none), h =>
    simp only [renderFrame, Outcome.ok.injEq, Prod.mk.injEq, true_and] at h
    exact ⟨B, a, rfl, h.symm⟩

/-- The iteration of the loop of `RenderFirstFrame` that finds the first `ANMF`
chunk: if the call succeeds, the bitstream of the frame was read without error
and the container was written around it. -/
theorem renderLoop_anmf (fuel : Nat) (z : riff.Reader) (canvas out alen rest : List Byte)
    (hz : z.sound) (hp : z.pending ≤ z.r.length) (hl : alen.length = 4)
    (hr : z.r.drop z.pending = fccANMF ++ alen ++ rest)
    (h : renderLoop (fuel + 1) z canvas = .ok (none, out)) :
    ∃ B a, readANMFBitstream (u32sub (littleEndianUint32 alen) 16)
        ((rest.take (littleEndianUint32 alen)).drop 16) = .ok (B, a, none) ∧
      out = container canvas B a := by
  rw [renderLoop] at h
  rcases Next_at_header z hz hp fccANMF alen rest rfl hl hr with ⟨e, z', hn⟩ | ⟨hle, htot, hn⟩
  · rw [hn] at h; simp at h
  rw [hn] at h
  simp only [show fccANMF ≠ fccVP8X by decide, show fccANMF ≠ fccANIM by decide, if_false,
    if_true] at h
  obtain ⟨z1, hz1⟩ : ∃ z1 : riff.Reader, riff.Reader.mk rest none
      (z.totalLen - (z.pending + 8)) (littleEndianUint32 alen)
      (decide (littleEndianUint32 alen % 2 = 1)) = z1 := ⟨_, rfl⟩
  rw [hz1] at h
  have s1 : z1.sound := by
    subst hz1
    exact ⟨rfl, hle, by have := hz.2.2; simp only; omega⟩
  have a1 := riff.chunkRead_spec z1 s1 16
  by_cases c0 : z1.chunkLen = 0 ∨ z1.r = []
  · rw [if_pos c0] at a1; rw [a1] at h; simp at h
  rw [if_neg c0] at a1
  rw [a1] at h
  simp only at h
  have hdata : (z1.r.drop (min z1.chunkLen 16)).take
      (z1.chunkLen - (z1.r.take (min z1.chunkLen 16)).length)
      = (rest.take (littleEndianUint32 alen)).drop 16 := by
    have hlen : z1.chunkLen = littleEndianUint32 alen := by rw [← hz1]
    have hr1 : z1.r = rest := by rw [← hz1]
    rw [hlen, hr1]
    exact after_prologue rest (littleEndianUint32 alen)
  rw [hdata] at h
  exact renderFrame_ok _ canvas out h

theorem copy_full (dst src : List Byte) (h : src.length = dst.length) : copy dst src = src := by
  have h1 : src.take dst.length = src := List.take_of_length_le (by omega)
  have h2 : dst.drop src.length = [] := List.drop_of_length_le (by omega)
  rw [copy, h1, h2, List.append_nil]

theorem lastCanvas_append (p1 p2 : List RiffChunk) (cv : List Byte) :
    lastCanvas (p1 ++ p2) cv = lastCanvas p2 (lastCanvas p1 cv) := by
  simp [lastCanvas, List.foldl_append]

theorem lastCanvas_no_vp8x (p : List RiffChunk) (cv : List Byte)
    (h : ∀ c ∈ p, c.id ≠ fccVP8X) : lastCanvas p cv = cv := by
  induction p generalizing cv with
  | nil => rfl
  | cons c p ih =>
    have hc := h c (List.mem_cons_self _ _)
    simp only [lastCanvas, List.foldl_cons, if_neg hc]
    exact ih cv (fun d hd => h d (List.mem_cons_of_mem _ hd))

/-- The canvas size held after the walk is bytes 4 to 9 of the payload of the
last `VP8X` chunk, when that payload has at least 10 bytes. -/
theorem lastCanvas_last (p1 p2 : List RiffChunk) (v : RiffChunk) (cv : List Byte)
    (hv : v.id = fccVP8X) (h10 : 10 ≤ v.data.length) (h : ∀ c ∈ p2, c.id ≠ fccVP8X) :
    lastCanvas (p1 ++ v :: p2) cv = (v.data.drop 4).take 6 := by
  rw [lastCanvas_append]
  have e : lastCanvas (v :: p2) (lastCanvas p1 cv)
      = lastCanvas p2 (copy (zeros 6) ((v.data.drop 4).take 6)) := by
    simp [lastCanvas, hv]
  rw [e, lastCanvas_no_vp8x p2 _ h]
  have hl : ((v.data.drop 4).take 6).length = 6 := by
    rw [List.length_take, List.length_drop]; omega
  exact copy_full _ _ (by simp [zeros, hl])

/-- The walk of `RenderFirstFrame` over complete chunks up to the first `ANMF`
chunk, for a call that succeeds. -/
theorem renderLoop_walk (alen rest out : List Byte) (hl : alen.length = 4) :
    ∀ (pre : List RiffChunk) (fuel : Nat) (z : riff.Reader) (canvas : List Byte),
      z.sound → z.pending ≤ z.r.length →
      z.r.drop z.pending = riffBytes pre ++ (fccANMF ++ alen ++ rest) →
      (∀ c ∈ pre, c.complete ∧ c.id ≠ fccANMF) →
      renderLoop fuel z canvas = .ok (none, out) →
      ∃ B a, readANMFBitstream (u32sub (littleEndianUint32 alen) 16)
          ((rest.take (littleEndianUint32 alen)).drop 16) = .ok (B, a, none) ∧
        out = container (lastCanvas pre canvas) B a
  | _, 0, _, _, _, _, _, _, h => by simp [renderLoop] at h
  | [], fuel + 1, z, canvas, hz, hp, hr, _, h => by
    simp only [riffBytes, List.map_nil, List.flatten_nil, List.nil_append] at hr
    exact renderLoop_anmf fuel z canvas out alen rest hz hp hl hr h
  | c :: pre, fuel + 1, z, canvas, hz, hp, hr, hpre, h => by
    obtain ⟨hc, hid⟩ := hpre c (List.mem_cons_self _ _)
    rw [riffBytes_cons, List.append_assoc] at hr
    obtain ⟨z', s', p', r', h'⟩ := renderLoop_riff_chunk fuel z canvas out c _ hz hp hr hc hid h
    obtain ⟨B, a, hb, ho⟩ := renderLoop_walk alen rest out hl pre fuel z' _ s' p' r'
      (fun d hd => hpre d (List.mem_cons_of_mem _ hd)) h'
    exact ⟨B, a, hb, by rw [ho]; rfl⟩

/-- The layout of what a successful call of `RenderFirstFrame` has written, for
an input of complete chunks, none of them an `ANMF` chunk, followed by the header
of an `ANMF` chunk and any bytes `rest`: the container around the bitstream that
`readANMFBitstream` returns on the payload of the `ANMF` chunk after its 16-byte
prologue, with bytes 4 to 9 of the payload of the last `VP8X` chunk `v`. -/
theorem RenderFirstFrame_layout_of_success (size alen rest out : List Byte) (pre : List RiffChunk)
    (hs : size.length = 4) (hl : alen.length = 4)
    (hpre : ∀ c ∈ pre, c.complete ∧ c.id ≠ fccANMF)
    (h : RenderFirstFrame (fccRIFF ++ size ++ fccWEBP ++ riffBytes pre ++ fccANMF ++ alen ++ rest)
      = .ok (none, out))
    (p1 p2 : List RiffChunk) (v : RiffChunk) (hsplit : pre = p1 ++ v :: p2)
    (hv : v.id = fccVP8X) (h10 : 10 ≤ v.data.length) (hlast : ∀ c ∈ p2, c.id ≠ fccVP8X) :
    ∃ B a, readANMFBitstream (u32sub (littleEndianUint32 alen) 16)
        ((rest.take (littleEndianUint32 alen)).drop 16) = .ok (B, a, none) ∧
      out = fccRIFF ++ putUint32LE (22 + B.length) ++ fccWEBP ++ fccVP8X ++ putUint32LE 10
        ++ [if a then 16 else 0] ++ [0, 0, 0] ++ (v.data.drop 4).take 6 ++ B := by
  have e : fccRIFF ++ size ++ fccWEBP ++ riffBytes pre ++ fccANMF ++ alen ++ rest
      = (fccRIFF ++ size ++ fccWEBP) ++ (riffBytes pre ++ (fccANMF ++ alen ++ rest)) := by simp
  rw [e] at h
  generalize hw : riffBytes pre ++ (fccANMF ++ alen ++ rest) = w at h
  have hd12 : (fccRIFF ++ size ++ fccWEBP ++ w).drop 12 = w :=
    List.drop_left' (by simp [fccRIFF, fccWEBP, hs])
  have hf : ((fccRIFF ++ size ++ fccWEBP ++ w).drop 8).take 4 = fccWEBP := by
    rw [show fccRIFF ++ size ++ fccWEBP ++ w = (fccRIFF ++ size) ++ (fccWEBP ++ w) by simp,
      List.drop_left' (by simp [fccRIFF, hs])]
    exact List.take_left' rfl
  have hn := riff.NewReader_spec (fccRIFF ++ size ++ fccWEBP ++ w)
  rw [RenderFirstFrame] at h
  by_cases ho : 12 ≤ (fccRIFF ++ size ++ fccWEBP ++ w).length ∧
      (fccRIFF ++ size ++ fccWEBP ++ w).take 4 = [0x52, 0x49, 0x46, 0x46] ∧
      4 ≤ littleEndianUint32 (((fccRIFF ++ size ++ fccWEBP ++ w).drop 4).take 4)
  · rw [if_pos ho] at hn
    rw [hn, hf, hd12] at h
    simp only [ne_eq, not_true_eq_false, if_false] at h
    have hlt := littleEndianUint32_lt (((fccRIFF ++ size ++ fccWEBP ++ w).drop 4).take 4)
    obtain ⟨B, a, hb, hout⟩ := renderLoop_walk alen rest out hl pre _ _ []
      (fresh_sound w _ (by omega)) (by simp [riff.Reader.fresh, riff.Reader.pending])
      (by simpa [riff.Reader.fresh, riff.Reader.pending] using hw.symm) hpre h
    refine ⟨B, a, hb, ?_⟩
    rw [hout, hsplit, lastCanvas_last p1 p2 v [] hv h10 hlast]
    simp [container, fccRIFF, show 4 + 8 + 10 + B.length = 22 + B.length by omega]
  · rw [if_neg ho] at hn
    obtain ⟨e', he'⟩ := hn
    rw [he'] at h
    simp at h

end webp

theorem readWindows_steady (W : Nat) (hW : 2 ≤ W) :
    ∀ (bufs : List (List Byte)) (v : List Byte), W - 1 ≤ v.length →
      (∀ b ∈ bufs, b.length = W) →
      readWindows (steady W v) bufs
        = .ok (steady W (v.drop (min bufs.length (v.length - (W - 1)))))
  | [], v, _, _ => by simp [readWindows]
  | b :: bufs, v, hv, hb => by
    have hbl := hb b (List.mem_cons_self _ _)
    have hbs : ∀ x ∈ bufs, x.length = W := fun x hx => hb x (List.mem_cons_of_mem _ hx)
    by_cases h : W ≤ v.length
    · rw [readWindows, ReadWindow_steady W v b hW h hbl]
      simp only
      rw [readWindows_steady W hW bufs v.tail (by simp; omega) hbs, List.drop_tail]
      congr 3
      simp only [List.length_tail, List.length_cons]
      omega
    · rw [readWindows, ReadWindow_steady_eof W v b (by omega) hbl]
      simp only
      rw [readWindows_steady W hW bufs v hv hbs]
      congr 3
      simp only [List.length_cons]
      omega

/-- For a window size of at least 2 and a stream at least as long, the calls to
`ReadWindow` on a fresh reader deliver the windows of the stream one byte apart:
the call that follows `k` earlier calls returns `s[k], ..., s[k+W-1]` with count
`W` for `k ≤ L - W`, and count 0 with end-of-stream for every later `k`. -/
theorem ReadWindow_sliding (W : Nat) (s : List Byte) (bufs : List (List Byte)) (buf : List Byte)
    (hW : 2 ≤ W) (hL : W ≤ s.length) (hb : ∀ b ∈ bufs, b.length = W) (hbuf : buf.length = W) :
    ∃ w, readWindows (NewReader s W) bufs = .ok w ∧
      (bufs.length ≤ s.length - W →
        ∃ w', ReadWindow w buf = .ok (W, none, (s.drop bufs.length).take W, w')) ∧
      (s.length - W < bufs.length → ReadWindow w buf = .ok (0, some .EOF, buf, w)) := by
  cases bufs with
  | nil =>
    refine ⟨NewReader s W, rfl, fun _ => ⟨steady W s.tail, ?_⟩, fun h => by simp at h⟩
    simpa using ReadWindow_fresh W s buf hW hL hbuf
  | cons b bs =>
    have hbl := hb b (List.mem_cons_self _ _)
    have hbs : ∀ x ∈ bs, x.length = W := fun x hx => hb x (List.mem_cons_of_mem _ hx)
    have hst := readWindows_steady W hW bs s.tail (by simp; omega) hbs
    refine ⟨_, by rw [readWindows, ReadWindow_fresh W s b hW hL hbl]; exact hst, ?_, ?_⟩
    · intro hk
      simp only [List.length_cons] at hk
      have e : min bs.length (s.tail.length - (W - 1)) = bs.length := by
        simp only [List.length_tail]; omega
      rw [e, List.drop_tail]
      exact ⟨_, ReadWindow_steady W _ buf hW (by simp; omega) hbuf⟩
    · intro hk
      simp only [List.length_cons] at hk
      exact ReadWindow_steady_eof W _ buf (by simp; omega) hbuf

namespace png

theorem copyN_error (dst src : List Byte) (n : Nat) (x y : List Byte) (e : GoError)
    (h : copyN dst src n = (x, y, some e)) : e = .EOF := by
  simp only [copyN, Prod.mk.injEq] at h
  have h3 := h.2.2
  split at h3
  · simpa using h3.symm
  · simp at h3

/-- Every error that the loop of `png.RenderFirstFrame` returns is `io.EOF`. -/
theorem renderLoop_error_eof : ∀ (fuel : Nat) (src dst hdr : List Byte) (saw : Bool)
    (e : GoError) (out : List Byte),
    renderLoop fuel src dst hdr saw = .ok (some e, out) → e = .EOF
  | 0, _, _, _, _, _, _, h => by simp [renderLoop] at h
  | fuel + 1, src, dst, hdr, saw, e, out, h => by
    rw [renderLoop] at h
    by_cases h0 : src = []
    · rw [if_pos h0] at h
      simp only [Outcome.ok.injEq, Prod.mk.injEq, Option.some.injEq] at h
      exact h.1.symm
    rw [if_neg h0] at h
    simp only [renderFinish] at h
    split at h
    · simp at h
    · split at h
      · split at h
        · rename_i heq
          simp only [Outcome.ok.injEq, Prod.mk.injEq, Option.some.injEq] at h
          rw [← h.1]
          exact copyN_error _ _ _ _ _ _ heq
        · exact renderLoop_error_eof fuel _ _ _ _ e out h
      · split at h
        · rename_i heq
          simp only [Outcome.ok.injEq, Prod.mk.injEq, Option.some.injEq] at h
          rw [← h.1]
          exact copyN_error _ _ _ _ _ _ heq
        · exact renderLoop_error_eof fuel _ _ _ _ e out h

/-- The code never returns `errUnderflow`: every error of `png.RenderFirstFrame`
is `io.EOF`. -/
theorem RenderFirstFrame_error_eof (src : List Byte) (e : GoError) (out : List Byte)
    (h : RenderFirstFrame src = .ok (some e, out)) : e = .EOF := by
  rw [RenderFirstFrame] at h
  split at h
  · rename_i heq
    simp only [Outcome.ok.injEq, Prod.mk.injEq, Option.some.injEq] at h
    rw [← h.1]
    exact copyN_error _ _ _ _ _ _ heq
  · exact renderLoop_error_eof _ _ _ _ _ e out h

/-- The stream ends inside a chunk header, after complete chunks none of which
is decisive: the exact result of `png.IsAnimated`. -/
theorem IsAnimated_cut_header (cs : List Chunk) (tail : List Byte)
    (hcs : ∀ c ∈ cs, c.complete ∧ ¬ decisive c.typ) (ht : tail.length < 8) :
    IsAnimated (pngHeader ++ chunksBytes cs ++ tail)
      = .ok (false,
          if cs = [] then (if tail = [] then some .EOF else none)
          else (if 4 ≤ tail.length then none else some .EOF)) := by
  have hlen := length_le_chunksBytes cs (fun c hc => (hcs c hc).1)
  rw [List.append_assoc]
  by_cases h7 : 7 ≤ (chunksBytes cs ++ tail).length
  · rw [IsAnimated_signature _ h7,
      isAnimatedLoop_cut_header tail ht cs _ pngHeader hcs h7 (by simp [pngHeader]; omega) rfl]
    by_cases hnil : cs = []
    · subst hnil
      have hne : tail ≠ [] := by
        intro h; subst h; simp [chunksBytes] at h7
      have h4 : 4 ≤ tail.length := by simp [chunksBytes] at h7; omega
      simp [hne, h4]
    · simp [hnil]
  · have hnil : cs = [] := by
      cases cs with
      | nil => rfl
      | cons d ds => simp at hlen h7; omega
    subst hnil
    simp only [chunksBytes, List.map_nil, List.flatten_nil, List.nil_append] at h7 ⊢
    rw [IsAnimated_signature_cut tail (by omega)]
    simp

/-- The stream ends inside a chunk whose header is complete and not decisive,
after complete chunks none of which is decisive. -/
theorem IsAnimated_cut_body (cs : List Chunk) (len typ body : List Byte)
    (hcs : ∀ c ∈ cs, c.complete ∧ ¬ decisive c.typ) (hl : len.length = 4) (ht : typ.length = 4)
    (hn : ¬ decisive typ) (hb : body.length < bigEndianUint32 len + 4) :
    IsAnimated (pngHeader ++ chunksBytes cs ++ (len ++ typ ++ body)) = .ok (false, some .EOF) := by
  have hlen := length_le_chunksBytes cs (fun c hc => (hcs c hc).1)
  rw [List.append_assoc, IsAnimated_signature _ (by simp [hl, ht]; omega)]
  obtain ⟨k, hk⟩ : ∃ k, (pngHeader ++ (chunksBytes cs ++ (len ++ typ ++ body))).length + 1
      = (k + 1) + cs.length := ⟨(pngHeader ++ (chunksBytes cs ++ (len ++ typ ++ body))).length
        - cs.length, by simp [pngHeader]; omega⟩
  rw [hk]
  obtain ⟨hdr', hh', e⟩ := isAnimatedLoop_skip_chunks (len ++ typ ++ body)
    (by simp [hl, ht]; omega) cs (k + 1) pngHeader hcs rfl
  rw [e, isAnimatedLoop_cut_body k len typ body hdr' hl ht hn hb hh']

/-- C1: `png.IsAnimated` decides on the first decisive chunk. For every stream
made of the 8-byte PNG signature, then complete chunks none of which has the type
acTL, IDAT or IEND, then the complete header (4 length bytes and the type `T`) of
a chunk, then any bytes at all, the result is `(true, nil)` when `T` is acTL and
`(false, nil)` when `T` is IDAT or IEND. -/
theorem IsAnimated_first_decisive_chunk (cs : List Chunk) (len T rest : List Byte)
    (hcs : ∀ c ∈ cs, c.complete ∧ ¬ decisive c.typ) (hl : len.length = 4) :
    (T = actl →
      IsAnimated (pngHeader ++ chunksBytes cs ++ len ++ T ++ rest) = .ok (true, none)) ∧
    (T = idat ∨ T = iend →
      IsAnimated (pngHeader ++ chunksBytes cs ++ len ++ T ++ rest) = .ok (false, none)) := by
  constructor
  · intro hT
    rw [IsAnimated_on_decisive cs len T rest hcs hl (Or.inl hT)]
    simp [hT]
  · intro hT
    rw [IsAnimated_on_decisive cs len T rest hcs hl (Or.inr hT)]
    rcases hT with h | h <;> subst h <;> decide

/-- An instance of C1: an `acTL` header after an `IHDR` chunk. -/
theorem IsAnimated_first_decisive_chunk_witness :
    (∀ c ∈ [exampleIHDR], c.complete ∧ ¬ decisive c.typ) ∧
    IsAnimated (pngHeader ++ chunksBytes [exampleIHDR] ++ [0, 0, 0, 8] ++ actl ++ [1, 2, 3])
      = .ok (true, none) :=
  ⟨by decide,
    (IsAnimated_first_decisive_chunk [exampleIHDR] [0, 0, 0, 8] actl [1, 2, 3] (by decide)
      rfl).1 rfl⟩

/-- An instance of C2: the private chunk is dropped, the others are copied. -/
theorem RenderFirstFrame_reference_output_witness :
    (∃ c ∈ [exampleIHDR, examplePrivate, exampleIDAT], c.typ = idat) ∧
    RenderFirstFrame (pngHeader ++ chunksBytes [exampleIHDR, examplePrivate, exampleIDAT]
        ++ [0, 0, 0, 26] ++ fctl ++ [1, 2, 3])
      = .ok (none, pngHeader ++ chunksBytes
          ([exampleIHDR, examplePrivate, exampleIDAT].filter (fun c => isUpper (c.typ.getD 1 0)))
          ++ [0x00, 0x00, 0x00, 0x00, 0x49, 0x45, 0x4E, 0x44, 0xAE, 0x42, 0x60, 0x82]) :=
  ⟨by decide,
    RenderFirstFrame_reference_output pngHeader [exampleIHDR, examplePrivate, exampleIDAT]
      [0, 0, 0, 26] [1, 2, 3] rfl (by decide) (by decide) (by decide) rfl⟩

/-- C9: the code returns `io.EOF`, not `errUnderflow`, on a truncated input.
An input cut in the middle of the payload of its first IDAT chunk, and an input
cut right after a complete IDAT chunk, both make `png.RenderFirstFrame` return
`io.EOF`, with the bytes copied so far left in the sink. -/
theorem RenderFirstFrame_truncated_returns_EOF :
    RenderFirstFrame (pngHeader ++ ([0, 0, 0, 2] ++ idat ++ [0xAA]))
      = .ok (some .EOF, pngHeader ++ ([0, 0, 0, 2] ++ idat ++ [0xAA])) ∧
    RenderFirstFrame (pngHeader ++ exampleIDAT.bytes)
      = .ok (some .EOF, pngHeader ++ exampleIDAT.bytes) ∧
    GoError.EOF ≠ GoError.errUnderflow := by
  decide

/-- C10, as stated, fails: the first 20 bytes of a PNG (the signature, the
header of `IHDR` and four bytes of its payload) make `png.IsAnimated` return
`false` with the error `io.EOF`, not `false` without error. -/
theorem IsAnimated_truncated_payload_is_error :
    IsAnimated (pngHeader ++ [0, 0, 0, 13, 0x49, 0x48, 0x44, 0x52, 0, 0, 0, 1])
      = .ok (false, some .EOF) ∧
    IsAnimated (pngHeader ++ [0, 0, 0, 13, 0x49, 0x48, 0x44, 0x52, 0, 0, 0, 1])
      ≠ .ok (false, none) := by
  decide

/-- C10, amended: for every stream that starts with the PNG signature and ends
before the complete header of an acTL, IDAT or IEND chunk has been reached,
`png.IsAnimated` returns the verdict `false`, with no error or with `io.EOF`;
when the stream ends after the complete header of a chunk and before the end of
that chunk (right after the header, inside the payload or inside the CRC), the
error is `io.EOF`. -/
theorem IsAnimated_truncated (cs : List Chunk)
    (hcs : ∀ c ∈ cs, c.complete ∧ ¬ decisive c.typ) :
    (∀ tail : List Byte, tail.length < 8 →
      IsAnimated (pngHeader ++ chunksBytes cs ++ tail) = .ok (false, none) ∨
      IsAnimated (pngHeader ++ chunksBytes cs ++ tail) = .ok (false, some .EOF)) ∧
    (∀ len typ body : List Byte, len.length = 4 → typ.length = 4 → ¬ decisive typ →
      body.length < bigEndianUint32 len + 4 →
      IsAnimated (pngHeader ++ chunksBytes cs ++ (len ++ typ ++ body))
        = .ok (false, some .EOF)) := by
  constructor
  · intro tail ht
    rw [IsAnimated_cut_header cs tail hcs ht]
    by_cases h1 : cs = [] <;> by_cases h2 : tail = [] <;> by_cases h3 : 4 ≤ tail.length <;>
      simp [h1, h2, h3]
  · intro len typ body hl ht hn hb
    exact IsAnimated_cut_body cs len typ body hcs hl ht hn hb

/-- An instance of C10 as amended: a stream that ends inside the payload of the
chunk that follows `IHDR`. -/
theorem IsAnimated_truncated_witness :
    (∀ c ∈ [exampleIHDR], c.complete ∧ ¬ decisive c.typ) ∧
    IsAnimated (pngHeader ++ chunksBytes [exampleIHDR]
        ++ ([0, 0, 0, 9] ++ [0x70, 0x48, 0x59, 0x73] ++ [1, 2, 3]))
      = .ok (false, some .EOF) :=
  ⟨by decide,
    (IsAnimated_truncated [exampleIHDR] (by decide)).2 [0, 0, 0, 9] [0x70, 0x48, 0x59, 0x73]
      [1, 2, 3] rfl rfl (by decide) (by decide)⟩

end png

namespace gif

/-- An instance of C3: two overlapping-free occurrences, at offsets 1 and 4. -/
theorem IsAnimated_counts_pattern_witness :
    (occursAt [7, 0x00, 0x21, 0xF9, 0x00, 0x21, 0xF9, 3] 1 ∧
      occursAt [7, 0x00, 0x21, 0xF9, 0x00, 0x21, 0xF9, 3] 4) ∧
    IsAnimated [7, 0x00, 0x21, 0xF9, 0x00, 0x21, 0xF9, 3] = .ok (true, none) :=
  ⟨by decide,
    (IsAnimated_counts_pattern [7, 0x00, 0x21, 0xF9, 0x00, 0x21, 0xF9, 3]).1
      ⟨1, 4, by decide, by decide, by decide⟩⟩

end gif

/-- C6: with a window size of 1 the code does not deliver a window: on the
one-byte stream `"0"` the first `ReadWindow` of a fresh reader panics, in the
slice expression `w.previous[1:]` on an empty `previous`, whereas the claim has
it return count 1 and the byte `"0"`. -/
theorem ReadWindow_window_size_one_panics :
    ReadWindow (NewReader [0x30] 1) (zeros 1) = .panic := by
  decide

namespace webp

/-- An instance of C4: a VP8X chunk whose flag byte `0x12` has the animation
bit set. -/
theorem IsAnimated_reads_first_chunk_witness :
    (12 ≤ littleEndianUint32 [30, 0, 0, 0] ∧
      littleEndianUint32 [10, 0, 0, 0] ≤ littleEndianUint32 [30, 0, 0, 0] - 12) ∧
    IsAnimated (fccRIFF ++ [30, 0, 0, 0] ++ fccWEBP ++ fccVP8X ++ [10, 0, 0, 0]
        ++ [0x12, 0, 0, 0, 1, 0, 0, 1, 0, 0]) = (true, none) :=
  ⟨by decide,
    ((IsAnimated_reads_first_chunk.1 [30, 0, 0, 0] fccVP8X [10, 0, 0, 0]
      [0x12, 0, 0, 0, 1, 0, 0, 1, 0, 0] rfl rfl rfl (by decide) (by decide)).2 rfl (by decide)
      0x12 [0, 0, 0, 1, 0, 0, 1, 0, 0] rfl)⟩

end webp

/-- After a `Peek` a fresh reader over `s` has its buffer filled, unless no
byte was asked for. -/
theorem Peek_fresh (s : List Byte) (n : Nat) :
    ((asReader s).Peek n).2 = if n = 0 then asReader s else buffered s := by
  have e : ∀ q : reader,
      (if bufferSize < n then ((q.buf, some GoError.ErrBufferFull), q)
        else if q.buf.length < n then ((q.buf, some GoError.EOF), q)
        else ((q.buf.take n, none), q)).2 = q := by
    intro q
    split_ifs <;> rfl
  unfold reader.Peek
  simp only [e]
  by_cases hn : n = 0
  · simp [asReader, hn]
  · have : 0 < n := by omega
    simp [asReader, buffered, bufferSize, this, hn]

/-- A `Peek` leaves a reader with a filled buffer as it is. -/
theorem Peek_buffered (s : List Byte) (n : Nat) : ((buffered s).Peek n).2 = buffered s := by
  rcases Peek_state s (buffered s) n (Or.inr rfl) with h | h
  · have h1 := Peek_stream (buffered s) n
    have h2 : ((buffered s).Peek n).2.buf.length = 0 := by rw [h]; rfl
    rw [h]
    have h3 : (buffered s).buf.length = 0 ∨ (buffered s).buf.length ≠ 0 := by omega
    rcases h3 with h3 | h3
    · have hs : s = [] := by
        simp only [buffered, List.length_take, bufferSize] at h3
        have : s.length = 0 := by omega
        exact List.length_eq_zero.mp this
      subst hs
      rfl
    · exfalso
      apply h3
      have e : ∀ q : reader,
          (if bufferSize < n then ((q.buf, some GoError.ErrBufferFull), q)
            else if q.buf.length < n then ((q.buf, some GoError.EOF), q)
            else ((q.buf.take n, none), q)).2 = q := by
        intro q
        split_ifs <;> rfl
      unfold reader.Peek at h2
      simp only [e] at h2
      split_ifs at h2
      · simp only [List.length_append] at h2
        omega
      · exact h2
  · exact h

theorem sniff_buffered (s : List Byte) : ∀ formats : List format,
    (sniff formats (buffered s)).2 = buffered s
  | [] => rfl
  | f :: formats => by
    have hp := Peek_buffered s f.magic.length
    rw [sniff]
    split
    · rename_i b r1 heq
      rw [heq] at hp
      simp only at hp
      subst hp
      split
      · rfl
      · exact sniff_buffered s formats
    · rename_i r1 heq
      rw [heq] at hp
      simp only at hp
      subst hp
      exact sniff_buffered s formats

/-- The reader that `sniff` leaves when it finds the format `f` after the
formats `pre`: the fresh reader when `f` is the first format and its magic is
empty, the reader with its buffer filled otherwise. -/
theorem sniff_first_reader (s : List Byte) (pre : List format) (f : format)
    (post : List format)
    (hpre : ∀ g ∈ pre, ¬ (g.magic.length ≤ bufferSize ∧ magicMatches g.magic s))
    (hl : f.magic.length ≤ bufferSize) (hf : magicMatches f.magic s) :
    (sniff (pre ++ f :: post) (asReader s)).2
      = if pre.length = 0 ∧ f.magic.length = 0 then asReader s else buffered s := by
  have hb : (asReader s).buf.length ≤ bufferSize := by simp [asReader]
  have hs : (asReader s).stream = s := rfl
  cases pre with
  | nil =>
    rw [List.nil_append, sniff_cons f post _ hb, if_pos ⟨hl, by rw [hs]; exact hf⟩, Peek_fresh]
    simp
  | cons g pre =>
    have hg := hpre g (List.mem_cons_self _ _)
    have hg0 : g.magic.length ≠ 0 := by
      intro h0
      apply hg
      refine ⟨by omega, by omega, fun i hi => ?_⟩
      omega
    rw [List.cons_append, sniff_cons g _ _ hb, if_neg (by rw [hs]; exact hg), Peek_fresh,
      if_neg hg0, sniff_buffered]
    simp

/-- When no format is found the facade returns `ErrFormat` and leaves the sink
as it is. -/
theorem facade_no_match (formats : List format) (s w : List Byte)
    (h : ∀ f ∈ formats, ¬ (f.magic.length ≤ bufferSize ∧ magicMatches f.magic s)) :
    IsAnimated formats s = (false, "", some .ErrFormat) ∧
      RenderFirstFrame formats s w = ("", some .ErrFormat, w) := by
  have h0 := sniff_none formats (asReader s) (by simp [asReader]) h
  rcases hsn : sniff formats (asReader s) with ⟨f1, rr⟩
  rw [hsn] at h0
  simp only at h0
  subst h0
  simp [IsAnimated, RenderFirstFrame, hsn, format.zero]

theorem exampleBig_length : exampleBig.magic.length = 4097 :=
  List.length_replicate 4097 (0x3F : Byte)

theorem exampleBig_matches : magicMatches exampleBig.magic (List.replicate 6000 0x47) := by
  refine ⟨?_, fun i hi => Or.inl ?_⟩
  · rw [exampleBig_length, List.length_replicate]
    omega
  · rw [exampleBig_length] at hi
    show (List.replicate 4097 (0x3F : Byte))[i]? = some 0x3F
    rw [List.getElem?_replicate, if_pos hi]

theorem exampleBig_beyond_buffer (s : List Byte) :
    ∀ f ∈ [exampleBig], ¬ (f.magic.length ≤ bufferSize ∧ magicMatches f.magic s) := by
  intro f hf h
  simp only [List.mem_singleton] at hf
  subst hf
  have := h.1
  rw [exampleBig_length, bufferSize] at this
  omega

/-- C8, as stated, fails for a magic longer than the buffer of the reader: the
only registered format has a magic of 4097 wildcards, which matches the leading
bytes of a stream of 6000 bytes; `Peek(4097)` returns `ErrBufferFull` on the
4096-byte buffer and `sniff` returns the zero format, not the format
registered. -/
theorem sniff_misses_magic_beyond_buffer :
    magicMatches exampleBig.magic (List.replicate 6000 0x47) ∧
    (sniff (registered [exampleBig]) (asReader (List.replicate 6000 0x47))).1 = format.zero ∧
    format.zero.name ≠ exampleBig.name := by
  refine ⟨exampleBig_matches, ?_, by decide⟩
  rw [registered_eq]
  exact sniff_none _ _ (Nat.zero_le _) (exampleBig_beyond_buffer _)

/-- C8, amended: `sniff` returns the first match in registration order under
wildcard matching among the magics that fit in the 4096-byte buffer of the
reader. After any sequence of `RegisterFormat` calls and for any stream, `sniff`
returns the earliest registered format whose magic has at most 4096 bytes and
matches the leading bytes of the stream (the stream has at least as many bytes as
the magic, and every byte of the magic is `?` or equals the byte of the stream at
its position); a magic longer than the stream does not match; if no format
qualifies, the result is the zero format, with an empty name and nil functions;
and `RegisterFormat` appends, so that the formats registered earlier keep their
places. -/
theorem sniff_first_match_in_registration_order (calls : List format) (s : List Byte) :
    ((∀ f ∈ calls, ¬ (f.magic.length ≤ bufferSize ∧ magicMatches f.magic s)) →
      (sniff (registered calls) (asReader s)).1 = format.zero) ∧
    (∀ pre f post, calls = pre ++ f :: post →
      (∀ g ∈ pre, ¬ (g.magic.length ≤ bufferSize ∧ magicMatches g.magic s)) →
      f.magic.length ≤ bufferSize → magicMatches f.magic s →
      (sniff (registered calls) (asReader s)).1 = f) ∧
    (∀ magic : List Byte, s.length < magic.length → ¬ magicMatches magic s) ∧
    (format.zero.name = "" ∧ format.zero.isAnimated = none ∧
      format.zero.renderFirstFrame = none) ∧
    (∀ f : format, registered (calls ++ [f]) = registered calls ++ [f]) := by
  have hs : (asReader s).stream = s := rfl
  have hb : (asReader s).buf.length ≤ bufferSize := by simp [asReader]
  refine ⟨?_, ?_, ?_, ⟨rfl, rfl, rfl⟩, ?_⟩
  · intro h
    rw [registered_eq]
    exact sniff_none calls (asReader s) hb (by rw [hs]; exact h)
  · intro pre f post hc hpre hl hf
    rw [registered_eq, hc]
    exact sniff_first pre f post (asReader s) hb (by rw [hs]; exact hpre) hl
      (by rw [hs]; exact hf)
  · intro magic hlt hm
    have := hm.1
    omega
  · intro f
    rw [registered_eq, registered_eq]

/-- An instance of C8 as amended: the second registered format is the first
that matches. -/
theorem sniff_first_match_in_registration_order_witness :
    ((∀ g ∈ [exampleGif], ¬ (g.magic.length ≤ bufferSize ∧ magicMatches g.magic exampleStream)) ∧
      exampleWebp.magic.length ≤ bufferSize ∧ magicMatches exampleWebp.magic exampleStream) ∧
    (sniff (registered [exampleGif, exampleWebp]) (asReader exampleStream)).1 = exampleWebp :=
  ⟨by decide,
    (sniff_first_match_in_registration_order [exampleGif, exampleWebp] exampleStream).2.1
      [exampleGif] exampleWebp [] rfl (by decide) (by decide) (by decide)⟩

/-- C7, as stated, fails for a magic longer than the buffer of the reader: the
only registered format has non-nil functions and its magic, 4097 wildcards,
matches the leading bytes of a stream of 6000 bytes, yet the facade returns
`ErrFormat` with an empty name, not the result of the detector with the name
`big`. -/
theorem facade_misses_magic_beyond_buffer :
    (∀ f ∈ [exampleBig], f.isAnimated ≠ none ∧ f.renderFirstFrame ≠ none) ∧
    magicMatches exampleBig.magic (List.replicate 6000 0x47) ∧
    IsAnimated [exampleBig] (List.replicate 6000 0x47) = (false, "", some .ErrFormat) ∧
    RenderFirstFrame [exampleBig] (List.replicate 6000 0x47) [] = ("", some .ErrFormat, []) := by
  refine ⟨?_, exampleBig_matches, facade_no_match _ _ _ (exampleBig_beyond_buffer _)⟩
  intro f hf
  simp only [List.mem_singleton] at hf
  subst hf
  exact ⟨fun h => Option.noConfusion h, fun h => Option.noConfusion h⟩

/-- C7, amended: the facade dispatches on the sniffed format and hands its
function the buffered reader, which still delivers the stream from its first
byte. For a registry whose formats all have non-nil functions and any stream:
when no registered magic of at most 4096 bytes matches the leading bytes of the
stream, `IsAnimated` returns `(false, "", ErrFormat)` and `RenderFirstFrame`
returns `("", ErrFormat)` with the sink untouched; otherwise, with `f` the first
format whose magic has at most 4096 bytes and matches, `IsAnimated` returns the
verdict and the error of the detector of `f` applied to the reader `rr`, together
with the name of `f`, and `RenderFirstFrame` returns the name of `f` and the
result of the extractor of `f` on `rr` and the sink. Here `rr` is the buffered
reader over the stream with nothing consumed: its buffer holds the first 4096
bytes of the stream (it is empty when `f` is the first format and has an empty
magic), the bytes it delivers are the stream from its first byte, and what a
`Read` on it returns, followed by what it delivers afterwards, is the
stream. -/
theorem facade_dispatches_on_sniffed_format (formats : List format) (s w : List Byte)
    (hnn : ∀ f ∈ formats, f.isAnimated ≠ none ∧ f.renderFirstFrame ≠ none) :
    ((∀ f ∈ formats, ¬ (f.magic.length ≤ bufferSize ∧ magicMatches f.magic s)) →
      IsAnimated formats s = (false, "", some .ErrFormat) ∧
      RenderFirstFrame formats s w = ("", some .ErrFormat, w)) ∧
    (∀ pre f post, formats = pre ++ f :: post →
      (∀ g ∈ pre, ¬ (g.magic.length ≤ bufferSize ∧ magicMatches g.magic s)) →
      f.magic.length ≤ bufferSize → magicMatches f.magic s →
      ∃ det ext rr, f.isAnimated = some det ∧ f.renderFirstFrame = some ext ∧
        rr = (if pre.length = 0 ∧ f.magic.length = 0 then asReader s else buffered s) ∧
        rr.stream = s ∧ (∀ n, 1 ≤ n → (rr.Read n).1.1 ++ (rr.Read n).2.stream = s) ∧
        IsAnimated formats s = ((det rr).1, f.name, (det rr).2) ∧
        RenderFirstFrame formats s w = (f.name, (ext rr w).1, (ext rr w).2)) := by
  have hs : (asReader s).stream = s := rfl
  have hb : (asReader s).buf.length ≤ bufferSize := by simp [asReader]
  have hst := sniff_stream formats (asReader s) hb
  rw [hs] at hst
  constructor
  · intro h
    exact facade_no_match formats s w h
  · intro pre f post hc hpre hl hf
    have h1 := sniff_first pre f post (asReader s) hb (by rw [hs]; exact hpre) hl
      (by rw [hs]; exact hf)
    have h2 := sniff_first_reader s pre f post hpre hl hf
    rw [← hc] at h1 h2
    rcases hsn : sniff formats (asReader s) with ⟨f1, rr⟩
    rw [hsn] at h1 h2 hst
    simp only at h1 h2 hst
    subst h1
    have hmem : f1 ∈ formats := by rw [hc]; simp
    obtain ⟨hd, he⟩ := hnn f1 hmem
    obtain ⟨det, hdet⟩ := Option.ne_none_iff_exists'.mp hd
    obtain ⟨ext, hext⟩ := Option.ne_none_iff_exists'.mp he
    refine ⟨det, ext, rr, hdet, hext, h2, hst, fun n _ => by rw [Read_stream, hst], ?_, ?_⟩
    · simp [IsAnimated, hsn, hdet]
    · simp [RenderFirstFrame, hsn, hext]

/-- An instance of C7 as amended: the stream is sniffed as the second format,
whose functions get the reader with the whole stream in its buffer. -/
theorem facade_dispatches_on_sniffed_format_witness :
    (∀ f ∈ [exampleGif, exampleWebp], f.isAnimated ≠ none ∧ f.renderFirstFrame ≠ none) ∧
    ∃ det ext rr, exampleWebp.isAnimated = some det ∧ exampleWebp.renderFirstFrame = some ext ∧
      rr = (if [exampleGif].length = 0 ∧ exampleWebp.magic.length = 0
        then asReader exampleStream else buffered exampleStream) ∧
      rr.stream = exampleStream ∧
      (∀ n, 1 ≤ n → (rr.Read n).1.1 ++ (rr.Read n).2.stream = exampleStream) ∧
      IsAnimated [exampleGif, exampleWebp] exampleStream
        = ((det rr).1, exampleWebp.name, (det rr).2) ∧
      RenderFirstFrame [exampleGif, exampleWebp] exampleStream [9]
        = (exampleWebp.name, (ext rr [9]).1, (ext rr [9]).2) :=
  ⟨by simp [exampleGif, exampleWebp],
    (facade_dispatches_on_sniffed_format [exampleGif, exampleWebp] exampleStream [9]
      (by simp [exampleGif, exampleWebp])).2 [exampleGif] exampleWebp [] rfl (by decide)
      (by decide) (by decide)⟩

/-- A `Read` for 8 bytes on a reader whose buffer holds 7 returns the 7 bytes
without an error, although the stream goes on: the short read that the function
of a format sees when it reaches the end of the buffered bytes. -/
theorem Read_short_at_buffer_end :
    (reader.Read { buf := [1, 2, 3, 4, 5, 6, 7], rd := [8, 9, 10] } 8).1
      = ([1, 2, 3, 4, 5, 6, 7], none) := by
  decide

theorem length_copy (dst src : List Byte) : (copy dst src).length = dst.length := by
  simp only [copy, List.length_append, List.length_take, List.length_drop]
  omega

/-- The count, the error and the next state of `ReadWindow` do not depend on the
contents of the buffer, and the buffer keeps its length. -/
theorem ReadWindow_windowStep (w : WindowedReader) (window : List Byte)
    (hw : window.length = w.windowSize) :
    (ReadWindow w window).map (fun res => (res.1, res.2.1, res.2.2.2)) = windowStep w ∧
    ∀ n e win w1, ReadWindow w window = .ok (n, e, win, w1) →
      win.length = window.length ∧ w1.windowSize = w.windowSize := by
  obtain ⟨r, W, previous⟩ := w
  simp only at hw
  have hz : (zeros W).length = W := by simp [zeros]
  constructor
  · simp only [windowStep, ReadWindow, hw, hz, ne_eq, not_true_eq_false, if_false]
    cases previous with
    | some p =>
      simp only [readNext]
      cases r with
      | nil => rfl
      | cons b rest =>
        cases p with
        | nil => rfl
        | cons a tl => rfl
    | none =>
      simp only
      by_cases h0 : W = 0
      · simp [h0, Outcome.map]
      · simp only [h0, if_false]
        cases r with
        | nil => rfl
        | cons b rest =>
          simp only
          split
          · rfl
          · simp only [readNext]
            cases hr : List.drop (W - 1) (b :: rest) with
            | nil => rfl
            | cons c rest' =>
              simp only
              cases hp : List.take (W - 1) (b :: rest) with
              | nil => rfl
              | cons a tl => rfl
  · intro n e win w1 h
    simp only [ReadWindow, hw, ne_eq, not_true_eq_false, if_false] at h
    cases previous with
    | some p =>
      simp only [readNext] at h
      cases r with
      | nil =>
        simp only [Bool.false_eq_true, if_false, Outcome.ok.injEq, Prod.mk.injEq] at h
        obtain ⟨_, _, h3, h4⟩ := h
        subst h3 h4
        exact ⟨rfl, rfl⟩
      | cons b rest =>
        cases p with
        | nil => simp at h
        | cons a tl =>
          simp only [Outcome.ok.injEq, Prod.mk.injEq] at h
          obtain ⟨_, _, h3, h4⟩ := h
          subst h3 h4
          exact ⟨by simp [length_copy], rfl⟩
    | none =>
      simp only at h
      by_cases h0 : W = 0
      · simp [h0] at h
      · simp only [h0, if_false] at h
        cases r with
        | nil =>
          simp only [Outcome.ok.injEq, Prod.mk.injEq] at h
          obtain ⟨_, _, h3, h4⟩ := h
          subst h3 h4
          exact ⟨rfl, rfl⟩
        | cons b rest =>
          simp only at h
          split at h
          · simp only [Outcome.ok.injEq, Prod.mk.injEq] at h
            obtain ⟨_, _, h3, h4⟩ := h
            subst h3 h4
            exact ⟨by simp [length_copy], rfl⟩
          · simp only [readNext] at h
            cases hr : List.drop (W - 1) (b :: rest) with
            | nil =>
              simp only [hr, if_true, Outcome.ok.injEq, Prod.mk.injEq] at h
              obtain ⟨_, _, h3, h4⟩ := h
              subst h3 h4
              exact ⟨by simp [length_copy], rfl⟩
            | cons c rest' =>
              simp only [hr] at h
              cases hp : List.take (W - 1) (b :: rest) with
              | nil => simp [hp] at h
              | cons a tl =>
                simp only [hp, Outcome.ok.injEq, Prod.mk.injEq] at h
                obtain ⟨_, _, h3, h4⟩ := h
                subst h3 h4
                exact ⟨by simp [length_copy], rfl⟩

/-- A `ReadWindow` call that returns an error leaves the reader as it was. -/
theorem windowStep_error (w : WindowedReader) (n : Nat) (e : GoError) (w1 : WindowedReader)
    (h : windowStep w = .ok (n, some e, w1)) : w1 = w ∧ e = .EOF ∧ n = 0 := by
  obtain ⟨r, W, previous⟩ := w
  have hz : (zeros W).length = W := by simp [zeros]
  simp only [windowStep, ReadWindow, hz, ne_eq, not_true_eq_false, if_false] at h
  cases previous with
  | some p =>
    simp only [readNext] at h
    cases r with
    | nil =>
      simp only [Bool.false_eq_true, if_false, Outcome.map, Outcome.ok.injEq, Prod.mk.injEq,
        Option.some.injEq] at h
      obtain ⟨h1, h2, h3⟩ := h
      exact ⟨h3.symm, h2.symm, h1.symm⟩
    | cons b rest =>
      cases p with
      | nil => simp [Outcome.map] at h
      | cons a tl => simp [Outcome.map] at h
  | none =>
    simp only at h
    by_cases h0 : W = 0
    · simp [h0, Outcome.map] at h
    · simp only [h0, if_false] at h
      cases r with
      | nil =>
        simp only [Outcome.map, Outcome.ok.injEq, Prod.mk.injEq, Option.some.injEq] at h
        obtain ⟨h1, h2, h3⟩ := h
        exact ⟨h3.symm, h2.symm, h1.symm⟩
      | cons b rest =>
        simp only at h
        split at h
        · simp [Outcome.map] at h
        · simp only [readNext] at h
          cases hr : List.drop (W - 1) (b :: rest) with
          | nil => simp [hr, Outcome.map] at h
          | cons c rest' =>
            simp only [hr] at h
            cases hp : List.take (W - 1) (b :: rest) with
            | nil => simp [hp, Outcome.map] at h
            | cons a tl => simp [hp, Outcome.map] at h

/-- What `ReadWindow` returns with a buffer of the right size, in terms of
`windowStep`. -/
theorem ReadWindow_cases (w : WindowedReader) (window : List Byte)
    (hw : window.length = w.windowSize) :
    (ReadWindow w window = .panic ∧ windowStep w = .panic) ∨
    (ReadWindow w window = .fuelExhausted ∧ windowStep w = .fuelExhausted) ∨
    ∃ n e win w1, ReadWindow w window = .ok (n, e, win, w1) ∧ windowStep w = .ok (n, e, w1) ∧
      win.length = w.windowSize ∧ w1.windowSize = w.windowSize := by
  obtain ⟨h1, h2⟩ := ReadWindow_windowStep w window hw
  cases h : ReadWindow w window with
  | panic => left; rw [h] at h1; exact ⟨rfl, h1.symm⟩
  | fuelExhausted => right; left; rw [h] at h1; exact ⟨rfl, h1.symm⟩
  | ok res =>
    obtain ⟨n, e, win, w1⟩ := res
    right; right
    rw [h] at h1
    obtain ⟨h3, h4⟩ := h2 n e win w1 h
    exact ⟨n, e, win, w1, rfl, h1.symm, by rw [h3, hw], h4⟩

/-- Once `ReadWindow` has returned an error, further calls leave the reader
as it is. -/
theorem readWindows_stuck (w : WindowedReader) (n : Nat) (e : GoError)
    (h : windowStep w = .ok (n, some e, w)) :
    ∀ bufs : List (List Byte), (∀ b ∈ bufs, b.length = w.windowSize) →
      readWindows w bufs = .ok w
  | [], _ => rfl
  | b :: bs, hb => by
    rcases ReadWindow_cases w b (hb b (List.mem_cons_self _ _)) with
      ⟨_, h2⟩ | ⟨_, h2⟩ | ⟨n1, e1, win, w1, h1, h2, _, _⟩
    · rw [h] at h2; cases h2
    · rw [h] at h2; cases h2
    · rw [h] at h2
      simp only [Outcome.ok.injEq, Prod.mk.injEq] at h2
      obtain ⟨_, _, h5⟩ := h2
      subst h5
      rw [readWindows, h1]
      exact readWindows_stuck w n e h bs (fun b1 hb1 => hb b1 (List.mem_cons_of_mem _ hb1))

/-- The loop of `Skip` leaves the reader in the state that one `ReadWindow` call
per iteration leaves it in. -/
theorem skipLoop_state :
    ∀ (todo : Nat) (w : WindowedReader) (discard : List Byte) (i : Nat) (bufs : List (List Byte)),
      discard.length = w.windowSize → bufs.length = todo →
      (∀ b ∈ bufs, b.length = w.windowSize) →
      (skipLoop w discard i todo).map (fun res => res.2.2) = readWindows w bufs
  | 0, w, discard, i, bufs, _, hl, _ => by
    have : bufs = [] := List.length_eq_zero.mp hl
    subst this
    rfl
  | todo + 1, w, discard, i, bufs, hd, hl, hb => by
    cases bufs with
    | nil => simp at hl
    | cons b bs =>
      simp only [List.length_cons, Nat.add_right_cancel_iff] at hl
      have hbs : ∀ b1 ∈ bs, b1.length = w.windowSize :=
        fun b1 hb1 => hb b1 (List.mem_cons_of_mem _ hb1)
      rcases ReadWindow_cases w discard hd with
        ⟨h1, h2⟩ | ⟨h1, h2⟩ | ⟨n1, e1, win, w1, h1, h2, h3, h4⟩
      · rcases ReadWindow_cases w b (hb b (List.mem_cons_self _ _)) with
          ⟨g1, _⟩ | ⟨_, g2⟩ | ⟨_, _, _, _, _, g2, _, _⟩
        · rw [skipLoop, h1, readWindows, g1]; rfl
        · rw [h2] at g2; cases g2
        · rw [h2] at g2; cases g2
      · rcases ReadWindow_cases w b (hb b (List.mem_cons_self _ _)) with
          ⟨_, g2⟩ | ⟨g1, _⟩ | ⟨_, _, _, _, _, g2, _, _⟩
        · rw [h2] at g2; cases g2
        · rw [skipLoop, h1, readWindows, g1]; rfl
        · rw [h2] at g2; cases g2
      · rcases ReadWindow_cases w b (hb b (List.mem_cons_self _ _)) with
          ⟨_, g2⟩ | ⟨_, g2⟩ | ⟨m1, f1, win2, w2, g1, g2, _, _⟩
        · rw [h2] at g2; cases g2
        · rw [h2] at g2; cases g2
        · rw [h2] at g2
          simp only [Outcome.ok.injEq, Prod.mk.injEq] at g2
          obtain ⟨_, _, g5⟩ := g2
          subst g5
          rw [skipLoop, h1, readWindows, g1]
          cases e1 with
          | none =>
            simp only
            exact skipLoop_state todo w1 win (i + 1) bs (by rw [h3, h4]) hl
              (fun b1 hb1 => by rw [h4]; exact hbs b1 hb1)
          | some e =>
            obtain ⟨e5, e6, _⟩ := windowStep_error w n1 e w1 h2
            subst e5 e6
            simp only
            rw [readWindows_stuck w1 n1 .EOF h2 bs hbs]
            split <;> rfl

namespace webp

/-- The `Next` call that finds the header `id ++ len` after what is left of the
current chunk succeeds exactly when the chunk fits in what is left of the
list. -/
theorem Next_header_spec (z : riff.Reader) (hz : z.sound) (id len w : List Byte)
    (hi : id.length = 4) (hl : len.length = 4) (hr : z.r.drop z.pending = id ++ len ++ w) :
    if z.pending + 8 ≤ z.totalLen ∧ littleEndianUint32 len ≤ z.totalLen - (z.pending + 8) then
      z.Next = ((id, littleEndianUint32 len, none),
        { r := w, err := none, totalLen := z.totalLen - (z.pending + 8),
          chunkLen := littleEndianUint32 len,
          padded := decide (littleEndianUint32 len % 2 = 1) })
    else ∃ e z', z.Next = (([], 0, some e), z') := by
  have h := riff.Next_spec z hz
  have e1 : (z.r.drop z.pending).take 4 = id := by
    rw [hr, List.append_assoc, List.take_left' hi]
  have e2 : (z.r.drop (z.pending + 4)).take 4 = len := by
    rw [← List.drop_drop, hr, List.append_assoc, List.drop_left' hi, List.take_left' hl]
  have e3 : z.r.drop (z.pending + 8) = w := by
    rw [← List.drop_drop, hr, List.drop_left' (by simp [hi, hl])]
  have e4 : z.pending + 8 ≤ z.r.length := by
    have := congrArg List.length hr
    simp [hi, hl] at this
    omega
  rw [e1, e2, e3] at h
  by_cases hc : z.pending + 8 ≤ z.totalLen ∧
      littleEndianUint32 len ≤ z.totalLen - (z.pending + 8)
  · rw [if_pos ⟨e4, hc.1, hc.2⟩] at h
    rw [if_pos hc]
    exact h
  · rw [if_neg (fun h' => hc ⟨h'.2.1, h'.2.2⟩)] at h
    rw [if_neg hc]
    exact h

/-- One iteration of the loop of `RenderFirstFrame` on a complete chunk that is
not an `ANMF` chunk. When the chunk fits in what is left of the container and is
an `ANIM` chunk or a `VP8X` chunk of at least 5 bytes with the animation bit
set, the loop goes on to the next chunk; otherwise the call returns an error
and has written nothing. -/
theorem renderLoop_riff_step (fuel : Nat) (z : riff.Reader) (canvas : List Byte)
    (c : RiffChunk) (w : List Byte) (hz : z.sound)
    (hr : z.r.drop z.pending = c.bytes ++ w) (hc : c.complete) (hid : c.id ≠ fccANMF) :
    ((8 + littleEndianUint32 c.len ≤ z.totalLen - z.pending ∧
        (c.id = fccANIM ∨ (c.id = fccVP8X ∧ 5 ≤ littleEndianUint32 c.len ∧
          animationBit (c.data.getD 0 0) = true))) →
      ∃ z' : riff.Reader, z'.sound ∧ z'.pending ≤ z'.r.length ∧ z'.r.drop z'.pending = w ∧
        z'.totalLen - z'.pending = z.totalLen - z.pending - c.bytes.length ∧
        renderLoop (fuel + 1) z canvas = renderLoop fuel z'
          (if c.id = fccVP8X then copy (zeros 6) ((c.data.drop 4).take 6) else canvas)) ∧
    (¬ (8 + littleEndianUint32 c.len ≤ z.totalLen - z.pending ∧
        (c.id = fccANIM ∨ (c.id = fccVP8X ∧ 5 ≤ littleEndianUint32 c.len ∧
          animationBit (c.data.getD 0 0) = true))) →
      ∃ e, renderLoop (fuel + 1) z canvas = .ok (some e, [])) := by
  obtain ⟨h1, h2, h3, h4⟩ := hc
  have hr' : z.r.drop z.pending = c.id ++ c.len ++ (c.data ++ c.pad ++ w) := by
    rw [hr]; simp [RiffChunk.bytes]
  have hn := Next_header_spec z hz c.id c.len _ h1 h2 hr'
  by_cases hN : z.pending + 8 ≤ z.totalLen ∧
      littleEndianUint32 c.len ≤ z.totalLen - (z.pending + 8)
  swap
  · rw [if_neg hN] at hn
    obtain ⟨e, z', hn⟩ := hn
    refine ⟨fun hcond => absurd ⟨by omega, by omega⟩ hN, fun _ => ?_⟩
    rw [renderLoop, hn]
    exact ⟨_, rfl⟩
  rw [if_pos hN] at hn
  obtain ⟨htot, hle⟩ := hN
  -- the reader on the payload of the chunk
  obtain ⟨z1, hz1⟩ : ∃ z1 : riff.Reader, riff.Reader.mk (c.data ++ c.pad ++ w) none
      (z.totalLen - (z.pending + 8)) (littleEndianUint32 c.len)
      (decide (littleEndianUint32 c.len % 2 = 1)) = z1 := ⟨_, rfl⟩
  rw [hz1] at hn
  have s1 : z1.sound := by
    subst hz1
    exact ⟨rfl, hle, by have := hz.2.2; simp only; omega⟩
  have l1 : z1.chunkLen ≤ z1.r.length := by
    subst hz1; simp [h3]
  have hpad : c.pad.length = if decide (littleEndianUint32 c.len % 2 = 1) = true then 1 else 0 := by
    rw [h4]
    by_cases ho : littleEndianUint32 c.len % 2 = 1
    · simp [ho]
    · simp [ho]; omega
  have hbytes : c.bytes.length = 8 + littleEndianUint32 c.len + c.pad.length := by
    simp [RiffChunk.bytes, h1, h2, h3]; omega
  -- the reader after `k` bytes of the payload stands before `w`
  have after : ∀ k, k ≤ littleEndianUint32 c.len →
      (z1.advance k).sound ∧ (z1.advance k).pending ≤ (z1.advance k).r.length ∧
      (z1.advance k).r.drop (z1.advance k).pending = w ∧
      (z1.advance k).totalLen - (z1.advance k).pending
        = z.totalLen - z.pending - c.bytes.length := by
    intro k hk
    subst hz1
    refine ⟨advance_sound _ s1 k hk, ?_, ?_, ?_⟩
    · simp only [riff.Reader.advance, riff.Reader.pending, List.length_drop, List.length_append,
        h3, ← hpad]
      omega
    · simp only [riff.Reader.advance, riff.Reader.pending, List.drop_drop, ← hpad]
      rw [show k + (littleEndianUint32 c.len - k + c.pad.length) = (c.data ++ c.pad).length by
        simp [h3]; omega]
      exact List.drop_left _ _
    · rw [hbytes]
      simp only [riff.Reader.advance, ← hpad]
      simp only [riff.Reader.pending, ← hpad]
      omega
  have hL : z1.chunkLen = littleEndianUint32 c.len := by subst hz1; rfl
  have hr1 : z1.r = c.data ++ (c.pad ++ w) := by subst hz1; simp
  by_cases hv : c.id = fccVP8X
  · have hna : c.id ≠ fccANIM := by rw [hv]; decide
    -- first read: the flag byte
    have a1 := chunkRead_advance z1 s1 l1 1
    by_cases c0 : z1.chunkLen = 0
    · rw [if_pos c0] at a1
      refine ⟨fun hcond => ?_, fun _ => ?_⟩
      · rcases hcond.2 with h' | h'
        · exact absurd h' hna
        · omega
      · rw [renderLoop, hn]
        simp only [hv, if_true, a1]
        exact ⟨_, rfl⟩
    rw [if_neg c0, show min z1.chunkLen 1 = 1 by omega] at a1
    have hflag : (copy [0] (z1.r.take 1)).getD 0 0 = c.data.getD 0 0 := by
      rw [hr1]
      cases hd : c.data with
      | nil => rw [hd] at h3; simp at h3; omega
      | cons d ds => simp [copy]
    by_cases hanim : animationBit (c.data.getD 0 0) = true
    swap
    · refine ⟨fun hcond => ?_, fun _ => ?_⟩
      · rcases hcond.2 with h' | h'
        · exact absurd h' hna
        · exact absurd h'.2.2 hanim
      · rw [renderLoop, hn]
        simp only [hv, if_true, a1, hflag, hanim, Bool.not_false]
        exact ⟨_, rfl⟩
    -- second read: the reserved bytes
    have s2 := (after 1 (by omega)).1
    have l2 : (z1.advance 1).chunkLen ≤ (z1.advance 1).r.length := by
      simp only [riff.Reader.advance, List.length_drop]; omega
    have a2 := chunkRead_advance (z1.advance 1) s2 l2 3
    have hL2 : (z1.advance 1).chunkLen = z1.chunkLen - 1 := rfl
    by_cases c1 : z1.chunkLen - 1 = 0
    · rw [hL2, if_pos c1] at a2
      refine ⟨fun hcond => ?_, fun _ => ?_⟩
      · rcases hcond.2 with h' | h'
        · exact absurd h' hna
        · omega
      · rw [renderLoop, hn]
        simp only [hv, if_true, a1, hflag, hanim, Bool.not_true, Bool.false_eq_true, if_false, a2]
        exact ⟨_, rfl⟩
    rw [hL2, if_neg c1, advance_advance] at a2
    -- third read: the canvas size
    have s3 := (after (1 + min (z1.chunkLen - 1) 3) (by omega)).1
    have l3 : (z1.advance (1 + min (z1.chunkLen - 1) 3)).chunkLen
        ≤ (z1.advance (1 + min (z1.chunkLen - 1) 3)).r.length := by
      simp only [riff.Reader.advance, List.length_drop]; omega
    have a3 := chunkRead_advance (z1.advance (1 + min (z1.chunkLen - 1) 3)) s3 l3 6
    have hL3 : (z1.advance (1 + min (z1.chunkLen - 1) 3)).chunkLen
        = z1.chunkLen - (1 + min (z1.chunkLen - 1) 3) := rfl
    by_cases c4 : z1.chunkLen - (1 + min (z1.chunkLen - 1) 3) = 0
    · rw [hL3, if_pos c4] at a3
      refine ⟨fun hcond => ?_, fun _ => ?_⟩
      · rcases hcond.2 with h' | h'
        · exact absurd h' hna
        · omega
      · rw [renderLoop, hn]
        simp only [hv, if_true, a1, hflag, hanim, Bool.not_true, Bool.false_eq_true, if_false, a2,
          a3]
        exact ⟨_, rfl⟩
    rw [hL3, if_neg c4, advance_advance] at a3
    have e3 : min (z1.chunkLen - 1) 3 = 3 := by omega
    have hdata : (z1.advance (1 + min (z1.chunkLen - 1) 3)).r.take
        (min (z1.chunkLen - (1 + min (z1.chunkLen - 1) 3)) 6) = (c.data.drop 4).take 6 := by
      simp only [riff.Reader.advance, e3, hr1, show 1 + 3 = 4 by omega]
      rw [List.drop_append_of_le_length (by omega),
        List.take_append_of_le_length (by simp [h3]; omega)]
      rw [List.take_eq_take]
      simp only [List.length_drop, h3]
      omega
    rw [hdata] at a3
    obtain ⟨sa, sb, sc, sd⟩ := after (1 + min (z1.chunkLen - 1) 3
      + min (z1.chunkLen - (1 + min (z1.chunkLen - 1) 3)) 6) (by omega)
    refine ⟨fun _ => ⟨_, sa, sb, sc, sd, ?_⟩, fun hcond => ?_⟩
    · rw [renderLoop, hn]
      simp only [hv, if_true, a1, hflag, hanim, Bool.not_true, Bool.false_eq_true, if_false, a2,
        a3]
    · exact absurd ⟨by omega, Or.inr ⟨hv, by omega, hanim⟩⟩ hcond
  · by_cases ha : c.id = fccANIM
    · have hk := after 0 (Nat.zero_le _)
      have e0 : z1.advance 0 = z1 := by
        subst hz1; simp [riff.Reader.advance]
      rw [e0] at hk
      refine ⟨fun _ => ⟨z1, hk.1, hk.2.1, hk.2.2.1, hk.2.2.2, ?_⟩, fun hcond => ?_⟩
      · rw [renderLoop, hn]
        simp only [ha, show ¬ (fccANIM = fccVP8X) by decide, if_false, if_true]
      · exact absurd ⟨by omega, Or.inl ha⟩ hcond
    · refine ⟨fun hcond => ?_, fun _ => ?_⟩
      · rcases hcond.2 with h' | h'
        · exact absurd h' ha
        · exact absurd h'.1 hv
      · rw [renderLoop, hn]
        simp only [hv, if_false, ha, hid]
        exact ⟨_, rfl⟩

theorem length_le_riffBytes (cs : List RiffChunk) (h : ∀ c ∈ cs, c.complete) :
    cs.length ≤ (riffBytes cs).length := by
  induction cs with
  | nil => simp
  | cons c cs ih =>
    have hc := h c (List.mem_cons_self _ _)
    have := ih (fun d hd => h d (List.mem_cons_of_mem _ hd))
    rw [riffBytes_cons]
    simp only [List.length_cons, List.length_append, RiffChunk.bytes, hc.1, hc.2.1]
    omega

/-- The iteration of the loop of `RenderFirstFrame` that finds a `VP8X` chunk
whose first payload byte has the animation bit clear returns an error. -/
theorem renderLoop_vp8x_clear (fuel : Nat) (z : riff.Reader) (canvas vlen rest : List Byte)
    (b : Byte) (hz : z.sound) (hl : vlen.length = 4)
    (hr : z.r.drop z.pending = fccVP8X ++ vlen ++ b :: rest) (hb : animationBit b = false) :
    ∃ e, renderLoop (fuel + 1) z canvas = .ok (some e, []) := by
  have hn := Next_header_spec z hz fccVP8X vlen (b :: rest) rfl hl hr
  by_cases hN : z.pending + 8 ≤ z.totalLen ∧
      littleEndianUint32 vlen ≤ z.totalLen - (z.pending + 8)
  · rw [if_pos hN] at hn
    obtain ⟨z1, hz1⟩ : ∃ z1 : riff.Reader, riff.Reader.mk (b :: rest) none
        (z.totalLen - (z.pending + 8)) (littleEndianUint32 vlen)
        (decide (littleEndianUint32 vlen % 2 = 1)) = z1 := ⟨_, rfl⟩
    rw [hz1] at hn
    have s1 : z1.sound := by
      subst hz1
      exact ⟨rfl, hN.2, by have := hz.2.2; simp only; omega⟩
    have hr1 : z1.r = b :: rest := by rw [← hz1]
    have a1 := riff.chunkRead_spec z1 s1 1
    rw [renderLoop, hn]
    simp only [if_true]
    by_cases c0 : z1.chunkLen = 0 ∨ z1.r = []
    · rw [if_pos c0] at a1
      rw [a1]
      exact ⟨_, rfl⟩
    · rw [if_neg c0] at a1
      have hm : min z1.chunkLen 1 = 1 := by
        have : z1.chunkLen ≠ 0 := fun h => c0 (Or.inl h)
        omega
      rw [hm, hr1] at a1
      rw [a1]
      simp only [List.take_succ_cons, List.take_zero, copy, List.length_singleton,
        List.drop_succ_cons, List.drop_nil, List.append_nil, List.getD_cons_zero, hb,
        Bool.not_false, if_true]
      exact ⟨_, rfl⟩
  · rw [if_neg hN] at hn
    obtain ⟨e, z', hn⟩ := hn
    rw [renderLoop, hn]
    exact ⟨_, rfl⟩

/-- The walk of `RenderFirstFrame` over complete chunks, none of them an `ANMF`
chunk, that are followed by bytes on which the loop returns an error. -/
theorem renderLoop_walk_error (tail : List Byte)
    (hfinal : ∀ (fuel : Nat) (z : riff.Reader) (canvas : List Byte), z.sound →
      z.r.drop z.pending = tail → ∃ e, renderLoop (fuel + 1) z canvas = .ok (some e, [])) :
    ∀ (pre : List RiffChunk) (fuel : Nat) (z : riff.Reader) (canvas : List Byte),
      z.sound → z.r.drop z.pending = riffBytes pre ++ tail →
      (∀ c ∈ pre, c.complete ∧ c.id ≠ fccANMF) → pre.length < fuel →
      ∃ e, renderLoop fuel z canvas = .ok (some e, [])
  | _, 0, _, _, _, _, _, hf => by simp at hf
  | [], fuel + 1, z, canvas, hz, hr, _, _ => by
    simp only [riffBytes, List.map_nil, List.flatten_nil, List.nil_append] at hr
    exact hfinal fuel z canvas hz hr
  | c :: pre, fuel + 1, z, canvas, hz, hr, hpre, hf => by
    obtain ⟨hc, hid⟩ := hpre c (List.mem_cons_self _ _)
    rw [riffBytes_cons, List.append_assoc] at hr
    obtain ⟨hgo, hstop⟩ := renderLoop_riff_step fuel z canvas c _ hz hr hc hid
    by_cases hcond : 8 + littleEndianUint32 c.len ≤ z.totalLen - z.pending ∧
        (c.id = fccANIM ∨ (c.id = fccVP8X ∧ 5 ≤ littleEndianUint32 c.len ∧
          animationBit (c.data.getD 0 0) = true))
    · obtain ⟨z', s', _, r', _, h'⟩ := hgo hcond
      rw [h']
      exact renderLoop_walk_error tail hfinal pre fuel z' _ s' r'
        (fun d hd => hpre d (List.mem_cons_of_mem _ hd))
        (by simp only [List.length_cons] at hf; omega)
    · exact hstop hcond

/-- The walk of `RenderFirstFrame` over chunks it accepts: complete `ANIM`
chunks and complete `VP8X` chunks of at least 5 bytes with the animation bit
set, all within the declared size of the container. -/
theorem renderLoop_walk_accepted (tail : List Byte) (need : Nat) :
    ∀ (pre : List RiffChunk) (fuel : Nat) (z : riff.Reader) (canvas : List Byte),
      z.sound → z.r.drop z.pending = riffBytes pre ++ tail →
      (∀ c ∈ pre, c.complete ∧ (c.id = fccANIM ∨
        (c.id = fccVP8X ∧ 5 ≤ c.data.length ∧ animationBit (c.data.getD 0 0) = true))) →
      (riffBytes pre).length + need ≤ z.totalLen - z.pending → pre.length < fuel →
      ∃ (fuel1 : Nat) (z1 : riff.Reader) (canvas1 : List Byte), z1.sound ∧
        z1.r.drop z1.pending = tail ∧ need ≤ z1.totalLen - z1.pending ∧
        renderLoop fuel z canvas = renderLoop (fuel1 + 1) z1 canvas1
  | _, 0, _, _, _, _, _, _, hf => by simp at hf
  | [], fuel + 1, z, canvas, hz, hr, _, hn, _ => by
    simp only [riffBytes, List.map_nil, List.flatten_nil, List.nil_append, List.length_nil,
      Nat.zero_add] at hr hn
    exact ⟨fuel, z, canvas, hz, hr, hn, rfl⟩
  | c :: pre, fuel + 1, z, canvas, hz, hr, hpre, hn, hf => by
    obtain ⟨hc, hk⟩ := hpre c (List.mem_cons_self _ _)
    have hid : c.id ≠ fccANMF := by
      rcases hk with h | h
      · rw [h]; decide
      · rw [h.1]; decide
    rw [riffBytes_cons, List.append_assoc] at hr
    rw [riffBytes_cons, List.length_append] at hn
    have hbytes : c.bytes.length = 8 + littleEndianUint32 c.len + c.pad.length := by
      simp [RiffChunk.bytes, hc.1, hc.2.1, hc.2.2.1]; omega
    have hcond : 8 + littleEndianUint32 c.len ≤ z.totalLen - z.pending ∧
        (c.id = fccANIM ∨ (c.id = fccVP8X ∧ 5 ≤ littleEndianUint32 c.len ∧
          animationBit (c.data.getD 0 0) = true)) := by
      refine ⟨by omega, ?_⟩
      rcases hk with h | h
      · exact Or.inl h
      · exact Or.inr ⟨h.1, by rw [← hc.2.2.1]; exact h.2.1, h.2.2⟩
    obtain ⟨z', s', _, r', b', h'⟩ := (renderLoop_riff_step fuel z canvas c _ hz hr hc hid).1 hcond
    rw [h']
    exact renderLoop_walk_accepted tail need pre fuel z' _ s' r'
      (fun d hd => hpre d (List.mem_cons_of_mem _ hd)) (by omega)
      (by simp only [List.length_cons] at hf; omega)

/-- The iteration of the loop of `RenderFirstFrame` that finds the header of a
chunk that is not a `VP8X`, `ANIM` or `ANMF` chunk, within the declared size of
the container. -/
theorem renderLoop_unknown (fuel : Nat) (z : riff.Reader) (canvas id len rest : List Byte)
    (hz : z.sound) (hi : id.length = 4) (hl : len.length = 4)
    (hr : z.r.drop z.pending = id ++ len ++ rest)
    (hid : id ≠ fccVP8X ∧ id ≠ fccANIM ∧ id ≠ fccANMF)
    (hn : 8 + littleEndianUint32 len ≤ z.totalLen - z.pending) :
    renderLoop (fuel + 1) z canvas = .ok (some .errMalformedImage, []) := by
  have h := Next_header_spec z hz id len rest hi hl hr
  rw [if_pos ⟨by omega, by omega⟩] at h
  rw [renderLoop, h]
  simp only [hid.1, hid.2.1, hid.2.2, if_false]

/-- What `riff.NewReader` returns on a stream that starts with `RIFF`, a size
and a form type. -/
theorem NewReader_layout (size form w : List Byte) (hs : size.length = 4)
    (hf : form.length = 4) :
    if 4 ≤ littleEndianUint32 size then
      riff.NewReader (fccRIFF ++ size ++ form ++ w)
        = (form, some (riff.Reader.fresh w (littleEndianUint32 size - 4)), none)
    else ∃ e, riff.NewReader (fccRIFF ++ size ++ form ++ w) = ([], none, some e) := by
  have hn := riff.NewReader_spec (fccRIFF ++ size ++ form ++ w)
  have hd12 : (fccRIFF ++ size ++ form ++ w).drop 12 = w :=
    List.drop_left' (by simp [fccRIFF, hs, hf])
  have hfo : ((fccRIFF ++ size ++ form ++ w).drop 8).take 4 = form := by
    rw [show fccRIFF ++ size ++ form ++ w = (fccRIFF ++ size) ++ (form ++ w) by simp,
      List.drop_left' (by simp [fccRIFF, hs])]
    exact List.take_left' hf
  have hsz : ((fccRIFF ++ size ++ form ++ w).drop 4).take 4 = size := by
    rw [show fccRIFF ++ size ++ form ++ w = fccRIFF ++ (size ++ (form ++ w)) by simp,
      List.drop_left' (by simp [fccRIFF])]
    exact List.take_left' hs
  have ht : (fccRIFF ++ size ++ form ++ w).take 4 = [0x52, 0x49, 0x46, 0x46] := by
    rw [show fccRIFF ++ size ++ form ++ w = fccRIFF ++ (size ++ (form ++ w)) by simp]
    exact List.take_left' rfl
  have hlen : 12 ≤ (fccRIFF ++ size ++ form ++ w).length := by
    simp [fccRIFF, hs, hf]; omega
  rw [hd12, hfo, hsz] at hn
  by_cases h4 : 4 ≤ littleEndianUint32 size
  · rw [if_pos ⟨hlen, ht, h4⟩] at hn
    rw [if_pos h4]
    exact hn
  · rw [if_neg (fun h => h4 h.2.2)] at hn
    rw [if_neg h4]
    exact hn

/-- C19: `webp.RenderFirstFrame` refuses a non-animated extended file. For every
input that consists of the RIFF header, the form type WEBP, complete chunks none
of which is an ANMF chunk, and a VP8X chunk header followed by a byte with bit
`0x02` clear and any further bytes, the call returns a non-nil error and has
written nothing. -/
theorem RenderFirstFrame_refuses_not_animated (size vlen rest : List Byte) (b : Byte)
    (pre : List RiffChunk) (hs : size.length = 4) (hl : vlen.length = 4)
    (hpre : ∀ c ∈ pre, c.complete ∧ c.id ≠ fccANMF) (hb : animationBit b = false) :
    ∃ e, RenderFirstFrame
        (fccRIFF ++ size ++ fccWEBP ++ riffBytes pre ++ fccVP8X ++ vlen ++ b :: rest)
      = .ok (some e, []) := by
  have e : fccRIFF ++ size ++ fccWEBP ++ riffBytes pre ++ fccVP8X ++ vlen ++ b :: rest
      = (fccRIFF ++ size ++ fccWEBP) ++ (riffBytes pre ++ (fccVP8X ++ vlen ++ b :: rest)) := by
    simp
  have hlen : pre.length < ((fccRIFF ++ size ++ fccWEBP)
      ++ (riffBytes pre ++ (fccVP8X ++ vlen ++ b :: rest))).length + 1 := by
    have := length_le_riffBytes pre (fun c hc => (hpre c hc).1)
    simp only [List.length_append]
    omega
  have hn := NewReader_layout size fccWEBP (riffBytes pre ++ (fccVP8X ++ vlen ++ b :: rest)) hs rfl
  rw [RenderFirstFrame, e]
  by_cases h4 : 4 ≤ littleEndianUint32 size
  · rw [if_pos h4] at hn
    rw [hn]
    simp only [ne_eq, not_true_eq_false, if_false]
    have hlt := littleEndianUint32_lt size
    exact renderLoop_walk_error _
      (fun fuel z canvas hz hr => renderLoop_vp8x_clear fuel z canvas vlen rest b hz hl hr hb)
      pre _ _ [] (fresh_sound _ _ (by omega))
      (by simp [riff.Reader.fresh, riff.Reader.pending]) hpre hlen
  · rw [if_neg h4] at hn
    obtain ⟨e', he'⟩ := hn
    rw [he']
    exact ⟨_, rfl⟩

/-- An instance of C19: an `ANIM` chunk, which the walk passes, then a `VP8X`
chunk whose flag byte `0x10` has the animation bit clear; the call reads that
byte and returns the error `not an animated image`. -/
theorem RenderFirstFrame_refuses_not_animated_witness :
    (∀ c ∈ [exampleANIM], c.complete ∧ c.id ≠ fccANMF) ∧ animationBit 0x10 = false ∧
    (∃ e, RenderFirstFrame
        (fccRIFF ++ [36, 0, 0, 0] ++ fccWEBP ++ riffBytes [exampleANIM] ++ fccVP8X
          ++ [10, 0, 0, 0] ++ 0x10 :: [0, 0, 0, 1, 0, 0, 1, 0, 0])
      = .ok (some e, [])) ∧
    RenderFirstFrame
        (fccRIFF ++ [36, 0, 0, 0] ++ fccWEBP ++ riffBytes [exampleANIM] ++ fccVP8X
          ++ [10, 0, 0, 0] ++ 0x10 :: [0, 0, 0, 1, 0, 0, 1, 0, 0])
      = .ok (some .notAnAnimatedImage, []) :=
  ⟨by decide, by decide,
    RenderFirstFrame_refuses_not_animated [36, 0, 0, 0] [10, 0, 0, 0]
      [0, 0, 0, 1, 0, 0, 1, 0, 0] 0x10 [exampleANIM] rfl rfl (by decide) (by decide),
    by decide⟩

/-- C20: `webp.RenderFirstFrame` accepts only the chunk ids VP8X, ANIM and ANMF.
For every input that consists of the RIFF header, the form type WEBP, chunks
that the walk accepts (complete ANIM chunks and complete VP8X chunks of at least
5 bytes with the animation bit set) and then the header of a chunk whose id is
none of VP8X, ANIM, ANMF, all within the declared size of the container, the
call returns `errMalformedImage` and has written nothing. -/
theorem RenderFirstFrame_unknown_chunk_is_malformed (size id len rest : List Byte)
    (pre : List RiffChunk) (hs : size.length = 4) (hi : id.length = 4) (hl : len.length = 4)
    (hid : id ≠ fccVP8X ∧ id ≠ fccANIM ∧ id ≠ fccANMF)
    (hpre : ∀ c ∈ pre, c.complete ∧ (c.id = fccANIM ∨
      (c.id = fccVP8X ∧ 5 ≤ c.data.length ∧ animationBit (c.data.getD 0 0) = true)))
    (hsize : 4 + (riffBytes pre).length + 8 + littleEndianUint32 len
      ≤ littleEndianUint32 size) :
    RenderFirstFrame (fccRIFF ++ size ++ fccWEBP ++ riffBytes pre ++ id ++ len ++ rest)
      = .ok (some .errMalformedImage, []) := by
  have e : fccRIFF ++ size ++ fccWEBP ++ riffBytes pre ++ id ++ len ++ rest
      = (fccRIFF ++ size ++ fccWEBP) ++ (riffBytes pre ++ (id ++ len ++ rest)) := by
    simp
  have hlen : pre.length < ((fccRIFF ++ size ++ fccWEBP)
      ++ (riffBytes pre ++ (id ++ len ++ rest))).length + 1 := by
    have := length_le_riffBytes pre (fun c hc => (hpre c hc).1)
    simp only [List.length_append]
    omega
  have hn := NewReader_layout size fccWEBP (riffBytes pre ++ (id ++ len ++ rest)) hs rfl
  rw [if_pos (by omega)] at hn
  rw [RenderFirstFrame, e, hn]
  simp only [ne_eq, not_true_eq_false, if_false]
  have hlt := littleEndianUint32_lt size
  obtain ⟨fuel1, z1, canvas1, s1, r1, n1, h1⟩ :=
    renderLoop_walk_accepted (id ++ len ++ rest) (8 + littleEndianUint32 len) pre _
      (riff.Reader.fresh (riffBytes pre ++ (id ++ len ++ rest)) (littleEndianUint32 size - 4)) []
      (fresh_sound _ _ (by omega)) (by simp [riff.Reader.fresh, riff.Reader.pending]) hpre
      (by simp [riff.Reader.fresh, riff.Reader.pending]; omega) hlen
  rw [h1]
  exact renderLoop_unknown fuel1 z1 canvas1 id len rest s1 hi hl r1 hid n1

/-- An instance of C20: a `VP8X` chunk and an `ANIM` chunk, then the header of
a `VP8 ` chunk whose payload is cut short. -/
theorem RenderFirstFrame_unknown_chunk_is_malformed_witness :
    (fccVP8 ≠ fccVP8X ∧ fccVP8 ≠ fccANIM ∧ fccVP8 ≠ fccANMF) ∧
    4 + (riffBytes [exampleVP8X, exampleANIM]).length + 8 + littleEndianUint32 [4, 0, 0, 0]
      ≤ littleEndianUint32 [200, 0, 0, 0] ∧
    RenderFirstFrame (fccRIFF ++ [200, 0, 0, 0] ++ fccWEBP
        ++ riffBytes [exampleVP8X, exampleANIM] ++ fccVP8 ++ [4, 0, 0, 0] ++ [1, 2])
      = .ok (some .errMalformedImage, []) :=
  ⟨by decide, by decide,
    RenderFirstFrame_unknown_chunk_is_malformed [200, 0, 0, 0] fccVP8 [4, 0, 0, 0] [1, 2]
      [exampleVP8X, exampleANIM] rfl rfl rfl (by decide) (by decide) (by decide)⟩

/-- The walk of `RenderFirstFrame` over chunks it accepts, with the canvas size
it holds afterwards. -/
theorem renderLoop_walk_canvas (tail : List Byte) (need : Nat) :
    ∀ (pre : List RiffChunk) (fuel : Nat) (z : riff.Reader) (canvas : List Byte),
      z.sound → z.r.drop z.pending = riffBytes pre ++ tail →
      (∀ c ∈ pre, c.complete ∧ (c.id = fccANIM ∨
        (c.id = fccVP8X ∧ 5 ≤ c.data.length ∧ animationBit (c.data.getD 0 0) = true))) →
      (riffBytes pre).length + need ≤ z.totalLen - z.pending → pre.length < fuel →
      ∃ (fuel1 : Nat) (z1 : riff.Reader), z1.sound ∧
        z1.r.drop z1.pending = tail ∧ need ≤ z1.totalLen - z1.pending ∧
        renderLoop fuel z canvas = renderLoop (fuel1 + 1) z1 (lastCanvas pre canvas)
  | _, 0, _, _, _, _, _, _, hf => by simp at hf
  | [], fuel + 1, z, canvas, hz, hr, _, hn, _ => by
    simp only [riffBytes, List.map_nil, List.flatten_nil, List.nil_append, List.length_nil,
      Nat.zero_add] at hr hn
    exact ⟨fuel, z, hz, hr, hn, rfl⟩
  | c :: pre, fuel + 1, z, canvas, hz, hr, hpre, hn, hf => by
    obtain ⟨hc, hk⟩ := hpre c (List.mem_cons_self _ _)
    have hid : c.id ≠ fccANMF := by
      rcases hk with h | h
      · rw [h]; decide
      · rw [h.1]; decide
    rw [riffBytes_cons, List.append_assoc] at hr
    rw [riffBytes_cons, List.length_append] at hn
    have hbytes : c.bytes.length = 8 + littleEndianUint32 c.len + c.pad.length := by
      simp [RiffChunk.bytes, hc.1, hc.2.1, hc.2.2.1]; omega
    have hcond : 8 + littleEndianUint32 c.len ≤ z.totalLen - z.pending ∧
        (c.id = fccANIM ∨ (c.id = fccVP8X ∧ 5 ≤ littleEndianUint32 c.len ∧
          animationBit (c.data.getD 0 0) = true)) := by
      refine ⟨by omega, ?_⟩
      rcases hk with h | h
      · exact Or.inl h
      · exact Or.inr ⟨h.1, by rw [← hc.2.2.1]; exact h.2.1, h.2.2⟩
    obtain ⟨z', s', _, r', b', h'⟩ := (renderLoop_riff_step fuel z canvas c _ hz hr hc hid).1 hcond
    rw [h']
    exact renderLoop_walk_canvas tail need pre fuel z' _ s' r'
      (fun d hd => hpre d (List.mem_cons_of_mem _ hd)) (by omega)
      (by simp only [List.length_cons] at hf; omega)

/-- The iteration of the loop of `RenderFirstFrame` that finds an `ANMF` chunk
whose payload is in the stream and fits in the container: the container is
written around the bitstream that `readANMFBitstream` returns on the payload
after its 16-byte prologue; the bytes `tail` after the payload are not read. -/
theorem renderLoop_anmf_ok (fuel : Nat) (z : riff.Reader) (canvas alen payload tail B : List Byte)
    (a : Bool) (hz : z.sound) (hl : alen.length = 4)
    (hr : z.r.drop z.pending = fccANMF ++ alen ++ (payload ++ tail))
    (hlen : payload.length = littleEndianUint32 alen) (hne : payload ≠ [])
    (hn : 8 + littleEndianUint32 alen ≤ z.totalLen - z.pending)
    (hB : readANMFBitstream (u32sub (littleEndianUint32 alen) 16) (payload.drop 16)
      = .ok (B, a, none)) :
    renderLoop (fuel + 1) z canvas = .ok (none, container canvas B a) := by
  have hx := Next_header_spec z hz fccANMF alen (payload ++ tail) rfl hl hr
  rw [if_pos ⟨by omega, by omega⟩] at hx
  obtain ⟨z1, hz1⟩ : ∃ z1 : riff.Reader, riff.Reader.mk (payload ++ tail) none
      (z.totalLen - (z.pending + 8)) (littleEndianUint32 alen)
      (decide (littleEndianUint32 alen % 2 = 1)) = z1 := ⟨_, rfl⟩
  rw [hz1] at hx
  have s1 : z1.sound := by
    subst hz1
    exact ⟨rfl, by simp only; omega, by have := hz.2.2; simp only; omega⟩
  have hcl : z1.chunkLen = littleEndianUint32 alen := by rw [← hz1]
  have hr1 : z1.r = payload ++ tail := by rw [← hz1]
  have hp0 : payload.length ≠ 0 := fun h => hne (List.length_eq_zero.mp h)
  have a1 := riff.chunkRead_spec z1 s1 16
  have c0 : ¬ (z1.chunkLen = 0 ∨ z1.r = []) := by
    rintro (h | h)
    · omega
    · rw [hr1] at h
      exact hne (List.append_eq_nil.mp h).1
  rw [if_neg c0] at a1
  rw [renderLoop, hx]
  simp only [show fccANMF ≠ fccVP8X by decide, show fccANMF ≠ fccANIM by decide, if_false,
    if_true, a1]
  have hdata : (z1.r.drop (min z1.chunkLen 16)).take
      (z1.chunkLen - (z1.r.take (min z1.chunkLen 16)).length) = payload.drop 16 := by
    rw [hcl, hr1, after_prologue (payload ++ tail) (littleEndianUint32 alen), ← hlen,
      List.take_left]
  rw [hdata, hB]
  rfl

/-- C5: `webp.RenderFirstFrame` rebuilds a minimal extended container, and
chunks after the first ANMF chunk are not read. The input consists of the RIFF
header, the form type WEBP, complete chunks `pre` none of which is an ANMF chunk,
the last VP8X chunk among them being `v` with a payload of at least 10 bytes, and
the header of an ANMF chunk. First, whatever bytes `rest` follow that header:
when the call succeeds, the sink holds `RIFF`, the little-endian `uint32` value
`22 + |B|`, `WEBP`, `VP8X`, the little-endian value 10, one flag byte, three zero
bytes, bytes 4 to 9 of the payload of `v`, and `B`, where `B` and the alpha flag
are what `readANMFBitstream` returns on the payload of the ANMF chunk after its
16-byte prologue, and the flag byte is 16 when the alpha flag is set and 0
otherwise. Second, when the chunks `pre` are chunks that the walk accepts
(complete ANIM chunks and complete VP8X chunks of at least 5 bytes with the
animation bit set), the ANMF chunk has its whole payload in the stream and fits
in the declared size of the container, and `readANMFBitstream` returns `B` and
the alpha flag `a` without error on that payload after its prologue, the call
succeeds and the sink holds exactly that container whatever bytes `tail` follow
the ANMF chunk: they play no part in the result. -/
theorem RenderFirstFrame_minimal_container (size alen : List Byte) (pre : List RiffChunk)
    (hs : size.length = 4) (hl : alen.length = 4)
    (hpre : ∀ c ∈ pre, c.complete ∧ c.id ≠ fccANMF)
    (p1 p2 : List RiffChunk) (v : RiffChunk) (hsplit : pre = p1 ++ v :: p2)
    (hv : v.id = fccVP8X) (h10 : 10 ≤ v.data.length) (hlast : ∀ c ∈ p2, c.id ≠ fccVP8X) :
    (∀ rest out : List Byte,
      RenderFirstFrame (fccRIFF ++ size ++ fccWEBP ++ riffBytes pre ++ fccANMF ++ alen ++ rest)
        = .ok (none, out) →
      ∃ B a, readANMFBitstream (u32sub (littleEndianUint32 alen) 16)
          ((rest.take (littleEndianUint32 alen)).drop 16) = .ok (B, a, none) ∧
        out = fccRIFF ++ putUint32LE (22 + B.length) ++ fccWEBP ++ fccVP8X ++ putUint32LE 10
          ++ [if a then 16 else 0] ++ [0, 0, 0] ++ (v.data.drop 4).take 6 ++ B) ∧
    (∀ (payload B : List Byte) (a : Bool),
      (∀ c ∈ pre, c.id = fccANIM ∨
        (c.id = fccVP8X ∧ 5 ≤ c.data.length ∧ animationBit (c.data.getD 0 0) = true)) →
      payload.length = littleEndianUint32 alen → payload ≠ [] →
      4 + (riffBytes pre).length + 8 + littleEndianUint32 alen ≤ littleEndianUint32 size →
      readANMFBitstream (u32sub (littleEndianUint32 alen) 16) (payload.drop 16)
        = .ok (B, a, none) →
      ∀ tail : List Byte,
        RenderFirstFrame (fccRIFF ++ size ++ fccWEBP ++ riffBytes pre ++ fccANMF ++ alen
            ++ payload ++ tail)
          = .ok (none, fccRIFF ++ putUint32LE (22 + B.length) ++ fccWEBP ++ fccVP8X
            ++ putUint32LE 10 ++ [if a then 16 else 0] ++ [0, 0, 0] ++ (v.data.drop 4).take 6
            ++ B)) := by
  constructor
  · intro rest out h
    exact RenderFirstFrame_layout_of_success size alen rest out pre hs hl hpre h p1 p2 v hsplit hv
      h10 hlast
  · intro payload B a hacc hlen hne hsize hB tail
    have e : fccRIFF ++ size ++ fccWEBP ++ riffBytes pre ++ fccANMF ++ alen ++ payload ++ tail
        = (fccRIFF ++ size ++ fccWEBP)
          ++ (riffBytes pre ++ (fccANMF ++ alen ++ (payload ++ tail))) := by
      simp
    have hfuel : pre.length < ((fccRIFF ++ size ++ fccWEBP)
        ++ (riffBytes pre ++ (fccANMF ++ alen ++ (payload ++ tail)))).length + 1 := by
      have := length_le_riffBytes pre (fun c hc => (hpre c hc).1)
      simp only [List.length_append]
      omega
    have hn := NewReader_layout size fccWEBP
      (riffBytes pre ++ (fccANMF ++ alen ++ (payload ++ tail))) hs rfl
    rw [if_pos (by omega)] at hn
    rw [RenderFirstFrame, e, hn]
    simp only [ne_eq, not_true_eq_false, if_false]
    have hlt := littleEndianUint32_lt size
    obtain ⟨fuel1, z1, s1, r1, n1, h1⟩ :=
      renderLoop_walk_canvas (fccANMF ++ alen ++ (payload ++ tail))
        (8 + littleEndianUint32 alen) pre _
        (riff.Reader.fresh (riffBytes pre ++ (fccANMF ++ alen ++ (payload ++ tail)))
          (littleEndianUint32 size - 4)) []
        (fresh_sound _ _ (by omega)) (by simp [riff.Reader.fresh, riff.Reader.pending])
        (fun c hc => ⟨(hpre c hc).1, hacc c hc⟩)
        (by simp [riff.Reader.fresh, riff.Reader.pending]; omega) hfuel
    rw [h1, renderLoop_anmf_ok fuel1 z1 _ alen payload tail B a s1 hl r1 hlen hne n1 hB, hsplit,
      lastCanvas_last p1 p2 v [] hv h10 hlast]
    simp [container, fccRIFF, show 4 + 8 + 10 + B.length = 22 + B.length by omega]

/-- An instance of C5: the frame has an `ALPH` subchunk, so the flag byte is
16; the first call has the three bytes `1, 2, 3` after the `ANMF` chunk, the
second a `VP8X` chunk header, and the sink holds the same container. -/
theorem RenderFirstFrame_minimal_container_witness :
    ((∀ c ∈ [exampleVP8X, exampleANIM], c.complete ∧ c.id ≠ fccANMF) ∧
      (∀ c ∈ [exampleVP8X, exampleANIM], c.id = fccANIM ∨
        (c.id = fccVP8X ∧ 5 ≤ c.data.length ∧ animationBit (c.data.getD 0 0) = true)) ∧
      exampleFrame.length = littleEndianUint32 [40, 0, 0, 0] ∧
      readANMFBitstream (u32sub (littleEndianUint32 [40, 0, 0, 0]) 16) (exampleFrame.drop 16)
        = .ok (exampleOutput.drop 30, true, none)) ∧
    RenderFirstFrame (fccRIFF ++ [200, 0, 0, 0] ++ fccWEBP
        ++ riffBytes [exampleVP8X, exampleANIM] ++ fccANMF ++ [40, 0, 0, 0]
        ++ exampleFrame ++ [1, 2, 3]) = .ok (none, exampleOutput) ∧
    RenderFirstFrame (fccRIFF ++ [200, 0, 0, 0] ++ fccWEBP
        ++ riffBytes [exampleVP8X, exampleANIM] ++ fccANMF ++ [40, 0, 0, 0]
        ++ exampleFrame ++ (fccVP8X ++ [10, 0, 0, 0])) = .ok (none, exampleOutput) :=
  ⟨by decide,
    (RenderFirstFrame_minimal_container [200, 0, 0, 0] [40, 0, 0, 0] [exampleVP8X, exampleANIM]
      rfl rfl (by decide) [] [exampleANIM] exampleVP8X rfl rfl (by decide) (by decide)).2
      exampleFrame (exampleOutput.drop 30) true (by decide) (by decide) (by decide) (by decide)
      (by decide) [1, 2, 3],
    by decide⟩

end webp

namespace png

/-- C11: the code returns `(false, nil)` on streams that are not known to be
normal PNGs. On the signature followed by one byte, and on the signature, a
complete `IHDR` chunk and the four length bytes of the next chunk,
`png.IsAnimated` returns `false` without error, although no IDAT or IEND header
has been reached and the stream can go on with an acTL chunk (as the third
stream does, on which the result is `true`). -/
theorem IsAnimated_false_not_definitive :
    IsAnimated (pngHeader ++ [0]) = .ok (false, none) ∧
    IsAnimated (pngHeader ++ exampleIHDR.bytes ++ [0, 0, 0, 8]) = .ok (false, none) ∧
    IsAnimated (pngHeader ++ exampleIHDR.bytes ++ [0, 0, 0, 8] ++ actl) = .ok (true, none) := by
  decide

/-- C12: the code succeeds on an input that holds no complete fcTL header.
After an IDAT chunk and a chunk whose type ends in `cTL`, five more bytes (four
length bytes and the letter `f`) make `png.RenderFirstFrame` return no error: the
read of the next header returns those five bytes, the last three bytes of
`chunkHeader` still hold `cTL`, and the type compares equal to `fcTL`. -/
theorem RenderFirstFrame_succeeds_without_fctl_header :
    RenderFirstFrame (pngHeader ++ exampleIDAT.bytes ++ exampleACTL.bytes ++ [0, 0, 0, 0, 0x66])
      = .ok (none, pngHeader ++ exampleIDAT.bytes ++ iendChunk) := by
  decide

/-- C13: the output is not determined by the bytes read up to the point where
the code stops. `png.RenderFirstFrame` succeeds on the input `x` of C12 having
read all of it, and fails on `x` followed by one more byte. -/
theorem RenderFirstFrame_continuation_changes_result :
    RenderFirstFrame (pngHeader ++ exampleIDAT.bytes ++ exampleACTL.bytes ++ [0, 0, 0, 0, 0x66])
      = .ok (none, pngHeader ++ exampleIDAT.bytes ++ iendChunk) ∧
    RenderFirstFrame
        (pngHeader ++ exampleIDAT.bytes ++ exampleACTL.bytes ++ [0, 0, 0, 0, 0x66] ++ [0])
      = .ok (some .EOF, pngHeader ++ exampleIDAT.bytes) := by
  decide

end png

/-- C15: the count of a partial skip is one more than the number of bytes
skipped. A reader with window size 3 over `"0123"` that has delivered its first
window has one byte left; `Skip(5)` then advances past that byte and returns the
count 2 without error. A fresh reader with window size 3 over the one-byte
stream `"0"` returns the count 2 from `Skip(3)`. -/
theorem Skip_early_stop_count_off_by_one :
    ReadWindow (NewReader [0x30, 0x31, 0x32, 0x33] 3) (zeros 3)
      = .ok (3, none, [0x30, 0x31, 0x32], steady 3 [0x31, 0x32, 0x33]) ∧
    Skip (steady 3 [0x31, 0x32, 0x33]) 5 = .ok (2, none, steady 3 [0x32, 0x33]) ∧
    Skip (NewReader [0x30] 3) 3 = .ok (2, none, { r := [], windowSize := 3, previous := none }) := by
  decide

/-- C17, as stated, fails for the empty stream: the first `ReadWindow` returns
count 0 with `io.EOF`, not count 0 without error. -/
theorem ReadWindow_empty_stream_is_EOF :
    ReadWindow (NewReader [] 3) (zeros 3) = .ok (0, some .EOF, zeros 3, NewReader [] 3) ∧
    ReadWindow (NewReader [] 3) (zeros 3) ≠ .ok (0, none, zeros 3, NewReader [] 3) := by
  decide

/-- A first `ReadWindow` can only return a full window when the window size is
at least 2. -/
theorem ReadWindow_first_full (W : Nat) (s buf win : List Byte) (w1 : WindowedReader)
    (h : ReadWindow (NewReader s W) buf = .ok (W, none, win, w1)) (hs : W + 1 ≤ s.length) :
    2 ≤ W ∧ buf.length = W := by
  by_cases hb : buf.length = W
  · refine ⟨?_, hb⟩
    cases s with
    | nil => simp at hs
    | cons a t =>
      rcases Nat.lt_or_ge W 2 with h2 | h2
      · rcases (by omega : W = 0 ∨ W = 1) with h0 | h1
        · subst h0; simp [ReadWindow, NewReader, hb] at h
        · subst h1; simp [ReadWindow, NewReader, hb, readNext] at h
      · exact h2
  · simp [ReadWindow, NewReader, hb] at h

/-- C14: the reader after `Skip(n)` is the reader after `n` calls of
`ReadWindow` whose results are dropped, for every reader state and every `n`,
panics included, so that a following `ReadWindow` returns the same in both
cases. In particular, after a first `ReadWindow` that returned a full window,
`Skip(n)` followed by `ReadWindow` returns the bytes `s[n+1 .. n+W]` when the
stream holds them. -/
theorem Skip_is_repeated_ReadWindow (w : WindowedReader) (n : Nat) (bufs : List (List Byte))
    (hn : bufs.length = n) (hb : ∀ b ∈ bufs, b.length = w.windowSize) :
    (Skip w n).map (fun res => res.2.2) = readWindows w bufs ∧
    ∀ (W : Nat) (s buf1 buf2 win : List Byte) (w1 : WindowedReader),
      ReadWindow (NewReader s W) buf1 = .ok (W, none, win, w1) → n + 1 + W ≤ s.length →
      buf2.length = W →
      ∃ w2 w3, win = s.take W ∧ Skip w1 n = .ok (n, none, w2) ∧
        ReadWindow w2 buf2 = .ok (W, none, (s.drop (n + 1)).take W, w3) := by
  constructor
  · exact skipLoop_state n w (zeros w.windowSize) 0 bufs (by simp [zeros]) hn hb
  · intro W s buf1 buf2 win w1 h hs hb2
    obtain ⟨hW, hb1⟩ := ReadWindow_first_full W s buf1 win w1 h (by omega)
    rw [ReadWindow_fresh W s buf1 hW (by omega) hb1] at h
    simp only [Outcome.ok.injEq, Prod.mk.injEq, true_and] at h
    obtain ⟨h1, h2⟩ := h
    subst h1 h2
    refine ⟨steady W (s.tail.drop n), steady W (s.tail.drop n).tail, rfl,
      Skip_full W n s.tail hW (by simp; omega), ?_⟩
    rw [ReadWindow_steady W _ buf2 hW (by simp; omega) hb2, List.drop_tail]

/-- An instance of C14: a reader of window size 3 over six bytes, after its
first window, skipped by 2. -/
theorem Skip_is_repeated_ReadWindow_witness :
    (Skip (steady 3 [1, 2, 3, 4, 5]) 2).map (fun res => res.2.2)
      = readWindows (steady 3 [1, 2, 3, 4, 5]) [zeros 3, zeros 3] ∧
    ∃ w2 w3, ([0, 1, 2] : List Byte) = List.take 3 [0, 1, 2, 3, 4, 5] ∧
      Skip (steady 3 [1, 2, 3, 4, 5]) 2 = .ok (2, none, w2) ∧
      ReadWindow w2 (zeros 3) = .ok (3, none, List.take 3 (List.drop (2 + 1) [0, 1, 2, 3, 4, 5]), w3) :=
  ⟨(Skip_is_repeated_ReadWindow (steady 3 [1, 2, 3, 4, 5]) 2 [zeros 3, zeros 3] rfl
      (by decide)).1,
    (Skip_is_repeated_ReadWindow (steady 3 [1, 2, 3, 4, 5]) 2 [zeros 3, zeros 3] rfl
      (by decide)).2 3 [0, 1, 2, 3, 4, 5] (zeros 3) (zeros 3) [0, 1, 2]
      (steady 3 [1, 2, 3, 4, 5]) (by decide) (by decide) (by decide)⟩

/-- On a well-formed reader `ReadWindow` returns, with no error or with
end-of-stream and count 0, and the reader stays well formed. -/
theorem windowStep_wellFormed (w : WindowedReader) (hw : w.wellFormed) :
    ∃ n e w1, windowStep w = .ok (n, e, w1) ∧ w1.wellFormed ∧ w1.windowSize = w.windowSize := by
  obtain ⟨r, W, previous⟩ := w
  obtain ⟨hW, hp⟩ := hw
  simp only at hW hp
  have hz : (zeros W).length = W := by simp [zeros]
  simp only [windowStep, ReadWindow, hz, ne_eq, not_true_eq_false, if_false]
  cases previous with
  | some p =>
    have hpl := hp p rfl
    simp only [readNext]
    cases r with
    | nil => exact ⟨_, _, _, rfl, ⟨hW, hp⟩, rfl⟩
    | cons b rest =>
      cases p with
      | nil => simp at hpl; omega
      | cons a tl =>
        refine ⟨_, _, _, rfl, ⟨hW, ?_⟩, rfl⟩
        intro q hq
        simp only [Option.some.injEq] at hq
        subst hq
        simp only [List.length_cons] at hpl
        simp [hpl]
  | none =>
    simp only [show ¬ (W = 0) by omega, if_false]
    cases r with
    | nil => exact ⟨_, _, _, rfl, ⟨hW, hp⟩, rfl⟩
    | cons b rest =>
      simp only
      split
      · exact ⟨_, _, _, rfl, ⟨hW, by simp⟩, rfl⟩
      · rename_i hlt
        have hlen : (List.take (W - 1) (b :: rest)).length = W - 1 := by
          simp only [List.length_take, List.length_cons] at hlt ⊢
          omega
        simp only [readNext]
        cases hr : List.drop (W - 1) (b :: rest) with
        | nil =>
          refine ⟨_, _, _, rfl, ⟨hW, ?_⟩, rfl⟩
          intro q hq
          simp only [Option.some.injEq] at hq
          subst hq
          exact hlen
        | cons c rest' =>
          simp only
          cases hp1 : List.take (W - 1) (b :: rest) with
          | nil => rw [hp1] at hlen; simp at hlen; omega
          | cons a tl =>
            refine ⟨_, _, _, rfl, ⟨hW, ?_⟩, rfl⟩
            intro q hq
            simp only [Option.some.injEq] at hq
            subst hq
            rw [hp1] at hlen
            simp only [List.length_cons] at hlen
            simp [hlen]

/-- After its first iteration the loop of `Skip` returns no error. -/
theorem skipLoop_later :
    ∀ (todo : Nat) (w : WindowedReader) (discard : List Byte) (i : Nat),
      discard.length = w.windowSize → 1 ≤ i →
      ∀ c e w1, skipLoop w discard i todo = .ok (c, e, w1) → e = none
  | 0, w, discard, i, _, _ => by
    intro c e w1 h
    simp only [skipLoop, Outcome.ok.injEq, Prod.mk.injEq] at h
    exact h.2.1.symm
  | todo + 1, w, discard, i, hd, hi => by
    intro c e w1 h
    rcases ReadWindow_cases w discard hd with
      ⟨g1, _⟩ | ⟨g1, _⟩ | ⟨n1, e1, win, w2, g1, g2, g3, g4⟩
    · rw [skipLoop, g1] at h; cases h
    · rw [skipLoop, g1] at h; cases h
    · rw [skipLoop, g1] at h
      cases e1 with
      | none =>
        simp only at h
        exact skipLoop_later todo w2 win (i + 1) (by rw [g3, g4]) (by omega) c e w1 h
      | some e2 =>
        obtain ⟨_, e6, _⟩ := windowStep_error w n1 e2 w2 g2
        subst e6
        simp only [show ¬ (i = 0) by omega, if_false, Outcome.ok.injEq, Prod.mk.injEq] at h
        exact h.2.1.symm

/-- On a well-formed reader the loop of `Skip` returns. -/
theorem skipLoop_returns :
    ∀ (todo : Nat) (w : WindowedReader) (discard : List Byte) (i : Nat), w.wellFormed →
      discard.length = w.windowSize → ∃ res, skipLoop w discard i todo = .ok res
  | 0, w, discard, i, _, _ => ⟨_, rfl⟩
  | todo + 1, w, discard, i, hw, hd => by
    obtain ⟨n, e, w1, h1, h2, h3⟩ := windowStep_wellFormed w hw
    rcases ReadWindow_cases w discard hd with
      ⟨_, g2⟩ | ⟨_, g2⟩ | ⟨n1, e1, win, w2, g1, g2, g3, g4⟩
    · rw [h1] at g2; cases g2
    · rw [h1] at g2; cases g2
    · rw [h1] at g2
      simp only [Outcome.ok.injEq, Prod.mk.injEq] at g2
      obtain ⟨g5, g6, g7⟩ := g2
      subst g5 g6 g7
      rw [skipLoop, g1]
      cases e with
      | none =>
        simp only
        exact skipLoop_returns todo w1 win (i + 1) h2 (by rw [g3, g4])
      | some e =>
        obtain ⟨_, e6, _⟩ := windowStep_error w n e w1 h1
        subst e6
        simp only
        split <;> exact ⟨_, rfl⟩

/-- C16: for every reader state and every `n`, `Skip(n)` returns count 0 with
end-of-stream exactly when `n ≥ 1` and a `ReadWindow` issued at the moment of
the call returns end-of-stream; it returns no other error; and on a reader with
a window size of at least 2 it does return. -/
theorem Skip_returns_EOF_iff_exhausted (w : WindowedReader) (n : Nat) :
    ((∃ w1, Skip w n = .ok (0, some .EOF, w1)) ↔
      (1 ≤ n ∧ ∃ k win w2,
        ReadWindow w (zeros w.windowSize) = .ok (k, some .EOF, win, w2))) ∧
    (∀ c e w1, Skip w n = .ok (c, some e, w1) → c = 0 ∧ e = .EOF) ∧
    (w.wellFormed → ∃ c e w1, Skip w n = .ok (c, e, w1)) := by
  have hz : (zeros w.windowSize).length = w.windowSize := by simp [zeros]
  cases n with
  | zero =>
    refine ⟨?_, ?_, fun _ => ⟨0, none, w, rfl⟩⟩
    · simp [Skip, skipLoop]
    · intro c e w1 h
      simp [Skip, skipLoop] at h
  | succ m =>
    rcases ReadWindow_cases w (zeros w.windowSize) hz with
      ⟨g1, g2⟩ | ⟨g1, g2⟩ | ⟨n2, e2, win, w2, g1, g2, g3, g4⟩
    · refine ⟨?_, ?_, ?_⟩
      · rw [Skip, skipLoop, g1]; simp
      · intro c e w1 h
        rw [Skip, skipLoop, g1] at h; cases h
      · intro hw
        obtain ⟨_, _, _, h1, _⟩ := windowStep_wellFormed w hw
        rw [h1] at g2; cases g2
    · refine ⟨?_, ?_, ?_⟩
      · rw [Skip, skipLoop, g1]; simp
      · intro c e w1 h
        rw [Skip, skipLoop, g1] at h; cases h
      · intro hw
        obtain ⟨_, _, _, h1, _⟩ := windowStep_wellFormed w hw
        rw [h1] at g2; cases g2
    · cases e2 with
      | none =>
        have hl := skipLoop_later m w2 win 1 (by rw [g3, g4]) (Nat.le_refl 1)
        refine ⟨?_, ?_, ?_⟩
        · rw [Skip, skipLoop, g1]
          simp only [Nat.zero_add]
          constructor
          · rintro ⟨w1, h⟩
            cases hl 0 (some .EOF) w1 h
          · rintro ⟨_, k, win1, w3, h⟩
            simp at h
        · intro c e w1 h
          rw [Skip, skipLoop, g1] at h
          cases hl c (some e) w1 h
        · intro hw
          obtain ⟨_, _, w3, h1, h2, _⟩ := windowStep_wellFormed w hw
          rw [g2] at h1
          simp only [Outcome.ok.injEq, Prod.mk.injEq] at h1
          obtain ⟨_, _, h5⟩ := h1
          subst h5
          obtain ⟨⟨c, e, w1⟩, h3⟩ := skipLoop_returns m w2 win 1 h2 (by rw [g3, g4])
          exact ⟨c, e, w1, by rw [Skip, skipLoop, g1]; exact h3⟩
      | some e =>
        obtain ⟨_, e6, _⟩ := windowStep_error w n2 e w2 g2
        subst e6
        have hs : Skip w (m + 1) = .ok (0, some .EOF, w2) := by
          rw [Skip, skipLoop, g1]; rfl
        refine ⟨?_, ?_, fun _ => ⟨_, _, _, hs⟩⟩
        · rw [hs, g1]
          exact ⟨fun _ => ⟨by omega, _, _, _, rfl⟩, fun _ => ⟨_, rfl⟩⟩
        · intro c e1 w1 h
          rw [hs] at h
          simp only [Outcome.ok.injEq, Prod.mk.injEq, Option.some.injEq] at h
          exact ⟨h.1.symm, h.2.1.symm⟩

/-- An instance of C16: a reader of window size 3 whose stream is exhausted
returns count 0 with end-of-stream from `Skip(4)`. -/
theorem Skip_returns_EOF_iff_exhausted_witness :
    (steady 3 [1, 2]).wellFormed ∧
    (∃ k win w2, ReadWindow (steady 3 [1, 2]) (zeros (steady 3 [1, 2]).windowSize)
        = .ok (k, some .EOF, win, w2)) ∧
    (∃ w1, Skip (steady 3 [1, 2]) 4 = .ok (0, some .EOF, w1)) ∧
    ∃ c e w1, Skip (steady 3 [1, 2]) 4 = .ok (c, e, w1) :=
  ⟨⟨by decide, by decide⟩, ⟨0, zeros 3, steady 3 [1, 2], by decide⟩,
    (Skip_returns_EOF_iff_exhausted (steady 3 [1, 2]) 4).1.2
      ⟨by decide, 0, zeros 3, steady 3 [1, 2], by decide⟩,
    (Skip_returns_EOF_iff_exhausted (steady 3 [1, 2]) 4).2.2 ⟨by decide, by decide⟩⟩

/-- C17, amended to non-empty streams: on a fresh reader over a stream of
length `L` with `1 ≤ L < W`, the first `ReadWindow` returns count `L` with no
error and the stream in the first `L` bytes of the buffer, and from then on
every `ReadWindow` returns count 0 with end-of-stream and leaves buffer and
reader as they are. -/
theorem ReadWindow_short_stream (W : Nat) (s buf : List Byte) (h1 : 1 ≤ s.length)
    (h2 : s.length < W) (hb : buf.length = W) :
    ∃ win w1, ReadWindow (NewReader s W) buf = .ok (s.length, none, win, w1) ∧
      win.take s.length = s ∧ win.length = W ∧
      ∀ buf2 : List Byte, buf2.length = W →
        ReadWindow w1 buf2 = .ok (0, some .EOF, buf2, w1) := by
  have htake : (copy buf s).take s.length = s := by
    simp only [copy]
    rw [List.take_of_length_le (by omega : s.length ≤ buf.length),
      List.take_left' rfl]
  have hlen : (copy buf s).length = W := by rw [length_copy, hb]
  have hdrop : s.drop (W - 1) = [] := List.drop_of_length_le (by omega)
  have htk : s.take (W - 1) = s := List.take_of_length_le (by omega)
  cases s with
  | nil => simp at h1
  | cons a t =>
    simp only [ReadWindow, NewReader, hb, ne_eq, not_true_eq_false, if_false,
      show ¬ (W = 0) by omega, hdrop, htk]
    split
    · refine ⟨_, _, rfl, htake, hlen, ?_⟩
      intro buf2 hb2
      simp [hb2, show ¬ (W = 0) by omega]
    · simp only [readNext, if_true]
      refine ⟨_, _, rfl, htake, hlen, ?_⟩
      intro buf2 hb2
      simp [hb2]

/-- An instance of C17 as amended: the stream "01" read with a window of 5. -/
theorem ReadWindow_short_stream_witness :
    ∃ win w1, ReadWindow (NewReader [0x30, 0x31] 5) (zeros 5)
        = .ok ([0x30, 0x31].length, none, win, w1) ∧
      win.take [0x30, 0x31].length = [0x30, 0x31] ∧ win.length = 5 ∧
      ∀ buf2 : List Byte, buf2.length = 5 →
        ReadWindow w1 buf2 = .ok (0, some .EOF, buf2, w1) :=
  ReadWindow_short_stream 5 [0x30, 0x31] (zeros 5) (by decide) (by decide) (by decide)

/-- C18: with a buffer whose length is not the window size, `ReadWindow` returns
count 0 and an error that is not end-of-stream, and leaves the buffer and the
reader (the underlying stream included) as they are, so that the next call
returns what it would have returned without the failed call. -/
theorem ReadWindow_rejects_wrong_size (w : WindowedReader) (window : List Byte)
    (h : window.length ≠ w.windowSize) :
    ∃ e w1, e ≠ GoError.EOF ∧ ReadWindow w window = .ok (0, some e, window, w1) ∧
      w1.r = w.r ∧ w1 = w ∧ ∀ buf : List Byte, ReadWindow w1 buf = ReadWindow w buf := by
  refine ⟨.windowIncorrectLength, w, by decide, ?_, rfl, rfl, fun _ => rfl⟩
  simp [ReadWindow, h]

/-- An instance of C18: a buffer of 2 bytes offered to a reader of window size 3. -/
theorem ReadWindow_rejects_wrong_size_witness :
    ∃ e w1, e ≠ GoError.EOF ∧
      ReadWindow (NewReader [1, 2, 3, 4] 3) [0, 0] = .ok (0, some e, [0, 0], w1) ∧
      w1.r = (NewReader [1, 2, 3, 4] 3).r ∧ w1 = NewReader [1, 2, 3, 4] 3 ∧
      ∀ buf : List Byte, ReadWindow w1 buf = ReadWindow (NewReader [1, 2, 3, 4] 3) buf :=
  ReadWindow_rejects_wrong_size (NewReader [1, 2, 3, 4] 3) [0, 0] (by decide)

/-- The first byte of a stream that a magic without a leading wildcard
matches. -/
theorem magicMatches_head (m : Byte) (magic s : List Byte) (hm : m ≠ 0x3F)
    (h : magicMatches (m :: magic) s) : s[0]? = some m := by
  have h0 := h.2 0 (by simp)
  simp only [List.getElem?_cons_zero, Option.some.injEq] at h0
  rcases h0 with h0 | h0
  · exact absurd h0 hm
  · exact h0.symm

/-- Whether a magic matches depends only on as many leading bytes of the
stream as the magic has. -/
theorem magicMatches_take (magic s t : List Byte) (h : magicMatches magic s) :
    magicMatches magic (s.take magic.length ++ t) := by
  obtain ⟨h1, h2⟩ := h
  refine ⟨by simp [List.length_take]; omega, fun i hi => ?_⟩
  rcases h2 i hi with h3 | h3
  · exact Or.inl h3
  · right
    rw [h3, List.getElem?_append_left (by simp [List.length_take]; omega),
      List.getElem?_take_of_lt hi]

/-- No stream matches two of the built-in magics. -/
theorem builtin_magic_unique (a b s : List Byte)
    (ha : a = gif.magic ∨ a = png.pngHeader ∨ a = webp.magic)
    (hb : b = gif.magic ∨ b = png.pngHeader ∨ b = webp.magic)
    (h1 : magicMatches a s) (h2 : magicMatches b s) : a = b := by
  rcases ha with ha | ha | ha <;> rcases hb with hb | hb | hb <;> subst ha <;> subst hb <;>
    first
    | rfl
    | (exfalso
       have e1 := magicMatches_head _ _ s (by decide) h1
       have e2 := magicMatches_head _ _ s (by decide) h2
       rw [e1] at e2
       revert e2
       decide)

/-- C21: the built-in magics identify their format uniquely and independently
of the payload. No stream matches the magics of two of the formats `gif`
(`GIF8?a`), `png` (the 8-byte signature) and `webp` (`RIFF????WEBPVP8`); with
these three registered in any order, `sniff` returns the format `f` on every
stream that begins with bytes matching the magic of `f`, hence the same format on
any two such streams; and whether a stream matches depends only on its first
bytes, as many as the magic has. -/
theorem builtin_magics_identify_format (g p w : format) (calls : List format)
    (hb : builtin g p w) (hperm : calls.Perm [g, p, w]) :
    (∀ s : List Byte, ¬ (magicMatches g.magic s ∧ magicMatches p.magic s) ∧
      ¬ (magicMatches g.magic s ∧ magicMatches w.magic s) ∧
      ¬ (magicMatches p.magic s ∧ magicMatches w.magic s)) ∧
    (∀ f ∈ [g, p, w], ∀ s1 s2 : List Byte, magicMatches f.magic s1 → magicMatches f.magic s2 →
      (sniff (registered calls) (asReader s1)).1 = f ∧
      (sniff (registered calls) (asReader s2)).1 = f) ∧
    (∀ f ∈ [g, p, w], ∀ s t : List Byte, magicMatches f.magic s →
      magicMatches f.magic (s.take f.magic.length ++ t)) := by
  obtain ⟨⟨_, hg⟩, ⟨_, hp⟩, ⟨_, hw⟩⟩ := hb
  have hmag : ∀ f ∈ [g, p, w],
      f.magic = gif.magic ∨ f.magic = png.pngHeader ∨ f.magic = webp.magic := by
    intro f hf
    simp only [List.mem_cons, List.mem_singleton, List.not_mem_nil, or_false] at hf
    rcases hf with rfl | rfl | rfl
    · exact Or.inl hg
    · exact Or.inr (Or.inl hp)
    · exact Or.inr (Or.inr hw)
  have hgp : g.magic ≠ p.magic := by rw [hg, hp]; decide
  have hgw : g.magic ≠ w.magic := by rw [hg, hw]; decide
  have hpw : p.magic ≠ w.magic := by rw [hp, hw]; decide
  -- formats of the registry with the same magic are the same format
  have hinj : ∀ a ∈ [g, p, w], ∀ b ∈ [g, p, w], a.magic = b.magic → a = b := by
    intro a ha b hb' hab
    simp only [List.mem_cons, List.mem_singleton, List.not_mem_nil, or_false] at ha hb'
    rcases ha with rfl | rfl | rfl <;> rcases hb' with rfl | rfl | rfl <;>
      first
      | rfl
      | exact absurd hab hgp
      | exact absurd hab.symm hgp
      | exact absurd hab hgw
      | exact absurd hab.symm hgw
      | exact absurd hab hpw
      | exact absurd hab.symm hpw
  have hnd : calls.Nodup := by
    rw [hperm.nodup_iff]
    have h1 : g ≠ p := fun h => hgp (by rw [h])
    have h2 : g ≠ w := fun h => hgw (by rw [h])
    have h3 : p ≠ w := fun h => hpw (by rw [h])
    simp [h1, h2, h3]
  have hsniff : ∀ f ∈ [g, p, w], ∀ s : List Byte, magicMatches f.magic s →
      (sniff (registered calls) (asReader s)).1 = f := by
    intro f hf s hs
    have hfc : f ∈ calls := hperm.mem_iff.mpr hf
    obtain ⟨pre, post, hsplit⟩ := List.append_of_mem hfc
    have hnp : f ∉ pre := by
      rw [hsplit] at hnd
      have := (List.nodup_append.mp hnd).2.2
      intro hfp
      exact this hfp (List.mem_cons_self _ _)
    rw [registered_eq, hsplit]
    apply sniff_first pre f post (asReader s) (by simp [asReader])
    · intro k hk hks
      have hkc : k ∈ [g, p, w] := hperm.mem_iff.mp (by rw [hsplit]; simp [hk])
      have e := builtin_magic_unique k.magic f.magic s (hmag k hkc) (hmag f hf)
        (by simpa [reader.stream, asReader] using hks.2) hs
      exact hnp (hinj k hkc f hf e ▸ hk)
    · rcases hmag f hf with e | e | e <;> rw [e] <;> decide
    · simpa [reader.stream, asReader] using hs
  refine ⟨fun s => ⟨?_, ?_, ?_⟩, fun f hf s1 s2 h1 h2 => ⟨hsniff f hf s1 h1, hsniff f hf s2 h2⟩,
    fun f _ s t hs => magicMatches_take f.magic s t hs⟩
  · intro h
    exact hgp (builtin_magic_unique _ _ s (hmag g (by simp)) (hmag p (by simp)) h.1 h.2)
  · intro h
    exact hgw (builtin_magic_unique _ _ s (hmag g (by simp)) (hmag w (by simp)) h.1 h.2)
  · intro h
    exact hpw (builtin_magic_unique _ _ s (hmag p (by simp)) (hmag w (by simp)) h.1 h.2)

/-- An instance of C21: `png` registered first, then `webp`, then `gif`; two
streams that start like a WEBP file but go on differently. -/
theorem builtin_magics_identify_format_witness :
    builtin exampleGif examplePng exampleWebp ∧
    (magicMatches exampleWebp.magic exampleStream ∧
      magicMatches exampleWebp.magic (exampleStream.take 15 ++ [1, 2, 3])) ∧
    (sniff (registered [examplePng, exampleWebp, exampleGif]) (asReader exampleStream)).1
      = exampleWebp ∧
    (sniff (registered [examplePng, exampleWebp, exampleGif])
      (asReader (exampleStream.take 15 ++ [1, 2, 3]))).1 = exampleWebp :=
  ⟨⟨⟨rfl, rfl⟩, ⟨rfl, rfl⟩, ⟨rfl, rfl⟩⟩, by decide,
    (builtin_magics_identify_format exampleGif examplePng exampleWebp
      [examplePng, exampleWebp, exampleGif] ⟨⟨rfl, rfl⟩, ⟨rfl, rfl⟩, ⟨rfl, rfl⟩⟩
      ((List.Perm.cons examplePng (List.Perm.swap exampleGif exampleWebp [])).trans
        (List.Perm.swap exampleGif examplePng [exampleWebp]))).2.1 exampleWebp
      (by simp) exampleStream (exampleStream.take 15 ++ [1, 2, 3]) (by decide) (by decide)⟩

namespace webp

/-- The `Next` call at the end of the list: the padding byte of the last chunk
is consumed and end-of-stream is returned. -/
theorem Next_eof (z : riff.Reader) (he : z.err = none) (hc : z.chunkLen = 0)
    (hr : z.pending ≤ z.r.length) (ht : z.totalLen = z.pending) :
    (z.Next).1 = ([], 0, some .EOF) := by
  obtain ⟨r, err, T, c, p⟩ := z
  simp only [riff.Reader.pending] at he hc hr ht
  subst he hc
  cases p with
  | false =>
    simp only [Bool.false_eq_true, if_false, Nat.add_zero] at ht
    subst ht
    simp [riff.Reader.Next, riff.Reader.skipPadding, riff.Reader.nextHeader]
  | true =>
    simp only [if_true, Nat.zero_add] at ht hr
    subst ht
    cases r with
    | nil => simp at hr
    | cons a t =>
      simp [riff.Reader.Next, riff.Reader.skipPadding, riff.Reader.nextHeader, readFull]

/-- One iteration of the loop of `readANMFBitstream` on a complete `ALPH`,
`VP8 ` or `VP8L` subchunk that lies within the list. -/
theorem bitstreamLoop_step (fuel : Nat) (z : riff.Reader) (bs : List Byte) (ha : Bool)
    (c : RiffChunk) (w : List Byte) (hz : z.sound)
    (hr : z.r.drop z.pending = c.bytes ++ w) (hc : c.complete)
    (hid : c.id = fccALPH ∨ c.id = fccVP8 ∨ c.id = fccVP8L)
    (hb : c.bytes.length ≤ z.totalLen - z.pending) :
    ∃ z' : riff.Reader, z'.sound ∧ z'.chunkLen = 0 ∧ z'.pending ≤ z'.r.length ∧
      z'.r.drop z'.pending = w ∧ z'.pending ≤ z'.totalLen ∧
      z'.totalLen - z'.pending = z.totalLen - z.pending - c.bytes.length ∧
      bitstreamLoop (fuel + 1) z bs ha
        = bitstreamLoop fuel z' (bs ++ reserialised c) (ha || decide (c.id = fccALPH)) := by
  obtain ⟨h1, h2, h3, h4⟩ := hc
  have hr' : z.r.drop z.pending = c.id ++ c.len ++ (c.data ++ c.pad ++ w) := by
    rw [hr]; simp [RiffChunk.bytes]
  have hbytes : c.bytes.length = 8 + littleEndianUint32 c.len + c.pad.length := by
    simp [RiffChunk.bytes, h1, h2, h3]; omega
  have hn := Next_header_spec z hz c.id c.len _ h1 h2 hr'
  rw [if_pos ⟨by omega, by omega⟩] at hn
  have hpad : c.pad.length = if decide (littleEndianUint32 c.len % 2 = 1) = true then 1 else 0 := by
    rw [h4]
    by_cases ho : littleEndianUint32 c.len % 2 = 1
    · simp [ho]
    · simp [ho]; omega
  have hT := hz.2.2
  have hL : littleEndianUint32 c.len ≤ z.totalLen - (z.pending + 8) := by omega
  have hcopy : riff.Reader.copyAll
      { r := c.data ++ c.pad ++ w, err := none, totalLen := z.totalLen - (z.pending + 8),
        chunkLen := littleEndianUint32 c.len,
        padded := decide (littleEndianUint32 c.len % 2 = 1) }
      = (c.data, riff.Reader.mk (c.pad ++ w) none
          (z.totalLen - (z.pending + 8) - littleEndianUint32 c.len) 0
          (decide (littleEndianUint32 c.len % 2 = 1))) := by
    have e1 : (c.data ++ c.pad ++ w).take (littleEndianUint32 c.len) = c.data := by
      rw [List.append_assoc]; exact List.take_left' h3
    have e2 : (c.data ++ c.pad ++ w).drop (littleEndianUint32 c.len) = c.pad ++ w := by
      rw [List.append_assoc]; exact List.drop_left' h3
    simp only [riff.Reader.copyAll, e1, e2, h3,
      u32sub_of_le _ _ hL (by omega), u32sub_of_le _ _ (Nat.le_refl _) (littleEndianUint32_lt c.len),
      Nat.sub_self]
  refine ⟨riff.Reader.mk (c.pad ++ w) none
      (z.totalLen - (z.pending + 8) - littleEndianUint32 c.len) 0
      (decide (littleEndianUint32 c.len % 2 = 1)), ⟨rfl, Nat.zero_le _, by simp only; omega⟩,
    rfl, ?_, ?_, ?_, ?_, ?_⟩
  · simp only [riff.Reader.pending, ← hpad, List.length_append]; omega
  · simp only [riff.Reader.pending, ← hpad, Nat.zero_add]
    exact List.drop_left _ _
  · show 0 + (if decide (littleEndianUint32 c.len % 2 = 1) = true then 1 else 0)
      ≤ z.totalLen - (z.pending + 8) - littleEndianUint32 c.len
    rw [← hpad]; omega
  · show z.totalLen - (z.pending + 8) - littleEndianUint32 c.len
        - (0 + if decide (littleEndianUint32 c.len % 2 = 1) = true then 1 else 0)
      = z.totalLen - z.pending - c.bytes.length
    rw [← hpad, hbytes]; omega
  · rw [bitstreamLoop, hn]
    simp only [hid, if_true]
    rw [hcopy]
    simp only [reserialised, List.append_assoc]

/-- The walk of `readANMFBitstream` over complete `ALPH`, `VP8 ` and `VP8L`
subchunks that lie within the list. -/
theorem bitstreamLoop_walk (tail : List Byte) (need : Nat) :
    ∀ (cs : List RiffChunk) (fuel : Nat) (z : riff.Reader) (bs : List Byte) (ha : Bool),
      z.sound → z.chunkLen = 0 → z.pending ≤ z.r.length →
      z.r.drop z.pending = riffBytes cs ++ tail → z.pending ≤ z.totalLen →
      (∀ c ∈ cs, c.complete ∧ (c.id = fccALPH ∨ c.id = fccVP8 ∨ c.id = fccVP8L)) →
      (riffBytes cs).length + need ≤ z.totalLen - z.pending → cs.length < fuel →
      ∃ (fuel1 : Nat) (z1 : riff.Reader), z1.sound ∧ z1.chunkLen = 0 ∧
        z1.pending ≤ z1.r.length ∧ z1.r.drop z1.pending = tail ∧ z1.pending ≤ z1.totalLen ∧
        z1.totalLen - z1.pending = z.totalLen - z.pending - (riffBytes cs).length ∧
        bitstreamLoop fuel z bs ha = bitstreamLoop (fuel1 + 1) z1
          (bs ++ (cs.map reserialised).flatten)
          (ha || cs.any (fun c => decide (c.id = fccALPH)))
  | _, 0, _, _, _, _, _, _, _, _, _, _, hf => by simp at hf
  | [], fuel + 1, z, bs, ha, hz, hc0, hpr, hr, hpt, _, _, _ => by
    simp only [riffBytes, List.map_nil, List.flatten_nil, List.nil_append] at hr
    exact ⟨fuel, z, hz, hc0, hpr, hr, hpt, by simp [riffBytes], by simp⟩
  | c :: cs, fuel + 1, z, bs, ha, hz, _, _, hr, _, hcs, hn, hf => by
    obtain ⟨hc, hid⟩ := hcs c (List.mem_cons_self _ _)
    rw [riffBytes_cons, List.append_assoc] at hr
    rw [riffBytes_cons, List.length_append] at hn
    obtain ⟨z', s', c', p', r', t', b', h'⟩ :=
      bitstreamLoop_step fuel z bs ha c _ hz hr hc hid (by omega)
    obtain ⟨fuel1, z1, s1, c1, p1, r1, t1, b1, h1⟩ :=
      bitstreamLoop_walk tail need cs fuel z' (bs ++ reserialised c)
        (ha || decide (c.id = fccALPH)) s' c' p' r' t'
        (fun d hd => hcs d (List.mem_cons_of_mem _ hd)) (by omega)
        (by simp only [List.length_cons] at hf; omega)
    refine ⟨fuel1, z1, s1, c1, p1, r1, t1, ?_, ?_⟩
    · rw [b1, b', riffBytes_cons, List.length_append]; omega
    · rw [h', h1]
      simp [List.append_assoc, Bool.or_assoc]

/-- What `readANMFBitstream` starts its loop with. -/
theorem readANMFBitstream_start (n : Nat) (data : List Byte) (hn : n + 4 < 4294967296) :
    readANMFBitstream n data
      = bitstreamLoop (data.length + 1) (riff.Reader.fresh data n) [] false := by
  have h := riff.NewListReader_spec (u32add n 4) (fccANMF ++ data)
  have e : u32add n 4 = n + 4 := by
    simp only [u32add]; omega
  rw [e, if_pos ⟨by omega, by simp [fccANMF]⟩] at h
  have e1 : (fccANMF ++ data).drop 4 = data := List.drop_left' rfl
  rw [e1, Nat.add_sub_cancel] at h
  rw [readANMFBitstream, e, h]

/-- C22: the first-frame bitstream is the re-serialised subchunks of the frame.
For every frame payload that, after its 16-byte prologue, consists of complete
`ALPH`, `VP8 ` and `VP8L` subchunks (in particular an optional `ALPH` subchunk
followed by one `VP8 ` or `VP8L` subchunk) and has the length that
`readANMFBitstream` is given, the function returns no error, the concatenation
in order of each subchunk's tag, its length as a little-endian `uint32`, its
payload and one zero byte when that length is odd, and a has-alpha flag that is
true exactly when an `ALPH` subchunk is present. When such subchunks are followed,
within the given length, by the header of a subchunk with any other tag, the
function returns the malformed-image error. -/
theorem readANMFBitstream_reserialises (cs : List RiffChunk)
    (hcs : ∀ c ∈ cs, c.complete ∧ (c.id = fccALPH ∨ c.id = fccVP8 ∨ c.id = fccVP8L)) :
    ((riffBytes cs).length + 4 < 4294967296 →
      readANMFBitstream (riffBytes cs).length (riffBytes cs)
        = .ok ((cs.map reserialised).flatten, cs.any (fun c => decide (c.id = fccALPH)), none)) ∧
    (∀ (n : Nat) (id len rest : List Byte), n + 4 < 4294967296 → id.length = 4 →
      len.length = 4 → id ≠ fccALPH ∧ id ≠ fccVP8 ∧ id ≠ fccVP8L →
      (riffBytes cs).length + (8 + littleEndianUint32 len) ≤ n →
      readANMFBitstream n (riffBytes cs ++ id ++ len ++ rest)
        = .ok ([], false, some .errMalformedImage)) := by
  have hlen := length_le_riffBytes cs (fun c hc => (hcs c hc).1)
  constructor
  · intro hn
    rw [readANMFBitstream_start _ _ hn]
    obtain ⟨fuel1, z1, s1, c1, p1, _, t1, b1, h1⟩ :=
      bitstreamLoop_walk [] 0 cs ((riffBytes cs).length + 1)
        (riff.Reader.fresh (riffBytes cs) (riffBytes cs).length) [] false
        (fresh_sound _ _ (by omega)) rfl (by simp [riff.Reader.fresh, riff.Reader.pending])
        (by simp [riff.Reader.fresh, riff.Reader.pending])
        (by simp [riff.Reader.fresh, riff.Reader.pending]) hcs
        (by simp [riff.Reader.fresh, riff.Reader.pending]) (by omega)
    have ht : z1.totalLen = z1.pending := by
      simp only [riff.Reader.fresh, riff.Reader.pending, Bool.false_eq_true, if_false,
        Nat.add_zero, Nat.sub_zero, Nat.sub_self] at b1
      simp only [riff.Reader.pending] at t1 ⊢
      omega
    have hz' := Next_eof z1 s1.1 c1 p1 ht
    obtain ⟨⟨q1, q2⟩, hq⟩ : ∃ q, z1.Next = q := ⟨_, rfl⟩
    rw [hq] at hz'
    simp only at hz'
    subst hz'
    rw [h1, bitstreamLoop, hq]
    simp
  · intro n id len rest hn hi hl hid hfit
    rw [readANMFBitstream_start _ _ hn]
    have e : riffBytes cs ++ id ++ len ++ rest = riffBytes cs ++ (id ++ len ++ rest) := by simp
    rw [e]
    obtain ⟨fuel1, z1, s1, _, _, r1, _, b1, h1⟩ :=
      bitstreamLoop_walk (id ++ len ++ rest) (8 + littleEndianUint32 len) cs
        ((riffBytes cs ++ (id ++ len ++ rest)).length + 1)
        (riff.Reader.fresh (riffBytes cs ++ (id ++ len ++ rest)) n) [] false
        (fresh_sound _ _ (by omega)) rfl (by simp [riff.Reader.fresh, riff.Reader.pending])
        (by simp [riff.Reader.fresh, riff.Reader.pending])
        (by simp [riff.Reader.fresh, riff.Reader.pending]) hcs
        (by simp [riff.Reader.fresh, riff.Reader.pending]; omega)
        (by simp only [List.length_append]; omega)
    have hb : 8 + littleEndianUint32 len ≤ z1.totalLen - z1.pending := by
      rw [b1]
      simp only [riff.Reader.fresh, riff.Reader.pending, Bool.false_eq_true, if_false,
        Nat.add_zero, Nat.sub_zero]
      omega
    have hnx := Next_header_spec z1 s1 id len rest hi hl r1
    rw [if_pos ⟨by omega, by omega⟩] at hnx
    rw [h1, bitstreamLoop, hnx]
    simp [hid.1, hid.2.1, hid.2.2]

/-- An instance of C22: an `ALPH` subchunk of odd length, whose padding byte
`0xFF` comes out as `0x00`, followed by a `VP8L` subchunk. -/
theorem readANMFBitstream_reserialises_witness :
    (∀ c ∈ [exampleALPH, exampleVP8L],
      c.complete ∧ (c.id = fccALPH ∨ c.id = fccVP8 ∨ c.id = fccVP8L)) ∧
    readANMFBitstream (riffBytes [exampleALPH, exampleVP8L]).length
        (riffBytes [exampleALPH, exampleVP8L])
      = .ok (fccALPH ++ [3, 0, 0, 0] ++ [7, 8, 9] ++ [0] ++ (fccVP8L ++ [4, 0, 0, 0] ++ [1, 2, 3, 4]),
          true, none) :=
  ⟨by decide,
    ((readANMFBitstream_reserialises [exampleALPH, exampleVP8L] (by decide)).1
      (by decide)).trans (by decide)⟩

end webp

namespace gif

/-- The pattern occurs in a prefix where it occurs in the stream and lies within
the prefix. -/
theorem occursAt_take (s : List Byte) (n i : Nat) :
    occursAt (s.take n) i ↔ i + 3 ≤ n ∧ occursAt s i := by
  unfold occursAt
  rw [List.drop_take, List.take_take]
  by_cases h : i + 3 ≤ n
  · rw [Nat.min_eq_left (by omega)]
    simp [h]
  · constructor
    · intro e
      have := congrArg List.length e
      simp [gce] at this
      omega
    · intro e
      exact absurd e.1 h

theorem countPat_take_succ (b : Byte) (t : List Byte) (k : Nat) :
    countPat ((b :: t).take (k + 3))
      = (if (b :: t).take 3 = gce then 1 else 0) + countPat (t.take (k + 2)) := by
  rw [List.take_succ_cons, countPat_cons]
  congr 2
  rw [← List.take_succ_cons, List.take_take, Nat.min_eq_left (by omega)]

/-- The loop on a reader in its steady state returns `true` at the window that
holds the occurrence which brings the count to 2, and leaves the reader right
after that window. -/
theorem isAnimatedLoop_second : ∀ (k : Nat) (v : List Byte) (fuel : Nat) (data : List Byte)
    (count : Nat), data.length = 3 → v.length < fuel → occursAt v k →
    count + countPat (v.take (k + 2)) = 1 →
    isAnimatedLoop fuel (steady 3 v) data count = .ok (true, none, steady 3 (v.drop (k + 1)))
  | 0, v, fuel, data, count, hd, hf, hk, hc => by
    obtain ⟨fuel, rfl⟩ : ∃ n, fuel = n + 1 := ⟨fuel - 1, by omega⟩
    have hp : v.take 3 = gce := (occursAt_zero v).mp hk
    have hlen : 3 ≤ v.length := by
      have := congrArg List.length hp
      simp [gce] at this
      omega
    have h0 : countPat (v.take 2) = 0 := countPat_short _ (by rw [List.length_take]; omega)
    rw [isAnimatedLoop_step fuel _ data v count hlen (ReadWindow_steady 3 v data (by omega) hlen hd)]
    rw [if_pos hp, if_pos (by simp only [Nat.zero_add] at hc; omega)]
    simp
  | k + 1, [], fuel, data, count, hd, hf, hk, hc => by
    simp [occursAt, gce] at hk
  | k + 1, b :: t, fuel, data, count, hd, hf, hk, hc => by
    obtain ⟨fuel, rfl⟩ : ∃ n, fuel = n + 1 := ⟨fuel - 1, by omega⟩
    have hk' : occursAt t k := (occursAt_succ b t k).mp hk
    have hlen : 3 ≤ (b :: t).length := by
      have := congrArg List.length hk'
      simp [gce] at this
      simp
      omega
    rw [show k + 1 + 2 = k + 3 by omega, countPat_take_succ] at hc
    rw [isAnimatedLoop_step fuel _ data (b :: t) count hlen
      (ReadWindow_steady 3 (b :: t) data (by omega) hlen hd)]
    rw [if_neg (by omega), List.tail_cons]
    rw [isAnimatedLoop_second k t fuel _ _ (by rw [List.length_take]; omega)
      (by simp only [List.length_cons] at hf; omega) hk' (by omega)]
    simp

/-- There is exactly one occurrence before offset `k` when the prefix that ends
before the last byte of the window at `k` holds exactly one. -/
theorem countPat_take_eq_one (s : List Byte) (k : Nat)
    (h : ∃ j, j < k ∧ occursAt s j ∧ ∀ i, i < k → occursAt s i → i = j) :
    countPat (s.take (k + 2)) = 1 := by
  obtain ⟨j, hj, hoj, huniq⟩ := h
  have h1 : 1 ≤ countPat (s.take (k + 2)) :=
    (countPat_pos_iff _).mpr ⟨j, (occursAt_take s (k + 2) j).mpr ⟨by omega, hoj⟩⟩
  have h2 : ¬ 2 ≤ countPat (s.take (k + 2)) := by
    rw [countPat_two_iff]
    rintro ⟨a, b, hab, ha, hb⟩
    obtain ⟨ha1, ha2⟩ := (occursAt_take s (k + 2) a).mp ha
    obtain ⟨hb1, hb2⟩ := (occursAt_take s (k + 2) b).mp hb
    have := huniq a (by omega) ha2
    have := huniq b (by omega) hb2
    omega
  omega

/-- C23: `gif.IsAnimated` stops reading at the second match. For every stream
whose first `k + 3` bytes `p` hold the pattern `0x00, 0x21, 0xF9` at offset `k` and
at exactly one offset before `k`, whatever bytes `rest` follow, the call of
`gif.IsAnimated` returns `(true, nil)` and leaves the reader it was given with
exactly `rest`: `k + 3` bytes have been consumed, and no byte of `rest` plays a
part. -/
theorem IsAnimated_stops_at_second_match (p : List Byte) (k : Nat) (hp : p.length = k + 3)
    (hk : occursAt p k)
    (h1 : ∃ j, j < k ∧ occursAt p j ∧ ∀ i, i < k → occursAt p i → i = j) (rest : List Byte) :
    ∃ wr, IsAnimatedRun (p ++ rest) = .ok (true, none, wr) ∧ wr.r = rest ∧
      (p ++ rest).length - wr.r.length = k + 3 ∧ IsAnimated (p ++ rest) = .ok (true, none) := by
  have hcount := countPat_take_eq_one p k h1
  obtain ⟨j, hj, _, _⟩ := h1
  obtain ⟨k, rfl⟩ : ∃ n, k = n + 1 := ⟨k - 1, by omega⟩
  have key : IsAnimatedRun (p ++ rest)
      = .ok (true, none, steady 3 ((p ++ rest).drop (k + 2))) := by
    cases p with
    | nil => simp at hp
    | cons b t =>
      have hlen : 3 ≤ (b :: t ++ rest).length := by simp at hp ⊢; omega
      have hk' : occursAt (t ++ rest) k := by
        have := (occursAt_succ b t k).mp hk
        unfold occursAt at this ⊢
        rw [List.drop_append_of_le_length (by simp at hp; omega),
          List.take_append_of_le_length (by simp at hp ⊢; omega)]
        exact this
      rw [show k + 1 + 2 = k + 3 by omega, countPat_take_succ] at hcount
      have e3 : (b :: t ++ rest).take 3 = (b :: t).take 3 := by
        rw [List.take_append_of_le_length (by simp at hp ⊢; omega)]
      have e2 : (t ++ rest).take (k + 2) = t.take (k + 2) := by
        rw [List.take_append_of_le_length (by simp at hp; omega)]
      rw [IsAnimatedRun, isAnimatedLoop_step _ _ (zeros 3) (b :: t ++ rest) 0 hlen
        (ReadWindow_fresh 3 _ _ (by omega) hlen (by simp [zeros])), e3]
      rw [if_neg (by omega)]
      simp only [List.cons_append, List.tail_cons]
      rw [isAnimatedLoop_second k (t ++ rest) _ _ _
        (by rw [List.length_take]; simp only [List.length_cons] at hp ⊢; omega) (by simp) hk'
        (by rw [e2]; omega)]
      simp
  refine ⟨_, key, ?_, ?_, ?_⟩
  · simp only [steady, List.drop_drop]
    rw [show k + 2 + (3 - 1) = p.length by omega]
    exact List.drop_left _ _
  · simp only [steady, List.drop_drop, List.length_drop, List.length_append]
    omega
  · rw [IsAnimated, key]
    rfl

/-- An instance of C23: occurrences at offsets 1 and 4, so seven bytes are
consumed and the two bytes that follow are left in the reader. -/
theorem IsAnimated_stops_at_second_match_witness :
    (occursAt [7, 0x00, 0x21, 0xF9, 0x00, 0x21, 0xF9] 4 ∧
      occursAt [7, 0x00, 0x21, 0xF9, 0x00, 0x21, 0xF9] 1) ∧
    ∃ wr, IsAnimatedRun ([7, 0x00, 0x21, 0xF9, 0x00, 0x21, 0xF9] ++ [3, 4])
        = .ok (true, none, wr) ∧ wr.r = [3, 4] ∧
      ([7, 0x00, 0x21, 0xF9, 0x00, 0x21, 0xF9] ++ [3, 4]).length - wr.r.length = 4 + 3 ∧
      IsAnimated ([7, 0x00, 0x21, 0xF9, 0x00, 0x21, 0xF9] ++ [3, 4]) = .ok (true, none) :=
  ⟨by decide,
    IsAnimated_stops_at_second_match [7, 0x00, 0x21, 0xF9, 0x00, 0x21, 0xF9] 4 rfl (by decide)
      ⟨1, by decide, by decide, by decide⟩ [3, 4]⟩

end gif

namespace png

/-- C24: the terminator that `png.RenderFirstFrame` writes is a valid `IEND`
chunk: `iendChunk` has 12 bytes, its first four bytes encode the length 0, its
next four bytes are the type `IEND`, and its last four bytes are the big-endian
CRC-32 of the type bytes `IEND` followed by the empty payload, `0xAE426082`; and
a successful call ends its output with these 12 bytes. -/
theorem iendChunk_is_valid_IEND :
    iendChunk.length = 12 ∧ bigEndianUint32 (iendChunk.take 4) = 0 ∧
    (iendChunk.drop 4).take 4 = iend ∧
    bigEndianUint32 (iendChunk.drop 8) = specCRC32 (iend ++ []) ∧
    specCRC32 (iend ++ []) = 0xAE426082 ∧
    ∀ dst : List Byte, renderFinish true dst = (none, dst ++ iendChunk) := by
  refine ⟨by decide, by decide, by decide, by decide, by decide, fun dst => rfl⟩

end png

theorem copyN_ok (dst src : List Byte) (n : Nat) (x y : List Byte)
    (h : copyN dst src n = (x, y, none)) :
    x = dst ++ src.take n ∧ y = src.drop n ∧ n ≤ src.length := by
  simp only [copyN, Prod.mk.injEq] at h
  obtain ⟨h1, h2, h3⟩ := h
  refine ⟨h1.symm, h2.symm, ?_⟩
  split at h3
  · simp at h3
  · omega

namespace png

/-- The chunk that an iteration of the loop of `RenderFirstFrame` copies: the
header buffer and the `n + 4` bytes that follow, `n` being the length in the
header. -/
theorem chunk_of_header (hdr src : List Byte) (hh : hdr.length = 8)
    (hs : bigEndianUint32 (hdr.take 4) + 4 ≤ src.length) :
    ∃ c : Chunk, c.complete ∧ c.typ = hdr.drop 4 ∧
      c.bytes = hdr ++ src.take (bigEndianUint32 (hdr.take 4) + 4) := by
  refine ⟨⟨hdr.take 4, hdr.drop 4, src.take (bigEndianUint32 (hdr.take 4)),
    (src.drop (bigEndianUint32 (hdr.take 4))).take 4⟩, ⟨?_, ?_, ?_, ?_⟩, rfl, ?_⟩
  · simp [hh]
  · simp [hh]
  · simp only [List.length_take]; omega
  · simp only [List.length_take, List.length_drop]; omega
  · simp only [Chunk.bytes, List.take_append_drop, List.append_assoc, List.take_add]

/-- A successful run of the loop of `png.RenderFirstFrame` has written complete
chunks, each with an upper-case second type letter, and then `iendChunk`; an
`IDAT` chunk is among them unless one had been seen before. -/
theorem renderLoop_success : ∀ (fuel : Nat) (src dst hdr : List Byte) (saw : Bool)
    (out : List Byte), hdr.length = 8 →
    renderLoop fuel src dst hdr saw = .ok (none, out) →
    ∃ cs : List Chunk, (∀ c ∈ cs, c.complete ∧ isUpper (c.typ.getD 1 0) = true) ∧
      out = dst ++ chunksBytes cs ++ iendChunk ∧ (saw = true ∨ ∃ c ∈ cs, c.typ = idat)
  | 0, _, _, _, _, _, _, h => by simp [renderLoop] at h
  | fuel + 1, src, dst, hdr, saw, out, hh, h => by
    rw [renderLoop] at h
    by_cases h0 : src = []
    · rw [if_pos h0] at h
      simp at h
    rw [if_neg h0] at h
    have hh1 : (copy hdr (src.take 8)).length = 8 := by rw [length_copy, hh]
    simp only [renderFinish] at h
    split at h
    · rename_i hcond
      simp only [Bool.not_true, Bool.false_eq_true, if_false, Outcome.ok.injEq, Prod.mk.injEq,
        true_and] at h
      exact ⟨[], by simp, by simp [chunksBytes, h], Or.inl hcond.2⟩
    · split at h
      · rename_i hup
        split at h
        · simp at h
        · rename_i dst2 src2 heq
          obtain ⟨e1, e2, e3⟩ := copyN_ok _ _ _ _ _ heq
          obtain ⟨c, hc, hct, hcb⟩ := chunk_of_header _ (src.drop 8) hh1 e3
          obtain ⟨cs, hcs, hout, hsaw⟩ := renderLoop_success fuel _ _ _ _ out hh1 h
          refine ⟨c :: cs, ?_, ?_, ?_⟩
          · intro d hd
            rcases List.mem_cons.mp hd with rfl | hd
            · exact ⟨hc, by rw [hct]; exact hup⟩
            · exact hcs d hd
          · rw [hout, e1, chunksBytes_cons, hcb]
            simp
          · rcases hsaw with hs | ⟨d, hd, hdt⟩
            · simp only [Bool.or_eq_true, decide_eq_true_eq] at hs
              rcases hs with hs | hs
              · exact Or.inl hs
              · exact Or.inr ⟨c, List.mem_cons_self _ _, by rw [hct]; exact hs⟩
            · exact Or.inr ⟨d, List.mem_cons_of_mem _ hd, hdt⟩
      · rename_i hup
        split at h
        · simp at h
        · obtain ⟨cs, hcs, hout, hsaw⟩ := renderLoop_success fuel _ _ _ _ out hh1 h
          refine ⟨cs, hcs, hout, ?_⟩
          rcases hsaw with hs | hs
          · simp only [Bool.or_eq_true, decide_eq_true_eq] at hs
            rcases hs with hs | hs
            · exact Or.inl hs
            · rw [hs] at hup
              exact absurd (by decide) hup
          · exact Or.inr hs

/-- A list of chunks one of which has a decisive type splits at the first such
chunk. -/
theorem split_at_decisive : ∀ (cs : List Chunk), (∃ c ∈ cs, decisive c.typ) →
    ∃ pre d post, cs = pre ++ d :: post ∧ (∀ c ∈ pre, ¬ decisive c.typ) ∧ decisive d.typ
  | [], h => by simp at h
  | c :: cs, h => by
    by_cases hc : decisive c.typ
    · exact ⟨[], c, cs, rfl, by simp, hc⟩
    · obtain ⟨d, hd, hdt⟩ := h
      have hd' : d ∈ cs := by
        rcases List.mem_cons.mp hd with rfl | hd
        · exact absurd hdt hc
        · exact hd
      obtain ⟨pre, e, post, h1, h2, h3⟩ := split_at_decisive cs ⟨d, hd', hdt⟩
      refine ⟨c :: pre, e, post, by rw [h1]; rfl, ?_, h3⟩
      intro x hx
      rcases List.mem_cons.mp hx with rfl | hx
      · exact hc
      · exact h2 x hx

/-- C25: deanimated PNG output is never detected as animated. For every input
that starts with the 8-byte PNG signature and on which `png.RenderFirstFrame`
succeeds, `png.IsAnimated` applied to the bytes written returns `(false, nil)`. -/
theorem IsAnimated_of_RenderFirstFrame_output (src out : List Byte)
    (hsig : src.take 8 = pngHeader) (h : RenderFirstFrame src = .ok (none, out)) :
    IsAnimated out = .ok (false, none) := by
  rw [RenderFirstFrame] at h
  split at h
  · simp at h
  · rename_i dst src1 heq
    obtain ⟨e1, _, _⟩ := copyN_ok _ _ _ _ _ heq
    rw [List.nil_append, hsig] at e1
    subst e1
    obtain ⟨cs, hcs, hout, hsaw⟩ := renderLoop_success _ _ _ _ _ out (by simp [zeros]) h
    have hidat : ∃ c ∈ cs, decisive c.typ := by
      rcases hsaw with hs | ⟨c, hc, hct⟩
      · simp at hs
      · exact ⟨c, hc, Or.inr (Or.inl hct)⟩
    obtain ⟨pre, d, post, hsplit, hpre, hd⟩ := split_at_decisive cs hidat
    have hdc := (hcs d (by rw [hsplit]; simp)).1
    have hdu := (hcs d (by rw [hsplit]; simp)).2
    have hna : d.typ ≠ actl := by
      intro e
      rw [e] at hdu
      exact absurd hdu (by decide)
    have e : out = pngHeader ++ chunksBytes pre ++ d.len ++ d.typ
        ++ (d.data ++ d.crc ++ chunksBytes post ++ iendChunk) := by
      rw [hout, hsplit]
      simp [chunksBytes, Chunk.bytes]
    rw [e, IsAnimated_on_decisive pre d.len d.typ _
      (fun c hc => ⟨(hcs c (by rw [hsplit]; simp [hc])).1, hpre c hc⟩) hdc.1 hd]
    simp [hna]

/-- An instance of C25: the output for an input with a private chunk, an `acTL`
chunk and an `fcTL` header after the `IDAT` chunk. -/
theorem IsAnimated_of_RenderFirstFrame_output_witness :
    (pngHeader ++ chunksBytes [exampleIHDR, exampleACTL, examplePrivate, exampleIDAT]
        ++ [0, 0, 0, 26] ++ fctl ++ [1, 2, 3]).take 8 = pngHeader ∧
    RenderFirstFrame (pngHeader ++ chunksBytes [exampleIHDR, exampleACTL, examplePrivate, exampleIDAT]
        ++ [0, 0, 0, 26] ++ fctl ++ [1, 2, 3])
      = .ok (none, pngHeader ++ chunksBytes [exampleIHDR, exampleIDAT] ++ iendChunk) ∧
    IsAnimated (pngHeader ++ chunksBytes [exampleIHDR, exampleIDAT] ++ iendChunk)
      = .ok (false, none) :=
  ⟨by decide, by decide,
    IsAnimated_of_RenderFirstFrame_output
      (pngHeader ++ chunksBytes [exampleIHDR, exampleACTL, examplePrivate, exampleIDAT]
        ++ [0, 0, 0, 26] ++ fctl ++ [1, 2, 3])
      (pngHeader ++ chunksBytes [exampleIHDR, exampleIDAT] ++ iendChunk) (by decide) (by decide)⟩

end png

namespace riff

theorem copyAll_length (z : Reader) : (z.copyAll).2.r.length ≤ z.r.length := by
  unfold Reader.copyAll
  split
  · exact Nat.le_refl _
  · simp only [List.length_drop]; omega

theorem chunkRead_length (z : Reader) (n : Nat) : (z.chunkRead n).2.r.length ≤ z.r.length := by
  unfold Reader.chunkRead
  split
  · exact Nat.le_refl _
  · split
    · exact Nat.le_refl _
    · split
      · exact Nat.le_refl _
      · simp only [List.length_drop]; omega

theorem readFull_length (r : List Byte) (n : Nat) : (readFull r n).2.2.length ≤ r.length := by
  unfold readFull
  split
  · simp only [List.length_drop]; omega
  · split <;> simp

theorem skipPadding_length (z : Reader) : (z.skipPadding).2.r.length ≤ z.r.length := by
  unfold Reader.skipPadding
  split
  · split
    · exact Nat.le_refl _
    · have := readFull_length z.r 1
      split <;> rename_i heq <;> rw [heq] at this <;> exact this
  · exact Nat.le_refl _

theorem nextHeader_length (z z1 : Reader) (id : List Byte) (len : Nat)
    (h : z.nextHeader = ((id, len, none), z1)) : z1.r.length + 8 ≤ z.r.length := by
  unfold Reader.nextHeader readFull at h
  split at h
  · simp at h
  · split at h
    · simp at h
    · split at h
      · simp at h
      · rename_i buf rest heq
        split at heq
        · simp only [Prod.mk.injEq, true_and] at heq
          simp only at h
          split at h
          · simp at h
          · simp only [Prod.mk.injEq] at h
            rw [← h.2, ← heq.2]
            simp only [List.length_drop]
            omega
        · split at heq <;> simp at heq

theorem afterChunk_length (z0 z1 : Reader) (id : List Byte) (len : Nat)
    (h : (match z0.skipPadding with
      | (some e, z2) => (([], 0, some e), z2)
      | (none, z2) => z2.nextHeader) = ((id, len, none), z1)) :
    z1.r.length + 8 ≤ z0.r.length := by
  have hs := skipPadding_length z0
  split at h
  · simp at h
  · rename_i z2 heq
    rw [heq] at hs
    have := nextHeader_length z2 z1 id len h
    simp only at hs
    omega

theorem Next_length (z z1 : Reader) (id : List Byte) (len : Nat)
    (h : z.Next = ((id, len, none), z1)) : z1.r.length + 8 ≤ z.r.length := by
  unfold Reader.Next at h
  split at h
  · simp at h
  · have hc := copyAll_length z
    simp only at h
    by_cases hcl : z.chunkLen = 0
    · simp only [hcl, ne_eq, not_true_eq_false, if_false, false_and] at h
      exact afterChunk_length z z1 id len h
    · simp only [ne_eq, hcl, not_false_eq_true, if_true, true_and] at h
      split at h
      · simp at h
      · have := afterChunk_length _ z1 id len h
        omega

end riff

namespace webp

/-- The loop of `readANMFBitstream` returns when its fuel exceeds the number of
bytes left in the stream; every iteration that goes on consumes 8 bytes. -/
theorem bitstreamLoop_returns : ∀ (fuel : Nat) (z : riff.Reader) (bs : List Byte) (ha : Bool),
    z.r.length < fuel → ∃ res, bitstreamLoop fuel z bs ha = .ok res
  | 0, _, _, _, hf => by simp at hf
  | fuel + 1, z, bs, ha, hf => by
    rw [bitstreamLoop]
    split
    · exact ⟨_, rfl⟩
    · exact ⟨_, rfl⟩
    · rename_i id len z1 heq
      have h1 := riff.Next_length z z1 id len heq
      split
      · have h2 := riff.copyAll_length z1
        exact bitstreamLoop_returns fuel (z1.copyAll).2 _ _ (by omega)
      · exact ⟨_, rfl⟩

theorem readANMFBitstream_returns (n : Nat) (data : List Byte) :
    ∃ res, readANMFBitstream n data = .ok res := by
  rw [readANMFBitstream]
  have hs := riff.NewListReader_spec (u32add n 4) (fccANMF ++ data)
  split
  · exact ⟨_, rfl⟩
  · exact ⟨_, rfl⟩
  · rename_i r heq
    by_cases hc : 4 ≤ u32add n 4 ∧ 4 ≤ (fccANMF ++ data).length
    · rw [if_pos hc, heq] at hs
      simp only [Prod.mk.injEq, Option.some.injEq, and_true] at hs
      have hr : r.r = data := by
        rw [hs.2]
        exact List.drop_left' rfl
      exact bitstreamLoop_returns _ r [] false (by rw [hr]; omega)
    · rw [if_neg hc, heq] at hs
      obtain ⟨e, he⟩ := hs
      simp at he

theorem renderFrame_allOrNothing (canvas : List Byte) (n : Nat) (data : List Byte) :
    ∃ res, renderFrame canvas (readANMFBitstream n data) = .ok res ∧ allOrNothing canvas res := by
  obtain ⟨⟨B, a, e⟩, h⟩ := readANMFBitstream_returns n data
  cases e with
  | none =>
    rw [h]
    exact ⟨_, rfl, Or.inr ⟨canvas, B, a, n, data, h, rfl, Or.inl rfl⟩⟩
  | some err =>
    rw [h]
    exact ⟨_, rfl, Or.inl ⟨_, rfl⟩⟩

theorem allOrNothing_of_canvas (canvas data : List Byte) (res : Option GoError × List Byte)
    (h : allOrNothing (copy (zeros 6) data) res) : allOrNothing canvas res := by
  rcases h with h | ⟨cv, B, a, n, d, h1, h2, h3⟩
  · exact Or.inl h
  · refine Or.inr ⟨cv, B, a, n, d, h1, h2, Or.inr ?_⟩
    rcases h3 with h3 | h3
    · rw [h3, length_copy]; simp [zeros]
    · exact h3

/-- The loop of `RenderFirstFrame` returns when its fuel exceeds the number of
bytes left in the stream, and what it returns is an error with nothing written or
the container. -/
theorem renderLoop_allOrNothing : ∀ (fuel : Nat) (z : riff.Reader) (canvas : List Byte),
    z.r.length < fuel →
    ∃ res, renderLoop fuel z canvas = .ok res ∧ allOrNothing canvas res
  | 0, _, _, hf => by simp at hf
  | fuel + 1, z, canvas, hf => by
    rw [renderLoop]
    split
    · exact ⟨_, rfl, Or.inl ⟨_, rfl⟩⟩
    · rename_i id len z1 heq
      have h1 := riff.Next_length z z1 id len heq
      split
      · split
        · exact ⟨_, rfl, Or.inl ⟨_, rfl⟩⟩
        · rename_i ext r2 heq2
          have l2 : r2.r.length ≤ z1.r.length := by
            have := riff.chunkRead_length z1 1
            rw [heq2] at this
            exact this
          split
          · exact ⟨_, rfl, Or.inl ⟨_, rfl⟩⟩
          · split
            · exact ⟨_, rfl, Or.inl ⟨_, rfl⟩⟩
            · rename_i r3 heq3
              have l3 : r3.r.length ≤ r2.r.length := by
                have := riff.chunkRead_length r2 3
                rw [heq3] at this
                exact this
              split
              · exact ⟨_, rfl, Or.inl ⟨_, rfl⟩⟩
              · rename_i data r4 heq4
                have l4 : r4.r.length ≤ r3.r.length := by
                  have := riff.chunkRead_length r3 6
                  rw [heq4] at this
                  exact this
                obtain ⟨res, hr, hp⟩ := renderLoop_allOrNothing fuel r4 (copy (zeros 6) data)
                  (by omega)
                exact ⟨res, hr, allOrNothing_of_canvas canvas data res hp⟩
      · split
        · exact renderLoop_allOrNothing fuel z1 canvas (by omega)
        · split
          · split
            · exact ⟨_, rfl, Or.inl ⟨_, rfl⟩⟩
            · exact renderFrame_allOrNothing canvas _ _
          · exact ⟨_, rfl, Or.inl ⟨_, rfl⟩⟩

/-- C27: `webp.RenderFirstFrame` is all-or-nothing. For every input the call
returns; when it returns a non-nil error nothing has been written; and when
something has been written, no error is returned and what has been written is
the container around a bitstream that `readANMFBitstream` returned without
error. -/
theorem RenderFirstFrame_all_or_nothing (src : List Byte) :
    ∃ e out, RenderFirstFrame src = .ok (e, out) ∧ ((∃ err, e = some err) → out = []) ∧
      (out ≠ [] → e = none ∧ ∃ (cv B : List Byte) (a : Bool) (n : Nat) (data : List Byte),
        readANMFBitstream n data = .ok (B, a, none) ∧ out = container cv B a) := by
  have key : ∃ res, RenderFirstFrame src = .ok res ∧ allOrNothing [] res := by
    rw [RenderFirstFrame]
    have hs := riff.NewReader_spec src
    split
    · exact ⟨_, rfl, Or.inl ⟨_, rfl⟩⟩
    · exact ⟨_, rfl, Or.inl ⟨_, rfl⟩⟩
    · rename_i formType r heq
      split
      · exact ⟨_, rfl, Or.inl ⟨_, rfl⟩⟩
      · by_cases hc : 12 ≤ src.length ∧ src.take 4 = [0x52, 0x49, 0x46, 0x46] ∧
            4 ≤ littleEndianUint32 ((src.drop 4).take 4)
        · rw [if_pos hc, heq] at hs
          simp only [Prod.mk.injEq, Option.some.injEq, and_true] at hs
          have hr : r.r.length < src.length + 1 := by
            rw [hs.2]
            simp only [riff.Reader.fresh, List.length_drop]
            omega
          exact renderLoop_allOrNothing _ r [] hr
        · rw [if_neg hc, heq] at hs
          obtain ⟨e, he⟩ := hs
          simp at he
  obtain ⟨⟨e, out⟩, h, hp⟩ := key
  refine ⟨e, out, h, ?_, ?_⟩
  · rintro ⟨err, rfl⟩
    rcases hp with ⟨err1, h1⟩ | ⟨cv, B, a, n, d, _, h2, _⟩
    · simp only [Prod.mk.injEq] at h1
      exact h1.2
    · simp at h2
  · intro hne
    rcases hp with ⟨err1, h1⟩ | ⟨cv, B, a, n, d, h1, h2, _⟩
    · simp only [Prod.mk.injEq] at h1
      exact absurd h1.2 hne
    · simp only [Prod.mk.injEq] at h2
      exact ⟨h2.1, cv, B, a, n, d, h1, h2.2⟩

theorem littleEndianUint32_putUint32LE (n : Nat) (h : n < 4294967296) :
    littleEndianUint32 (putUint32LE n) = n := by
  simp only [littleEndianUint32, putUint32LE, List.getD_cons_zero, List.getD_cons_succ,
    Fin.ofNat, Fin.val_mk]
  omega

/-- With a canvas size of six bytes the container is self-consistent: its
length is 8 plus the size stored in its bytes 4 to 7, which is 30 plus the length
of the bitstream. -/
theorem container_consistent (cv B : List Byte) (a : Bool) (hcv : cv.length = 6)
    (hB : 22 + B.length < 4294967296) :
    (container cv B a).length = 8 + littleEndianUint32 (((container cv B a).drop 4).take 4) ∧
    (container cv B a).length = 30 + B.length := by
  have e : ((container cv B a).drop 4).take 4 = putUint32LE (4 + 8 + 10 + B.length) := by
    simp [container, putUint32LE]
  rw [e, littleEndianUint32_putUint32LE _ (by omega)]
  simp [container, putUint32LE, fccWEBP, fccVP8X, hcv]
  omega

/-- C26: the output is not always a self-consistent container. On a WEBP file
whose first chunk is an `ANMF` chunk (no `VP8X` chunk before it) the call
succeeds with an empty canvas size: it writes 48 bytes, while the size field in
bytes 4 to 7 of the output says 46, which stands for 54 bytes, and the `VP8X`
chunk in the output, which declares 10 payload bytes, has 4 bytes before the
bitstream starts. -/
theorem RenderFirstFrame_output_without_canvas_size :
    RenderFirstFrame (fccRIFF ++ [52, 0, 0, 0] ++ fccWEBP ++ exampleANMFHeader ++ exampleFrame)
      = .ok (none, exampleOutputNoCanvas) ∧
    exampleOutputNoCanvas.length = 48 ∧
    8 + littleEndianUint32 ((exampleOutputNoCanvas.drop 4).take 4) = 54 ∧
    (exampleOutputNoCanvas.drop 12).take 8 = fccVP8X ++ [10, 0, 0, 0] ∧
    exampleOutputNoCanvas.drop 24 = fccALPH ++ [3, 0, 0, 0] ++ [7, 7, 7] ++ [0]
      ++ (fccVP8 ++ [4, 0, 0, 0] ++ [1, 2, 3, 4]) := by
  decide

end webp

end Deanimator
